import Mathlib

/-!
The trie of komanda/share/trie/trie.go.

A shallow embedding of the character trie of `komanda/share/trie/trie.go`.

Modelling decisions, all visible in the definitions below:

* A Go `string` is a `GoString`, any sequence of bytes, valid UTF-8 or not.  The
  conversion `[]rune(key)` is `runes key`: it decodes the bytes with
  `DecodeRuneInString` and turns every byte that starts no well-formed encoding
  into `RuneError` (U+FFFD), so that distinct keys can share their runes.  The
  conversion `string(r)`, from which `collect` rebuilds its words, is
  `stringOfRune r`.  A `rune` held by the trie is a `Char`, a Unicode scalar
  value; `utf8 "text"` writes a Go string literal.
* `map[rune]*Node` is an association list `List (Char × Node M)`; Go leaves the
  iteration order of a map unspecified, the embedding iterates so that the head
  of the list ends on top of a work stack.
* `*Node` with its `parent` link is the node together with the list of its
  ancestors, nearest first (`[]` for the root).  Mutation in place becomes
  rebuilding the ancestors around the changed node.
* `uint64` masks are `Nat` below `2 ^ 64`; `interface{}` payloads are
  `Option M` with `none` for `nil`.
* A run-time panic is a `Fault`.  The two `for` loops over a work stack take
  the number of nodes as an iteration bound; `Fault.outOfFuel` reports an
  exhausted bound and is never produced (see `collect_eq_collectRec`,
  `fuzzycollect_eq_fuzzyRec`).
* The upward walk of `Remove` over the parent links is `removeLoop`; its reading
  from the root, `removeRec`, is proved equal to it (`removeLoop_eq_removeRec`)
  and carries the proofs about the keys and masks left by `Remove`.
-/

namespace trie

/-- Run-time panics of the Go program, and the exhausted iteration bound. -/
inductive Fault where
  | nilDereference
  | indexOutOfRange
  | outOfFuel
  deriving DecidableEq, Repr

deriving instance DecidableEq for Except

/-- Node struct (the `parent` link is carried beside the node, see above). -/
inductive Node (M : Type) where
  | mk (val : Char) (term : Bool) (depth : Nat) (meta : Option M) (mask : Nat)
      (children : List (Char × Node M))

namespace Node
variable {M : Type}

/-- Val returns the value of the node as a rune. -/
def val : Node M → Char
  | mk v _ _ _ _ _ => v

/-- Field `term`. -/
def term : Node M → Bool
  | mk _ t _ _ _ _ => t

/-- Field `depth`. -/
def depth : Node M → Nat
  | mk _ _ d _ _ _ => d

/-- Meta returns the meta information of this node. -/
def meta : Node M → Option M
  | mk _ _ _ m _ _ => m

/-- Mask returns a uint64 representing the current mask of this node. -/
def mask : Node M → Nat
  | mk _ _ _ _ k _ => k

/-- Children returns the children of this node. -/
def children : Node M → List (Char × Node M)
  | mk _ _ _ _ _ cs => cs

/-- Assignment to the field `mask`. -/
def setMask : Node M → Nat → Node M
  | mk v t d m _ cs, k => mk v t d m k cs

/-- Assignment to the field `children`. -/
def setChildren : Node M → List (Char × Node M) → Node M
  | mk v t d m k _, cs => mk v t d m k cs

mutual
/-- Number of nodes of the subtree, the iteration bound of the traversals. -/
def count : Node M → Nat
  | mk _ _ _ _ _ cs => 1 + countList cs
/-- Number of nodes below a children map. -/
def countList : List (Char × Node M) → Nat
  | [] => 0
  | (_, c) :: rest => count c + countList rest
end

end Node

/-- Trie struct. -/
structure Trie (M : Type) where
  root : Node M
  size : Int

variable {M : Type}

/-- Map read `m[r]` with the `ok` flag. -/
def getChild : List (Char × Node M) → Char → Option (Node M)
  | [], _ => none
  | (k, c) :: rest, r => if k = r then some c else getChild rest r

/-- Map write `m[r] = c`: replaces the entry of `r` or adds one. -/
def setChild : List (Char × Node M) → Char → Node M → List (Char × Node M)
  | [], r, c => [(r, c)]
  | (k, x) :: rest, r, c => if k = r then (r, c) :: rest else (k, x) :: setChild rest r c

/-- Map `delete(m, r)`. -/
def delChild : List (Char × Node M) → Char → List (Char × Node M)
  | [], _ => []
  | (k, x) :: rest, r => if k = r then delChild rest r else (k, x) :: delChild rest r

/-- A byte of a Go `string`. -/
abbrev Byte := Fin 256

/-- A Go `string`: any sequence of bytes, valid UTF-8 or not. -/
abbrev GoString := List Byte

/-- The byte of a number below 256. -/
def byte (n : Nat) : Byte := ⟨n % 256, Nat.mod_lt _ (by decide)⟩

/-- The constant `utf8.RuneError`, U+FFFD. -/
def RuneError : Char := Char.ofNat 0xFFFD

/-- The conversion `string(r)` of a rune: its UTF-8 encoding in one to four bytes. -/
def stringOfRune (c : Char) : GoString :=
  let v := c.toNat
  if v < 0x80 then [byte v]
  else if v < 0x800 then [byte (0xC0 + v / 64), byte (0x80 + v % 64)]
  else if v < 0x10000 then
    [byte (0xE0 + v / 4096), byte (0x80 + v / 64 % 64), byte (0x80 + v % 64)]
  else
    [byte (0xF0 + v / 262144), byte (0x80 + v / 4096 % 64), byte (0x80 + v / 64 % 64),
      byte (0x80 + v % 64)]

/-- Lowest second byte that the first byte `b0` of a multi-byte encoding accepts
(the table `acceptRanges` of package `utf8`). -/
def acceptLo (b0 : Nat) : Nat :=
  if b0 = 0xE0 then 0xA0 else if b0 = 0xF0 then 0x90 else 0x80

/-- Highest second byte that the first byte `b0` of a multi-byte encoding accepts. -/
def acceptHi (b0 : Nat) : Nat :=
  if b0 = 0xED then 0x9F else if b0 = 0xF4 then 0x8F else 0xBF

/-- The library function `utf8.DecodeRuneInString`: the first rune of the string
and its width in bytes; `(RuneError, 1)` when the string does not start with
a well-formed, shortest-form encoding of a Unicode scalar value, and
`(RuneError, 0)` on the empty string. -/
def DecodeRuneInString : GoString → Char × Nat
  | [] => (RuneError, 0)
  | b0 :: tl =>
    if b0.val < 0x80 then (Char.ofNat b0.val, 1)
    else if b0.val < 0xC2 then (RuneError, 1)
    else if b0.val < 0xE0 then
      match tl with
      | b1 :: _ =>
        if 0x80 ≤ b1.val ∧ b1.val ≤ 0xBF then
          (Char.ofNat ((b0.val - 0xC0) * 64 + (b1.val - 0x80)), 2)
        else (RuneError, 1)
      | _ => (RuneError, 1)
    else if b0.val < 0xF0 then
      match tl with
      | b1 :: b2 :: _ =>
        if acceptLo b0.val ≤ b1.val ∧ b1.val ≤ acceptHi b0.val
            ∧ 0x80 ≤ b2.val ∧ b2.val ≤ 0xBF then
          (Char.ofNat ((b0.val - 0xE0) * 4096 + (b1.val - 0x80) * 64 + (b2.val - 0x80)), 3)
        else (RuneError, 1)
      | _ => (RuneError, 1)
    else if b0.val < 0xF5 then
      match tl with
      | b1 :: b2 :: b3 :: _ =>
        if acceptLo b0.val ≤ b1.val ∧ b1.val ≤ acceptHi b0.val
            ∧ 0x80 ≤ b2.val ∧ b2.val ≤ 0xBF ∧ 0x80 ≤ b3.val ∧ b3.val ≤ 0xBF then
          (Char.ofNat ((b0.val - 0xF0) * 262144 + (b1.val - 0x80) * 4096 + (b2.val - 0x80) * 64
            + (b3.val - 0x80)), 4)
        else (RuneError, 1)
      | _ => (RuneError, 1)
    else (RuneError, 1)

/-- The runes of a string from a position on: `skip` is the number of bytes of
the rune just decoded that are still to be passed over. -/
def runesFrom : Nat → GoString → List Char
  | _, [] => []
  | skip + 1, _ :: tl => runesFrom skip tl
  | 0, b0 :: tl =>
    (DecodeRuneInString (b0 :: tl)).1 :: runesFrom ((DecodeRuneInString (b0 :: tl)).2 - 1) tl

/-- The conversion `[]rune(s)`: the string decoded rune by rune, every byte that
starts no well-formed encoding giving one `RuneError`. -/
def runes (s : GoString) : List Char := runesFrom 0 s

/-- The string that spells a rune sequence: the concatenation of `string(r)`. -/
def stringOfRunes (rs : List Char) : GoString := rs.flatMap stringOfRune

/-- The Go string literal with the given text: its UTF-8 bytes. -/
def utf8 (s : String) : GoString := stringOfRunes s.data

/-- The library predicate `utf8.ValidString`: the string is the UTF-8 encoding of
its own runes. -/
def ValidString (s : GoString) : Bool := decide (stringOfRunes (runes s) = s)

/-- The constant `nul = 0x0`. -/
def nul : Char := Char.ofNat 0

/-- The shift count `uint64(r - 'a')`: the `int32` difference, sign-extended to
64 bits and read as unsigned. -/
def shiftCount (r : Char) : Nat :=
  (((r.toNat : Int) - 97) % (2 : Int) ^ 64).toNat

/-- The bit `uint64(1) << uint64(r - 'a')`; Go shifts by 64 or more give 0. -/
def runeBit (r : Char) : Nat :=
  if shiftCount r < 64 then (1 <<< shiftCount r) % 2 ^ 64 else 0

/-- Function `maskruneslice`. -/
def maskruneslice (rs : List Char) : Nat :=
  rs.foldl (fun m r => m ||| runeBit r) 0

/-- New Trie with an initialized root Node. -/
def New : Trie M :=
  { root := Node.mk nul false 0 none 0 [], size := 0 }

/-- NewChild creates a new child for the node; returns the updated node and the child. -/
def Node.NewChild (n : Node M) (val : Char) (bitmask : Nat) (meta : Option M) (term : Bool) :
    Node M × Node M :=
  let node : Node M := Node.mk val term (n.depth + 1) meta bitmask []
  let n1 := n.setChildren (setChild n.children val node)
  (n1.setMask (n1.mask ||| bitmask), node)

/-- Write a changed child back into its parent, at the key it was read from. -/
def plug (parent : Node M) (r : Char) (child : Node M) : Node M :=
  parent.setChildren (setChild parent.children r child)

/-- The loop of `Add` from `node` on, over the runes still to insert, and the
final `NewChild(nul, 0, meta, true)`; returns the updated `node` and the
terminal node. -/
def addLoop (node : Node M) : List Char → Option M → Node M × Node M
  | [], meta => node.NewChild nul 0 meta true
  | r :: rest, meta =>
    let bitmask := maskruneslice (r :: rest)
    match getChild node.children r with
    | some n =>
      let res := addLoop (n.setMask (n.mask ||| bitmask)) rest meta
      (plug node r res.1, res.2)
    | none =>
      let nc := node.NewChild r bitmask none false
      let res := addLoop nc.2 rest meta
      (plug nc.1 r res.1, res.2)

/-- Add the key to the Trie, including meta data; returns the trie after the
call and the terminal node. -/
def Add (t : Trie M) (key : GoString) (meta : Option M) : Trie M × Node M :=
  let rs := runes key
  let bitmask := maskruneslice rs
  let node := t.root.setMask (t.root.mask ||| bitmask)
  let res := addLoop node rs meta
  ({ root := res.1, size := t.size + 1 }, res.2)

/-- Function `findNode`; `parents` are the ancestors of `node`, nearest first. -/
def findNode (parents : List (Node M)) (node : Node M) :
    List Char → Option (List (Node M) × Node M)
  | [] => some (parents, node)
  | r :: rest =>
    match getChild node.children r with
    | none => none
    | some n => findNode (node :: parents) n rest

/-- Find and returns meta data associated with `key`: `some node` is
`(node, true)`, `none` is `(nil, false)`. -/
def Find (t : Trie M) (key : GoString) : Except Fault (Option (Node M)) :=
  match findNode [] t.root (runes key) with
  | none => .ok none
  | some (_, node) =>
    match getChild node.children nul with
    | none => .error Fault.nilDereference
    | some s => if !s.term then .ok none else .ok (some s)

/-- The mask a node gets in `RemoveChild`: cleared, then the bit of its own
character, then the mask of every child. -/
def recomputedMask (nd : Node M) : Nat :=
  nd.children.foldl (fun m c => m ||| c.2.mask) ((nd.mask ^^^ nd.mask) ||| runeBit nd.val)

/-- The loop of `RemoveChild` over `nd := n.parent, nd.parent, ...`: `cur` is
the node below `nd` on the path, already changed; returns the new root. -/
def recomputeUp : List (Node M) → Node M → Node M
  | [], cur => cur
  | nd :: up, cur =>
    let nd1 := plug nd cur.val cur
    recomputeUp up (nd1.setMask (recomputedMask nd1))

/-- RemoveChild from list; `parents` are the ancestors of `n`; returns the new root. -/
def Node.RemoveChild (parents : List (Node M)) (n : Node M) (r : Char) : Node M :=
  recomputeUp parents (n.setChildren (delChild n.children r))

/-- The loop of `Remove` over `n := node.Parent(), n.Parent(), ...` with the
counter `i`; returns the new root when a child was removed. -/
def removeLoop (rs : List Char) : List (Node M) → Nat → Except Fault (Option (Node M))
  | [], _ => .ok none
  | n :: up, i =>
    if n.children.length > 1 then
      if i + 1 ≤ rs.length then
        match rs[rs.length - (i + 1)]? with
        | some r => .ok (some (n.RemoveChild up r))
        | none => .error Fault.indexOutOfRange
      else .error Fault.indexOutOfRange
    else removeLoop rs up (i + 1)

/-- Remove a key from the trie. -/
def Remove (t : Trie M) (key : GoString) : Except Fault (Trie M) :=
  let rs := runes key
  match findNode [] t.root rs with
  | none => .error Fault.nilDereference
  | some (parents, _) =>
    match removeLoop rs parents 0 with
    | .error e => .error e
    | .ok none => .ok { root := t.root, size := t.size - 1 }
    | .ok (some root) => .ok { root := root, size := t.size - 1 }

/-- The inner loop of `collect`: `for p := n.parent; p.depth != 0; p = p.parent`
building `word`, over the ancestors of the terminal node. -/
def word : List (Node M) → Except Fault GoString
  | [] => .error Fault.nilDereference
  | p :: up =>
    if p.depth ≠ 0 then
      match word up with
      | .ok w => .ok (w ++ stringOfRune p.val)
      | .error e => .error e
    else .ok []

/-- A stack entry: a node with its ancestors. -/
abbrev Ptr (M : Type) := List (Node M) × Node M

/-- Pushing every child of a node, whose ancestors-and-self are `chain`. -/
def pushChildren (chain : List (Node M)) (cs : List (Char × Node M)) (nodes : List (Ptr M)) :
    List (Ptr M) :=
  cs.map (fun c => (chain, c.2)) ++ nodes

/-- The outer loop of `collect` over the stack `nodes` (top first). -/
def collectLoop : Nat → List (Ptr M) → List GoString → Except Fault (List GoString)
  | _, [], keys => .ok keys
  | 0, _ :: _, _ => .error Fault.outOfFuel
  | fuel + 1, (parents, n) :: nodes, keys =>
    let nodes1 := pushChildren (n :: parents) n.children nodes
    if n.term then
      match word parents with
      | .ok w => collectLoop fuel nodes1 (keys ++ [w])
      | .error e => .error e
    else collectLoop fuel nodes1 keys

/-- Function `collect` on `node`, whose ancestors are `parents`. -/
def collect (parents : List (Node M)) (node : Node M) : Except Fault (List GoString) :=
  collectLoop node.count [(parents, node)] []

/-- PrefixSearch performs a prefix search against the keys in the trie. -/
def PrefixSearch (t : Trie M) (pre : GoString) : Except Fault (List GoString) :=
  match findNode [] t.root (runes pre) with
  | none => .ok []
  | some (parents, node) => collect parents node

/-- Keys will return all the keys currently stored in the trie. -/
def Keys (t : Trie M) : Except Fault (List GoString) :=
  PrefixSearch t []

/-- The struct `potentialSubtree`: `idx` and the node with its ancestors. -/
abbrev potentialSubtree (M : Type) := Nat × Ptr M

/-- The loop of `fuzzycollect` over the stack `potential` (top first). -/
def fuzzyLoop (pattern : List Char) :
    Nat → List (potentialSubtree M) → List GoString → Except Fault (List GoString)
  | _, [], keys => .ok keys
  | 0, _ :: _, _ => .error Fault.outOfFuel
  | fuel + 1, (idx, parents, node) :: potential, keys =>
    if idx > pattern.length then .error Fault.indexOutOfRange
    else
      let m := maskruneslice (pattern.drop idx)
      if node.mask &&& m ≠ m then fuzzyLoop pattern fuel potential keys
      else
        match pattern[idx]? with
        | none => .error Fault.indexOutOfRange
        | some c =>
          if node.val = c then
            if idx + 1 = pattern.length then
              match collect parents node with
              | .ok ks => fuzzyLoop pattern fuel potential (keys ++ ks)
              | .error e => .error e
            else
              fuzzyLoop pattern fuel
                (node.children.map (fun c => (idx + 1, node :: parents, c.2)) ++ potential) keys
          else
            fuzzyLoop pattern fuel
              (node.children.map (fun c => (idx, node :: parents, c.2)) ++ potential) keys

/-- Function `fuzzycollect` on `node` (with ancestors `parents`) and the pattern runes. -/
def fuzzycollect (parents : List (Node M)) (node : Node M) (pattern : List Char) :
    Except Fault (List GoString) :=
  fuzzyLoop pattern node.count [(0, parents, node)] []

/-- The method `ByKeys.Less` on two elements: `len(a[i]) < len(a[j])`, Go's `len`
of a string being its length in bytes. -/
def ByKeys.Less (a b : GoString) : Bool :=
  a.length < b.length

/-- The standard library's `sort.Sort`: a sort by `less` that is not guaranteed stable. -/
def sortSort (less : GoString → GoString → Bool) (keys : List GoString) : List GoString :=
  keys.insertionSort (fun a b => less b a = false)

/-- FuzzySearch performs a fuzzy search against the keys in the trie. -/
def FuzzySearch (t : Trie M) (pre : GoString) : Except Fault (List GoString) :=
  match fuzzycollect [] t.root (runes pre) with
  | .ok keys => .ok (sortSort ByKeys.Less keys)
  | .error e => .error e

/-- A call of the API that changes the trie. -/
inductive Op (M : Type) where
  | add (key : GoString) (meta : Option M)
  | remove (key : GoString)

/-- Running a sequence of calls from a trie. -/
def run : Trie M → List (Op M) → Except Fault (Trie M)
  | t, [] => .ok t
  | t, Op.add key meta :: ops => run (Add t key meta).1 ops
  | t, Op.remove key :: ops =>
    match Remove t key with
    | .ok t1 => run t1 ops
    | .error e => .error e

/-- The trie after `Add` calls on `New()`, in the order of the list. -/
def build (adds : List (GoString × Option M)) : Trie M :=
  adds.foldl (fun t p => (Add t p.1 p.2).1) New


mutual
/-- The recursion that the loop of `collect` unrolls: the word of the node when
it is terminal, then the words below each child in turn. -/
def collectRec (parents : List (Node M)) : Node M → Except Fault (List GoString)
  | Node.mk v t d m k cs =>
    match (if t then (match word parents with
                      | .ok w => Except.ok [w]
                      | .error e => Except.error e) else Except.ok []) with
    | .error e => .error e
    | .ok own =>
      match collectRecList (Node.mk v t d m k cs :: parents) cs with
      | .error e => .error e
      | .ok below => .ok (own ++ below)
/-- The recursion of `collect` over a children map. -/
def collectRecList (chain : List (Node M)) : List (Char × Node M) → Except Fault (List GoString)
  | [] => .ok []
  | (_, c) :: rest =>
    match collectRec chain c with
    | .error e => .error e
    | .ok a =>
      match collectRecList chain rest with
      | .error e => .error e
      | .ok b => .ok (a ++ b)
end

mutual
/-- The recursion that the loop of `fuzzycollect` unrolls. -/
def fuzzyRec (pattern : List Char) (idx : Nat) (parents : List (Node M)) :
    Node M → Except Fault (List GoString)
  | Node.mk v t d m k cs =>
    if idx > pattern.length then .error Fault.indexOutOfRange
    else
      if k &&& maskruneslice (pattern.drop idx) ≠ maskruneslice (pattern.drop idx) then .ok []
      else
        match pattern[idx]? with
        | none => .error Fault.indexOutOfRange
        | some c =>
          if v = c then
            if idx + 1 = pattern.length then collect parents (Node.mk v t d m k cs)
            else fuzzyRecList pattern (idx + 1) (Node.mk v t d m k cs :: parents) cs
          else fuzzyRecList pattern idx (Node.mk v t d m k cs :: parents) cs
/-- The recursion of `fuzzycollect` over a children map. -/
def fuzzyRecList (pattern : List Char) (idx : Nat) (chain : List (Node M)) :
    List (Char × Node M) → Except Fault (List GoString)
  | [] => .ok []
  | (_, c) :: rest =>
    match fuzzyRec pattern idx chain c with
    | .error e => .error e
    | .ok a =>
      match fuzzyRecList pattern idx chain rest with
      | .error e => .error e
      | .ok b => .ok (a ++ b)
end

/-- The terminal child reached from a children map along `key`, as `Find` looks it up. -/
def sentinelIn : List (Char × Node M) → List Char → Option (Node M)
  | cs, [] => getChild cs nul
  | cs, r :: rest =>
    match getChild cs r with
    | none => none
    | some c => sentinelIn c.children rest

mutual
/-- Key suffixes stored below a node, in the order `collect` lists them. -/
def suffixes : Node M → List (List Char)
  | Node.mk _ _ _ _ _ cs => suffixesList cs
/-- Key suffixes stored below a children map. -/
def suffixesList : List (Char × Node M) → List (List Char)
  | [] => []
  | (_, c) :: rest =>
    ((if c.term then [[]] else []) ++ (suffixes c).map (fun q => c.val :: q)) ++ suffixesList rest
end

mutual
/-- Shape of a node below the root at depth `d`: a childless terminal node under
`nul`, or a non-terminal node under its character. -/
def WFNode : Nat → Node M → Prop
  | d, Node.mk v t dep _ _ cs =>
    dep = d ∧ d ≠ 0 ∧ (if v = nul then t = true ∧ cs = [] else t = false ∧ WFChildren d cs)
/-- Shape of the children map of a node at depth `d`: one entry per rune, each
child filed under its own `val`. -/
def WFChildren : Nat → List (Char × Node M) → Prop
  | _, [] => True
  | d, (r, c) :: rest =>
    c.val = r ∧ getChild rest r = none ∧ WFNode (d + 1) c ∧ WFChildren d rest
end

/-- Shape of a node that is not a terminal sentinel, at depth `d`. -/
def WFInner (d : Nat) (n : Node M) : Prop :=
  n.depth = d ∧ n.term = false ∧ WFChildren d n.children

/-- Shape of a trie built by `Add` calls on keys without `nul`. -/
def TrieWF (t : Trie M) : Prop :=
  t.root.val = nul ∧ WFInner 0 t.root

/-- The chain `node :: parents` of a node whose path from the root, read
backwards, is `rq`: every node but the root has a non-zero depth. -/
def GoodChain : List (Node M) → List Char → Prop
  | [r], [] => r.depth = 0
  | p :: up, v :: rq => p.val = v ∧ p.depth ≠ 0 ∧ GoodChain up rq
  | _, _ => False

mutual
/-- The mask of a node covers, for every key suffix `q` stored below it, the
runes of `q` and the node's own rune; and so for every node below. -/
def MaskOK : Node M → Prop
  | Node.mk v _ _ _ k cs =>
    (∀ q ∈ suffixesList cs, k &&& maskruneslice (v :: q) = maskruneslice (v :: q))
      ∧ MaskOKList cs
/-- `MaskOK` for every child of a children map. -/
def MaskOKList : List (Char × Node M) → Prop
  | [] => True
  | (_, c) :: rest => MaskOK c ∧ MaskOKList rest
end

mutual
/-- Number of terminal nodes of a subtree. -/
def termCount : Node M → Nat
  | Node.mk _ t _ _ _ cs => (if t then 1 else 0) + termCountList cs
/-- Number of terminal nodes below a children map. -/
def termCountList : List (Char × Node M) → Nat
  | [] => 0
  | (_, c) :: rest => termCount c + termCountList rest
end

/-- Number of `Add` calls in a sequence of calls. -/
def addCalls : List (Op M) → Nat
  | [] => 0
  | Op.add _ _ :: ops => addCalls ops + 1
  | Op.remove _ :: ops => addCalls ops

/-- Number of `Remove` calls in a sequence of calls. -/
def removeCalls : List (Op M) → Nat
  | [] => 0
  | Op.add _ _ :: ops => removeCalls ops
  | Op.remove _ :: ops => removeCalls ops + 1

/-- The masks of the children of a map, OR-ed together. -/
def orMasks (cs : List (Char × Node M)) : Nat :=
  cs.foldl (fun m c => m ||| c.2.mask) 0

mutual
/-- Every node's mask holds the bit of its own rune and the mask of each child,
and each child is filed under its own `val`. -/
def LocalMask : Node M → Prop
  | Node.mk v _ _ _ k cs => k &&& runeBit v = runeBit v ∧ LocalMaskList k cs
/-- `LocalMask` of the children of a node with mask `k`. -/
def LocalMaskList : Nat → List (Char × Node M) → Prop
  | _, [] => True
  | k, (r, c) :: rest =>
    c.val = r ∧ k &&& c.mask = c.mask ∧ LocalMask c ∧ LocalMaskList k rest
end

/-- The upward walk of `Remove` read from the top of the path to `key`: the
deepest node on the path, the end node excluded, that has more than one child
loses its child on the path, and every node above it gets its mask recomputed;
`none` when no node on the path has more than one child. -/
def removeRec (n : Node M) : List Char → Option (Node M)
  | [] => none
  | r :: rest =>
    match getChild n.children r with
    | none => none
    | some c =>
      match removeRec c rest with
      | some c1 => some ((plug n c1.val c1).setMask (recomputedMask (plug n c1.val c1)))
      | none =>
        if n.children.length > 1 then some (n.setChildren (delChild n.children r)) else none

/-- The key of a call. -/
def Op.key : Op M → GoString
  | Op.add key _ => key
  | Op.remove key => key

/-- Whether the character path `p` exists below a node: `findNode` is not nil. -/
def hasPath : Node M → List Char → Bool
  | _, [] => true
  | n, r :: rest =>
    match getChild n.children r with
    | none => false
    | some c => hasPath c rest

mutual
/-- Every node's mask is exactly the bit of its own rune OR-ed with the masks of
its children. -/
def ExactMask : Node M → Prop
  | Node.mk v _ _ _ k cs => k = runeBit v ||| orMasks cs ∧ ExactMaskList cs
/-- `ExactMask` of every child of a children map. -/
def ExactMaskList : List (Char × Node M) → Prop
  | [] => True
  | (_, c) :: rest => ExactMask c ∧ ExactMaskList rest
end

/-- The mask of the node at the end of a character path, when the path exists. -/
def maskAt : Node M → List Char → Option Nat
  | n, [] => some n.mask
  | n, r :: rest =>
    match getChild n.children r with
    | none => none
    | some c => maskAt c rest

/-- The OR of a list of masks. -/
def orList (xs : List Nat) : Nat :=
  xs.foldl (fun m x => m ||| x) 0

/-- The OR, over the added keys that start with the path `p`, of `maskruneslice`
of the key from the last rune of `p` on. -/
def keysMask (adds : List (GoString × Option M)) (p : List Char) : Nat :=
  orList (((adds.map Prod.fst).filter (fun key => decide (p <+: (runes key)))).map
    (fun key => maskruneslice ((runes key).drop (p.length - 1))))

theorem byte_val (n : Nat) (h : n < 256) : (byte n).val = n := by
  simp [byte, Nat.mod_eq_of_lt h]

theorem char_valid (c : Char) : c.toNat < 0xD800 ∨ (0xDFFF < c.toNat ∧ c.toNat < 0x110000) :=
  c.valid

theorem DecodeRuneInString_stringOfRune (c : Char) (rest : GoString) :
    DecodeRuneInString (stringOfRune c ++ rest) = (c, (stringOfRune c).length) := by
  have hv := char_valid c
  have hc : Char.ofNat c.toNat = c := Char.ofNat_toNat c
  unfold stringOfRune
  simp only []
  generalize c.toNat = v at hv hc
  by_cases h1 : v < 0x80
  · have e0 : (byte v).val = v := byte_val v (by omega)
    simp [h1, DecodeRuneInString, e0, hc]
  · by_cases h2 : v < 0x800
    · have e0 : (byte (0xC0 + v / 64)).val = 0xC0 + v / 64 := byte_val _ (by omega)
      have e1 : (byte (0x80 + v % 64)).val = 0x80 + v % 64 := byte_val _ (by omega)
      have a1 : ¬ (0xC0 + v / 64 < 0x80) := by omega
      have a2 : ¬ (0xC0 + v / 64 < 0xC2) := by omega
      have a3 : 0xC0 + v / 64 < 0xE0 := by omega
      have a4 : 0x80 + v % 64 ≤ 0xBF := by omega
      have a5 : (0xC0 + v / 64 - 0xC0) * 64 + (0x80 + v % 64 - 0x80) = v := by omega
      simp only [if_neg h1, if_pos h2, List.cons_append, List.nil_append, DecodeRuneInString,
        e0, e1, if_neg a1, if_neg a2, if_pos a3, a5, hc, List.length_cons, List.length_nil]
      simp [a4]
    · by_cases h3 : v < 0x10000
      · have e0 : (byte (0xE0 + v / 4096)).val = 0xE0 + v / 4096 := byte_val _ (by omega)
        have e1 : (byte (0x80 + v / 64 % 64)).val = 0x80 + v / 64 % 64 := byte_val _ (by omega)
        have e2 : (byte (0x80 + v % 64)).val = 0x80 + v % 64 := byte_val _ (by omega)
        have a1 : ¬ (0xE0 + v / 4096 < 0x80) := by omega
        have a2 : ¬ (0xE0 + v / 4096 < 0xC2) := by omega
        have a3 : ¬ (0xE0 + v / 4096 < 0xE0) := by omega
        have a4 : 0xE0 + v / 4096 < 0xF0 := by omega
        have a5 : acceptLo (0xE0 + v / 4096) ≤ 0x80 + v / 64 % 64 := by
          unfold acceptLo
          split_ifs <;> omega
        have a6 : 0x80 + v / 64 % 64 ≤ acceptHi (0xE0 + v / 4096) := by
          unfold acceptHi
          split_ifs <;> omega
        have a7 : 0x80 + v % 64 ≤ 0xBF := by omega
        have a8 : (0xE0 + v / 4096 - 0xE0) * 4096 + (0x80 + v / 64 % 64 - 0x80) * 64
            + (0x80 + v % 64 - 0x80) = v := by omega
        simp only [if_neg h1, if_neg h2, if_pos h3, List.cons_append, List.nil_append,
          DecodeRuneInString, e0, e1, e2, if_neg a1, if_neg a2, if_neg a3, if_pos a4, a8, hc,
          List.length_cons, List.length_nil]
        simp [a5, a6, a7]
      · have e0 : (byte (0xF0 + v / 262144)).val = 0xF0 + v / 262144 := byte_val _ (by omega)
        have e1 : (byte (0x80 + v / 4096 % 64)).val = 0x80 + v / 4096 % 64 :=
          byte_val _ (by omega)
        have e2 : (byte (0x80 + v / 64 % 64)).val = 0x80 + v / 64 % 64 := byte_val _ (by omega)
        have e3 : (byte (0x80 + v % 64)).val = 0x80 + v % 64 := byte_val _ (by omega)
        have a1 : ¬ (0xF0 + v / 262144 < 0x80) := by omega
        have a2 : ¬ (0xF0 + v / 262144 < 0xC2) := by omega
        have a3 : ¬ (0xF0 + v / 262144 < 0xE0) := by omega
        have a4 : ¬ (0xF0 + v / 262144 < 0xF0) := by omega
        have a4b : 0xF0 + v / 262144 < 0xF5 := by omega
        have a5 : acceptLo (0xF0 + v / 262144) ≤ 0x80 + v / 4096 % 64 := by
          unfold acceptLo
          split_ifs <;> omega
        have a6 : 0x80 + v / 4096 % 64 ≤ acceptHi (0xF0 + v / 262144) := by
          unfold acceptHi
          split_ifs <;> omega
        have a7 : 0x80 + v / 64 % 64 ≤ 0xBF := by omega
        have a7b : 0x80 + v % 64 ≤ 0xBF := by omega
        have a8 : (0xF0 + v / 262144 - 0xF0) * 262144 + (0x80 + v / 4096 % 64 - 0x80) * 4096
            + (0x80 + v / 64 % 64 - 0x80) * 64 + (0x80 + v % 64 - 0x80) = v := by omega
        simp only [if_neg h1, if_neg h2, if_neg h3, List.cons_append, List.nil_append,
          DecodeRuneInString, e0, e1, e2, e3, if_neg a1, if_neg a2, if_neg a3, if_neg a4,
          if_pos a4b, a8, hc, List.length_cons, List.length_nil]
        simp [a5, a6, a7, a7b]

theorem stringOfRune_length_pos (c : Char) : 0 < (stringOfRune c).length := by
  unfold stringOfRune
  simp only []
  split_ifs <;> simp

theorem runesFrom_skip (pre rest : GoString) : runesFrom pre.length (pre ++ rest) = runesFrom 0 rest := by
  induction pre with
  | nil => rfl
  | cons b pre ih => simpa [runesFrom] using ih

theorem runes_stringOfRune_append (c : Char) (rest : GoString) :
    runes (stringOfRune c ++ rest) = c :: runes rest := by
  have hd := DecodeRuneInString_stringOfRune c rest
  have hpos := stringOfRune_length_pos c
  unfold runes
  cases he : stringOfRune c with
  | nil => simp [he] at hpos
  | cons b tl =>
    rw [he] at hd
    simp only [List.cons_append] at hd ⊢
    simp only [runesFrom, hd, List.length_cons, Nat.add_sub_cancel]
    rw [runesFrom_skip]

theorem runes_stringOfRunes_append (rs : List Char) (rest : GoString) :
    runes (stringOfRunes rs ++ rest) = rs ++ runes rest := by
  induction rs with
  | nil => rfl
  | cons c rs ih =>
    simp only [stringOfRunes, List.flatMap_cons, List.append_assoc, List.cons_append] at ih ⊢
    rw [runes_stringOfRune_append, ih]

theorem runes_stringOfRunes (rs : List Char) : runes (stringOfRunes rs) = rs := by
  simpa [runes, runesFrom] using runes_stringOfRunes_append rs []

theorem stringOfRunes_append (a b : List Char) :
    stringOfRunes (a ++ b) = stringOfRunes a ++ stringOfRunes b := by
  simp [stringOfRunes]

theorem stringOfRunes_injective {a b : List Char} (h : stringOfRunes a = stringOfRunes b) :
    a = b := by
  rw [← runes_stringOfRunes a, ← runes_stringOfRunes b, h]

theorem ValidString_iff (s : GoString) :
    ValidString s = true ↔ ∃ rs : List Char, s = stringOfRunes rs := by
  unfold ValidString
  rw [decide_eq_true_iff]
  constructor
  · intro h
    exact ⟨runes s, h.symm⟩
  · rintro ⟨rs, rfl⟩
    rw [runes_stringOfRunes]

theorem ValidString_eq {s : GoString} (h : ValidString s = true) :
    stringOfRunes (runes s) = s := by
  unfold ValidString at h
  exact of_decide_eq_true h

theorem ValidString_stringOfRunes (rs : List Char) : ValidString (stringOfRunes rs) = true :=
  (ValidString_iff _).2 ⟨rs, rfl⟩

theorem ValidString_inj {a b : GoString} (ha : ValidString a = true)
    (hb : ValidString b = true) (h : runes a = runes b) : a = b := by
  rw [← ValidString_eq ha, ← ValidString_eq hb, h]

theorem toNat_ofNat_cases (n : Nat) : (Char.ofNat n).toNat = n ∨ (Char.ofNat n).toNat = 0 := by
  unfold Char.ofNat
  split
  · left; rfl
  · right; rfl

theorem lower_toNat {c : Char} (h : 'a' ≤ c ∧ c ≤ 'z') : 97 ≤ c.toNat ∧ c.toNat ≤ 122 := by
  obtain ⟨h1, h2⟩ := h
  exact ⟨h1, h2⟩

theorem high_ofNat (n : Nat) (h : 128 ≤ n) : ∃ m, 128 ≤ m ∧ Char.ofNat n = Char.ofNat m :=
  ⟨n, h, rfl⟩

theorem high_RuneError : ∃ m, 128 ≤ m ∧ RuneError = Char.ofNat m :=
  high_ofNat 0xFFFD (by omega)

theorem DecodeRuneInString_high (b0 : Byte) (tl : GoString) (h : ¬ b0.val < 0x80) :
    ∃ n, 128 ≤ n ∧ (DecodeRuneInString (b0 :: tl)).1 = Char.ofNat n := by
  simp only [DecodeRuneInString, if_neg h, RuneError]
  repeat' split
  all_goals dsimp only
  all_goals apply high_ofNat
  all_goals try simp only [acceptLo] at *
  all_goals first
    | omega
    | (split_ifs at * <;> omega)

theorem runes_cons_low (b0 : Byte) (tl : GoString) (h : b0.val < 0x80) :
    runes (b0 :: tl) = Char.ofNat b0.val :: runes tl := by
  simp [runes, runesFrom, DecodeRuneInString, h]

theorem runes_cons_high (b0 : Byte) (tl : GoString) (h : ¬ b0.val < 0x80) :
    ∃ n, 128 ≤ n ∧ Char.ofNat n ∈ runes (b0 :: tl) := by
  obtain ⟨n, hn, he⟩ := DecodeRuneInString_high b0 tl h
  exact ⟨n, hn, by simp [runes, runesFrom, he]⟩

theorem stringOfRune_ofNat_low (b : Byte) (h : b.val < 0x80) : stringOfRune (Char.ofNat b.val) = [b] := by
  have hv : (Char.ofNat b.val).toNat = b.val := by
    unfold Char.ofNat
    rw [dif_pos (Or.inl (by omega))]
    rfl
  unfold stringOfRune
  simp only [hv, if_pos h]
  congr 1
  apply Fin.ext
  simp [byte]

theorem valid_of_lower (s : GoString) (h : ∀ c ∈ runes s, 'a' ≤ c ∧ c ≤ 'z') :
    stringOfRunes (runes s) = s := by
  induction s with
  | nil => rfl
  | cons b0 tl ih =>
    by_cases hb : b0.val < 0x80
    · rw [runes_cons_low b0 tl hb] at h ⊢
      simp only [stringOfRunes, List.flatMap_cons] at ih ⊢
      rw [stringOfRune_ofNat_low b0 hb, ih (fun c hc => h c (by simp [hc]))]
      rfl
    · obtain ⟨n, hn, hmem⟩ := runes_cons_high b0 tl hb
      have h1 := lower_toNat (h _ hmem)
      rcases toNat_ofNat_cases n with h2 | h2 <;> omega

theorem Node.count_pos (n : Node M) : 0 < n.count := by
  cases n; simp [Node.count]

mutual
theorem collectLoop_node (fuel : Nat) (nodes : List (Ptr M)) (keys : List GoString)
    (parents : List (Node M)) : ∀ (n : Node M), n.count ≤ fuel →
    collectLoop fuel ((parents, n) :: nodes) keys =
      match collectRec parents n with
      | .error e => .error e
      | .ok ws => collectLoop (fuel - n.count) nodes (keys ++ ws)
  | Node.mk v t d m k cs, h => by
    cases fuel with
    | zero => simp [Node.count] at h
    | succ f =>
      have hf : Node.countList cs ≤ f := by simp [Node.count] at h; omega
      have hsub : f + 1 - (Node.mk v t d m k cs).count = f - Node.countList cs := by
        simp [Node.count]; omega
      rw [hsub]
      simp only [collectLoop, collectRec, Node.term, Node.children]
      cases t with
      | false =>
        simp only [Bool.false_eq_true, if_false]
        rw [collectLoop_list f nodes keys _ cs hf]
        cases collectRecList (Node.mk v false d m k cs :: parents) cs <;> simp
      | true =>
        simp only [if_true]
        cases word parents with
        | error e => simp
        | ok w =>
          simp only []
          rw [collectLoop_list f nodes _ _ cs hf]
          cases collectRecList (Node.mk v true d m k cs :: parents) cs <;> simp
theorem collectLoop_list (fuel : Nat) (nodes : List (Ptr M)) (keys : List GoString)
    (chain : List (Node M)) : ∀ (cs : List (Char × Node M)), Node.countList cs ≤ fuel →
    collectLoop fuel (pushChildren chain cs nodes) keys =
      match collectRecList chain cs with
      | .error e => .error e
      | .ok ws => collectLoop (fuel - Node.countList cs) nodes (keys ++ ws)
  | [], _ => by simp [pushChildren, collectRecList, Node.countList]
  | (r, c) :: rest, h => by
    have h1 : c.count ≤ fuel := by simp [Node.countList] at h; omega
    have h2 : Node.countList rest ≤ fuel - c.count := by simp [Node.countList] at h; omega
    have h3 : fuel - Node.countList ((r, c) :: rest) = fuel - c.count - Node.countList rest := by
      simp [Node.countList]; omega
    have hp : pushChildren chain ((r, c) :: rest) nodes
        = (chain, c) :: pushChildren chain rest nodes := by simp [pushChildren]
    rw [hp, collectLoop_node fuel _ keys chain c h1, h3]
    simp only [collectRecList]
    cases collectRec chain c with
    | error e => simp
    | ok a =>
      simp only []
      rw [collectLoop_list _ nodes _ chain rest h2]
      cases collectRecList chain rest <;> simp
end

/-! ### Fields and children maps -/

namespace Node

@[simp] theorem val_mk (v : Char) (t : Bool) (d : Nat) (m : Option M) (k : Nat)
    (cs : List (Char × Node M)) : (mk v t d m k cs).val = v := rfl
@[simp] theorem term_mk (v : Char) (t : Bool) (d : Nat) (m : Option M) (k : Nat)
    (cs : List (Char × Node M)) : (mk v t d m k cs).term = t := rfl
@[simp] theorem depth_mk (v : Char) (t : Bool) (d : Nat) (m : Option M) (k : Nat)
    (cs : List (Char × Node M)) : (mk v t d m k cs).depth = d := rfl
@[simp] theorem meta_mk (v : Char) (t : Bool) (d : Nat) (m : Option M) (k : Nat)
    (cs : List (Char × Node M)) : (mk v t d m k cs).meta = m := rfl
@[simp] theorem mask_mk (v : Char) (t : Bool) (d : Nat) (m : Option M) (k : Nat)
    (cs : List (Char × Node M)) : (mk v t d m k cs).mask = k := rfl
@[simp] theorem children_mk (v : Char) (t : Bool) (d : Nat) (m : Option M) (k : Nat)
    (cs : List (Char × Node M)) : (mk v t d m k cs).children = cs := rfl

@[simp] theorem val_setMask (n : Node M) (k : Nat) : (n.setMask k).val = n.val := by
  cases n; rfl
@[simp] theorem term_setMask (n : Node M) (k : Nat) : (n.setMask k).term = n.term := by
  cases n; rfl
@[simp] theorem depth_setMask (n : Node M) (k : Nat) : (n.setMask k).depth = n.depth := by
  cases n; rfl
@[simp] theorem meta_setMask (n : Node M) (k : Nat) : (n.setMask k).meta = n.meta := by
  cases n; rfl
@[simp] theorem mask_setMask (n : Node M) (k : Nat) : (n.setMask k).mask = k := by
  cases n; rfl
@[simp] theorem children_setMask (n : Node M) (k : Nat) :
    (n.setMask k).children = n.children := by
  cases n; rfl

@[simp] theorem val_setChildren (n : Node M) (cs : List (Char × Node M)) :
    (n.setChildren cs).val = n.val := by
  cases n; rfl
@[simp] theorem term_setChildren (n : Node M) (cs : List (Char × Node M)) :
    (n.setChildren cs).term = n.term := by
  cases n; rfl
@[simp] theorem depth_setChildren (n : Node M) (cs : List (Char × Node M)) :
    (n.setChildren cs).depth = n.depth := by
  cases n; rfl
@[simp] theorem meta_setChildren (n : Node M) (cs : List (Char × Node M)) :
    (n.setChildren cs).meta = n.meta := by
  cases n; rfl
@[simp] theorem mask_setChildren (n : Node M) (cs : List (Char × Node M)) :
    (n.setChildren cs).mask = n.mask := by
  cases n; rfl
@[simp] theorem children_setChildren (n : Node M) (cs : List (Char × Node M)) :
    (n.setChildren cs).children = cs := by
  cases n; rfl

theorem eta (n : Node M) : n = mk n.val n.term n.depth n.meta n.mask n.children := by
  cases n; rfl

end Node

@[simp] theorem plug_children (n : Node M) (r : Char) (c : Node M) :
    (plug n r c).children = setChild n.children r c := by
  simp [plug]
@[simp] theorem plug_val (n : Node M) (r : Char) (c : Node M) : (plug n r c).val = n.val := by
  simp [plug]
@[simp] theorem plug_term (n : Node M) (r : Char) (c : Node M) : (plug n r c).term = n.term := by
  simp [plug]
@[simp] theorem plug_depth (n : Node M) (r : Char) (c : Node M) :
    (plug n r c).depth = n.depth := by
  simp [plug]
@[simp] theorem plug_mask (n : Node M) (r : Char) (c : Node M) : (plug n r c).mask = n.mask := by
  simp [plug]

@[simp] theorem getChild_setChild_self (cs : List (Char × Node M)) (r : Char) (c : Node M) :
    getChild (setChild cs r c) r = some c := by
  induction cs with
  | nil => simp [setChild, getChild]
  | cons p rest ih =>
    obtain ⟨k, x⟩ := p
    by_cases h : k = r
    · simp [setChild, getChild, h]
    · simp [setChild, getChild, h, ih]

theorem getChild_setChild_ne (cs : List (Char × Node M)) (r k : Char) (c : Node M)
    (h : k ≠ r) : getChild (setChild cs r c) k = getChild cs k := by
  induction cs with
  | nil => simp [setChild, getChild, Ne.symm h]
  | cons p rest ih =>
    obtain ⟨k1, x⟩ := p
    by_cases h1 : k1 = r
    · subst h1
      simp [setChild, getChild, Ne.symm h]
    · by_cases h2 : k1 = k
      · subst h2
        simp [setChild, getChild, h1]
      · simp [setChild, getChild, h1, h2, ih]

@[simp] theorem sentinelIn_nil (k : List Char) : sentinelIn ([] : List (Char × Node M)) k = none := by
  cases k <;> simp [sentinelIn, getChild]

/-! ### `Add` and `Find` -/

@[simp] theorem NewChild_fst_children (n : Node M) (v : Char) (b : Nat) (m : Option M)
    (t : Bool) : (n.NewChild v b m t).1.children
      = setChild n.children v (Node.mk v t (n.depth + 1) m b []) := by
  simp [Node.NewChild]
@[simp] theorem NewChild_snd (n : Node M) (v : Char) (b : Nat) (m : Option M) (t : Bool) :
    (n.NewChild v b m t).2 = Node.mk v t (n.depth + 1) m b [] := rfl
@[simp] theorem NewChild_fst_val (n : Node M) (v : Char) (b : Nat) (m : Option M) (t : Bool) :
    (n.NewChild v b m t).1.val = n.val := by
  simp [Node.NewChild]
@[simp] theorem NewChild_fst_term (n : Node M) (v : Char) (b : Nat) (m : Option M) (t : Bool) :
    (n.NewChild v b m t).1.term = n.term := by
  simp [Node.NewChild]
@[simp] theorem NewChild_fst_depth (n : Node M) (v : Char) (b : Nat) (m : Option M)
    (t : Bool) : (n.NewChild v b m t).1.depth = n.depth := by
  simp [Node.NewChild]
@[simp] theorem NewChild_fst_mask (n : Node M) (v : Char) (b : Nat) (m : Option M) (t : Bool) :
    (n.NewChild v b m t).1.mask = n.mask ||| b := by
  simp [Node.NewChild]

theorem addLoop_nil (node : Node M) (m : Option M) :
    addLoop node [] m = node.NewChild nul 0 m true := rfl

theorem addLoop_cons_some (node n : Node M) (r : Char) (rest : List Char) (m : Option M)
    (h : getChild node.children r = some n) :
    addLoop node (r :: rest) m
      = (plug node r (addLoop (n.setMask (n.mask ||| maskruneslice (r :: rest))) rest m).1,
         (addLoop (n.setMask (n.mask ||| maskruneslice (r :: rest))) rest m).2) := by
  simp only [addLoop, h]

theorem addLoop_cons_none (node : Node M) (r : Char) (rest : List Char) (m : Option M)
    (h : getChild node.children r = none) :
    addLoop node (r :: rest) m
      = (plug (node.NewChild r (maskruneslice (r :: rest)) none false).1 r
           (addLoop (Node.mk r false (node.depth + 1) none (maskruneslice (r :: rest)) [])
              rest m).1,
         (addLoop (Node.mk r false (node.depth + 1) none (maskruneslice (r :: rest)) [])
              rest m).2) := by
  simp only [addLoop, h, NewChild_snd]

theorem addLoop_snd (node : Node M) (k : List Char) (m : Option M) :
    (addLoop node k m).2.meta = m ∧ (addLoop node k m).2.term = true := by
  induction k generalizing node with
  | nil => simp [addLoop_nil]
  | cons r rest ih =>
    cases h : getChild node.children r with
    | none => rw [addLoop_cons_none _ _ _ _ h]; exact ih _
    | some n => rw [addLoop_cons_some _ _ _ _ _ h]; exact ih _

theorem sentinelIn_addLoop_self (node : Node M) (k : List Char) (m : Option M) :
    sentinelIn (addLoop node k m).1.children k = some (addLoop node k m).2 := by
  induction k generalizing node with
  | nil => simp [addLoop_nil, sentinelIn]
  | cons r rest ih =>
    cases h : getChild node.children r with
    | none =>
      rw [addLoop_cons_none _ _ _ _ h]
      simp only [plug_children, sentinelIn, getChild_setChild_self]
      exact ih _
    | some n =>
      rw [addLoop_cons_some _ _ _ _ _ h]
      simp only [plug_children, sentinelIn, getChild_setChild_self]
      exact ih _

theorem sentinelIn_addLoop_ne (node : Node M) (k1 k : List Char) (m : Option M)
    (h1 : nul ∉ k1) (hk : nul ∉ k) (hne : k ≠ k1) :
    sentinelIn (addLoop node k1 m).1.children k = sentinelIn node.children k := by
  induction k1 generalizing node k with
  | nil =>
    cases k with
    | nil => exact absurd rfl hne
    | cons r rs =>
      have hr : r ≠ nul := fun h => hk (by simp [h])
      simp [addLoop_nil, sentinelIn, getChild_setChild_ne _ _ _ _ hr]
  | cons r1 rest1 ih =>
    have hr1 : nul ≠ r1 := fun h => h1 (by simp [h])
    have hrest1 : nul ∉ rest1 := fun h => h1 (by simp [h])
    cases k with
    | nil =>
      cases h : getChild node.children r1 with
      | none =>
        rw [addLoop_cons_none _ _ _ _ h]
        simp [sentinelIn, getChild_setChild_ne _ _ _ _ hr1]
      | some n =>
        rw [addLoop_cons_some _ _ _ _ _ h]
        simp [sentinelIn, getChild_setChild_ne _ _ _ _ hr1]
    | cons r rs =>
      have hrs : nul ∉ rs := fun h => hk (by simp [h])
      by_cases hr : r = r1
      · subst hr
        have hne2 : rs ≠ rest1 := fun h => hne (by rw [h])
        cases h : getChild node.children r with
        | none =>
          rw [addLoop_cons_none _ _ _ _ h]
          simp only [plug_children, sentinelIn, getChild_setChild_self, h]
          rw [ih _ _ hrest1 hrs hne2]
          simp
        | some n =>
          rw [addLoop_cons_some _ _ _ _ _ h]
          simp only [plug_children, sentinelIn, getChild_setChild_self, h]
          rw [ih _ _ hrest1 hrs hne2]
          simp
      · cases h : getChild node.children r1 with
        | none =>
          rw [addLoop_cons_none _ _ _ _ h]
          simp only [plug_children, sentinelIn, NewChild_fst_children,
            getChild_setChild_ne _ _ _ _ hr]
        | some n =>
          rw [addLoop_cons_some _ _ _ _ _ h]
          simp only [plug_children, sentinelIn, getChild_setChild_ne _ _ _ _ hr]

theorem Add_root (t : Trie M) (key : GoString) (m : Option M) :
    (Add t key m).1.root
      = (addLoop (t.root.setMask (t.root.mask ||| maskruneslice (runes key))) (runes key) m).1 := rfl

theorem sentinelIn_Add_self (t : Trie M) (key : GoString) (m : Option M) :
    ∃ s, sentinelIn (Add t key m).1.root.children (runes key) = some s
      ∧ s.meta = m ∧ s.term = true := by
  refine ⟨(addLoop (t.root.setMask (t.root.mask ||| maskruneslice (runes key))) (runes key) m).2,
    ?_, addLoop_snd _ (runes key) m⟩
  rw [Add_root]
  exact sentinelIn_addLoop_self _ _ _

theorem sentinelIn_Add_ne (t : Trie M) (key : GoString) (m : Option M) (k : List Char)
    (h1 : nul ∉ runes key) (hk : nul ∉ k) (hne : k ≠ (runes key)) :
    sentinelIn (Add t key m).1.root.children k = sentinelIn t.root.children k := by
  rw [Add_root, sentinelIn_addLoop_ne _ _ _ _ h1 hk hne]
  simp

theorem findNode_sentinelIn (ps : List (Node M)) (n : Node M) (k : List Char) :
    match findNode ps n k with
    | none => sentinelIn n.children k = none
    | some res => sentinelIn n.children k = getChild res.2.children nul := by
  induction k generalizing ps n with
  | nil => simp [findNode, sentinelIn]
  | cons r rest ih =>
    cases h : getChild n.children r with
    | none => simp [findNode, sentinelIn, h]
    | some c =>
      simp only [findNode, sentinelIn, h]
      exact ih _ _

theorem Find_of_sentinelIn (t : Trie M) (key : GoString) (s : Node M)
    (h : sentinelIn t.root.children (runes key) = some s) (ht : s.term = true) :
    Find t key = .ok (some s) := by
  have := findNode_sentinelIn [] t.root (runes key)
  unfold Find
  cases hf : findNode [] t.root (runes key) with
  | none => rw [hf] at this; simp only [] at this; rw [h] at this; cases this
  | some res =>
    rw [hf] at this
    simp only [] at this
    rw [h] at this
    simp [← this, ht]

theorem build_append (xs ys : List (GoString × Option M)) :
    build (xs ++ ys) = ys.foldl (fun t p => (Add t p.1 p.2).1) (build xs) := by
  simp [build, List.foldl_append]

theorem sentinelIn_foldl_ne (k : List Char) (hk : nul ∉ k) (ys : List (GoString × Option M))
    (hnul : ∀ p ∈ ys, nul ∉ runes p.1) (hne : ∀ p ∈ ys, runes p.1 ≠ k) (t : Trie M) :
    sentinelIn (ys.foldl (fun t p => (Add t p.1 p.2).1) t).root.children k
      = sentinelIn t.root.children k := by
  induction ys generalizing t with
  | nil => rfl
  | cons p rest ih =>
    simp only [List.foldl_cons]
    rw [ih (fun q hq => hnul q (by simp [hq])) (fun q hq => hne q (by simp [hq]))]
    exact sentinelIn_Add_ne t p.1 p.2 k (hnul p (by simp)) hk (Ne.symm (hne p (by simp)))

/-- C1, as stated, fails on keys that are not valid UTF-8: after `Add("\xff", 1)`
and `Add("\xfe", 2)`, two keys without a NUL rune, `Find("\xff")` returns the
node that carries the payload 2 of the other key. -/
theorem C1_invalid_utf8_counterexample :
    (∀ p ∈ [(([0xff] : GoString), some 1), ([0xfe], some 2)], nul ∉ runes p.1)
      ∧ (∃ n, Find (build [(([0xff] : GoString), some 1), ([0xfe], some 2)]) [0xff]
            = .ok (some n) ∧ n.meta = some 2)
      ∧ ¬ ∃ n, Find (build [(([0xff] : GoString), some 1), ([0xfe], some 2)]) [0xff]
            = .ok (some n) ∧ n.meta = some 1 := by
  refine ⟨by decide, ⟨Node.mk nul true 2 (some 2) 0 [], rfl, rfl⟩, ?_⟩
  rintro ⟨n, hn, hm⟩
  have h : Find (build [(([0xff] : GoString), some 1), ([0xfe], some 2)]) [0xff]
      = .ok (some (Node.mk nul true 2 (some 2) 0 [])) := rfl
  rw [h] at hn
  injection hn with hn
  injection hn with hn
  subst hn
  cases hm

/-- C1: after any sequence of `Add` calls on `New()` with keys that are valid
UTF-8 and free of `nul`, `Find` on an added key `k` reports found and returns a
node whose `Meta()` is the payload of the last `Add` of `k` (the calls `after`
it are on other keys). -/
theorem C1_add_find_round_trip (before after : List (GoString × Option M)) (k : GoString)
    (m : Option M)
    (hnul : ∀ p ∈ before ++ (k, m) :: after, nul ∉ runes p.1)
    (hvalid : ∀ p ∈ before ++ (k, m) :: after, ValidString p.1 = true)
    (hlast : ∀ p ∈ after, p.1 ≠ k) :
    ∃ n, Find (build (before ++ (k, m) :: after)) k = .ok (some n) ∧ n.meta = m := by
  have hk : nul ∉ runes k := hnul (k, m) (by simp)
  obtain ⟨s, hs, hm, ht⟩ := sentinelIn_Add_self (build before) k m
  refine ⟨s, Find_of_sentinelIn _ _ _ ?_ ht, hm⟩
  rw [build_append, List.foldl_cons]
  rw [sentinelIn_foldl_ne (runes k) hk after (fun p hp => hnul p (by simp [hp]))
    (fun p hp h => hlast p hp
      (ValidString_inj (hvalid p (by simp [hp])) (hvalid (k, m) (by simp)) h))]
  exact hs

/-- C1 at the keys of the first scenario, `car` added twice. -/
theorem C1_add_find_round_trip_witness :
    ∃ n, Find (build ([(utf8 "cat", some 1), (utf8 "car", some 2)] ++ (utf8 "car", some 7)
        :: [(utf8 "cart", some 3), (utf8 "dog", some 4)])) (utf8 "car")
      = .ok (some n) ∧ n.meta = some 7 :=
  C1_add_find_round_trip [(utf8 "cat", some 1), (utf8 "car", some 2)]
    [(utf8 "cart", some 3), (utf8 "dog", some 4)]
    (utf8 "car") (some 7) (by decide) (by decide) (by decide)

/-! ### Shape of the tries built by `Add` -/

theorem suffixes_eq (n : Node M) : suffixes n = suffixesList n.children := by
  cases n; simp [suffixes]

theorem WFNode_iff (d : Nat) (c : Node M) :
    WFNode d c ↔ c.depth = d ∧ d ≠ 0 ∧
      (if c.val = nul then c.term = true ∧ c.children = []
       else c.term = false ∧ WFChildren d c.children) := by
  cases c; simp [WFNode]

theorem WFInner_of_WFNode {d : Nat} {c : Node M} (h : WFNode d c) (hv : c.val ≠ nul) :
    WFInner d c := by
  rw [WFNode_iff] at h
  simp only [hv, if_false] at h
  exact ⟨h.1, h.2.2.1, h.2.2.2⟩

theorem WFNode_of_WFInner {d : Nat} {c : Node M} (h : WFInner d c) (hv : c.val ≠ nul)
    (hd : d ≠ 0) : WFNode d c := by
  rw [WFNode_iff]
  simp only [hv, if_false]
  exact ⟨h.1, hd, h.2.1, h.2.2⟩

theorem WFChildren_getChild {d : Nat} {cs : List (Char × Node M)} (h : WFChildren d cs)
    {r : Char} {c : Node M} (hg : getChild cs r = some c) : c.val = r ∧ WFNode (d + 1) c := by
  induction cs with
  | nil => simp [getChild] at hg
  | cons p rest ih =>
    obtain ⟨k, x⟩ := p
    simp only [WFChildren] at h
    by_cases hk : k = r
    · subst hk
      simp only [getChild, if_true, Option.some.injEq] at hg
      subst hg
      exact ⟨h.1, h.2.2.1⟩
    · simp only [getChild, hk, if_false] at hg
      exact ih h.2.2.2 hg

theorem WFChildren_setChild {d : Nat} {cs : List (Char × Node M)} (h : WFChildren d cs)
    {r : Char} {c : Node M} (hv : c.val = r) (hc : WFNode (d + 1) c) :
    WFChildren d (setChild cs r c) := by
  induction cs with
  | nil => simp [setChild, WFChildren, hv, hc, getChild]
  | cons p rest ih =>
    obtain ⟨k, x⟩ := p
    simp only [WFChildren] at h
    by_cases hk : k = r
    · subst hk
      simp only [setChild, if_true, WFChildren]
      exact ⟨hv, h.2.1, hc, h.2.2.2⟩
    · simp only [setChild, hk, if_false, WFChildren]
      refine ⟨h.1, ?_, h.2.2.1, ih h.2.2.2⟩
      rw [getChild_setChild_ne _ _ _ _ hk]
      exact h.2.1

theorem addLoop_fst_fields (node : Node M) (k : List Char) (m : Option M) :
    (addLoop node k m).1.val = node.val ∧ (addLoop node k m).1.depth = node.depth
      ∧ (addLoop node k m).1.term = node.term := by
  cases k with
  | nil => simp [addLoop_nil]
  | cons r rest =>
    cases h : getChild node.children r with
    | none => rw [addLoop_cons_none _ _ _ _ h]; simp
    | some n => rw [addLoop_cons_some _ _ _ _ _ h]; simp

theorem WFInner_setMask {d : Nat} {n : Node M} (h : WFInner d n) (k : Nat) :
    WFInner d (n.setMask k) := by
  simpa [WFInner] using h

theorem addLoop_WFInner (k : List Char) (hk : nul ∉ k) (m : Option M) (d : Nat)
    (node : Node M) (h : WFInner d node) : WFInner d (addLoop node k m).1 := by
  induction k generalizing node d with
  | nil =>
    obtain ⟨h1, h2, h3⟩ := h
    refine ⟨by simp [addLoop_nil, h1], by simp [addLoop_nil, h2], ?_⟩
    simp only [addLoop_nil, NewChild_fst_children]
    exact WFChildren_setChild h3 rfl (by simp [WFNode, h1])
  | cons r rest ih =>
    have hr : r ≠ nul := fun h => hk (by simp [h])
    have hrest : nul ∉ rest := fun h => hk (by simp [h])
    obtain ⟨h1, h2, h3⟩ := h
    have hf := addLoop_fst_fields node (r :: rest) m
    refine ⟨hf.2.1.trans h1, hf.2.2.trans h2, ?_⟩
    cases hg : getChild node.children r with
    | none =>
      rw [addLoop_cons_none _ _ _ _ hg]
      simp only [plug_children, NewChild_fst_children]
      have hfresh : WFInner (d + 1)
          (Node.mk r false (node.depth + 1) none (maskruneslice (r :: rest)) [] : Node M) := by
        simp [WFInner, h1, WFChildren]
      have h4 := ih hrest (d + 1) _ hfresh
      have hv := (addLoop_fst_fields (Node.mk r false (node.depth + 1) none
          (maskruneslice (r :: rest)) [] : Node M) rest m).1
      simp only [Node.val_mk] at hv
      have h5 : WFChildren d (setChild node.children r
          (Node.mk r false (node.depth + 1) none (maskruneslice (r :: rest)) [])) :=
        WFChildren_setChild h3 rfl (WFNode_of_WFInner hfresh hr (by omega))
      exact WFChildren_setChild h5 hv (WFNode_of_WFInner h4 (by rw [hv]; exact hr) (by omega))
    | some n =>
      rw [addLoop_cons_some _ _ _ _ _ hg]
      simp only [plug_children]
      obtain ⟨hnv, hnw⟩ := WFChildren_getChild h3 hg
      have hin : WFInner (d + 1) n := WFInner_of_WFNode hnw (by rw [hnv]; exact hr)
      have h4 := ih hrest (d + 1) _ (WFInner_setMask hin (n.mask ||| maskruneslice (r :: rest)))
      have hv := (addLoop_fst_fields (n.setMask (n.mask ||| maskruneslice (r :: rest)))
        rest m).1
      simp only [Node.val_setMask] at hv
      exact WFChildren_setChild h3 (hv.trans hnv)
        (WFNode_of_WFInner h4 (by rw [hv, hnv]; exact hr) (by omega))

theorem TrieWF_New : TrieWF (New : Trie M) := by
  simp [TrieWF, New, WFInner, WFChildren]

theorem TrieWF_Add {t : Trie M} (h : TrieWF t) (key : GoString) (hk : nul ∉ runes key)
    (m : Option M) : TrieWF (Add t key m).1 := by
  refine ⟨?_, ?_⟩
  · rw [Add_root, (addLoop_fst_fields _ _ _).1]
    simpa using h.1
  · rw [Add_root]
    exact addLoop_WFInner _ hk m 0 _ (WFInner_setMask h.2 _)

theorem TrieWF_foldl (ys : List (GoString × Option M)) (hnul : ∀ p ∈ ys, nul ∉ runes p.1)
    (t : Trie M) (h : TrieWF t) : TrieWF (ys.foldl (fun t p => (Add t p.1 p.2).1) t) := by
  induction ys generalizing t with
  | nil => exact h
  | cons p rest ih =>
    simp only [List.foldl_cons]
    exact ih (fun q hq => hnul q (by simp [hq])) _ (TrieWF_Add h p.1 (hnul p (by simp)) p.2)

theorem TrieWF_build (adds : List (GoString × Option M)) (hnul : ∀ p ∈ adds, nul ∉ runes p.1) :
    TrieWF (build adds) :=
  TrieWF_foldl adds hnul New TrieWF_New

/-! ### `collect` and `PrefixSearch` -/

theorem collectLoop_nil (fuel : Nat) (keys : List GoString) :
    collectLoop fuel ([] : List (Ptr M)) keys = .ok keys := by
  cases fuel <;> rfl

theorem collect_eq_collectRec (parents : List (Node M)) (n : Node M) :
    collect parents n = collectRec parents n := by
  unfold collect
  rw [collectLoop_node n.count [] [] parents n (le_refl _)]
  cases collectRec parents n <;> simp [collectLoop_nil]

theorem mk_append_singleton (a : List Char) (v : Char) :
    stringOfRunes a ++ stringOfRune v = stringOfRunes (a ++ [v]) := by
  simp [stringOfRunes]

theorem word_good (chain : List (Node M)) (rq : List Char) (h : GoodChain chain rq) :
    word chain = .ok (stringOfRunes rq.reverse) := by
  induction chain generalizing rq with
  | nil => cases rq <;> simp [GoodChain] at h
  | cons p up ih =>
    cases rq with
    | nil =>
      cases up with
      | nil =>
        simp only [GoodChain] at h
        simp [word, h, stringOfRunes]
      | cons p2 up2 => simp [GoodChain] at h
    | cons v rq1 =>
      simp only [GoodChain] at h
      obtain ⟨hv, hd, hg⟩ := h
      simp only [word, hd, ne_eq, not_false_eq_true, if_true, ih rq1 hg, hv]
      rw [mk_append_singleton]
      simp

theorem GoodChain_cons {chain : List (Node M)} {rq : List Char} (h : GoodChain chain rq)
    (c : Node M) (hd : c.depth ≠ 0) : GoodChain (c :: chain) (c.val :: rq) := by
  cases chain with
  | nil => cases rq <;> simp [GoodChain] at h
  | cons p up => simp [GoodChain, hd, h]

mutual
theorem collectRec_ok : ∀ (c : Node M) (d : Nat) (chain : List (Node M)) (rq : List Char),
    WFNode d c → GoodChain chain rq →
    collectRec chain c = .ok ((if c.term then [stringOfRunes rq.reverse] else [])
      ++ (suffixes c).map (fun q => stringOfRunes (rq.reverse ++ c.val :: q)))
  | Node.mk v t dep m k cs, d, chain, rq, hwf, hg => by
    simp only [WFNode] at hwf
    obtain ⟨hdep, hd, hrest⟩ := hwf
    by_cases hv : v = nul
    · simp only [hv, if_true] at hrest
      obtain ⟨ht, hcs⟩ := hrest
      subst hcs
      simp [collectRec, ht, word_good chain rq hg, collectRecList, suffixes, suffixesList]
    · simp only [hv, if_false] at hrest
      obtain ⟨ht, hcs⟩ := hrest
      subst ht
      have hg2 : GoodChain (Node.mk v false dep m k cs :: chain) (v :: rq) :=
        GoodChain_cons hg (Node.mk v false dep m k cs) (by simp [hdep, hd])
      simp only [collectRec, Bool.false_eq_true, if_false,
        collectRecList_ok cs d _ _ hcs hg2, suffixes, Node.term_mk, Node.val_mk]
      simp
theorem collectRecList_ok : ∀ (cs : List (Char × Node M)) (d : Nat) (chain : List (Node M))
    (rq : List Char), WFChildren d cs → GoodChain chain rq →
    collectRecList chain cs = .ok ((suffixesList cs).map (fun q => stringOfRunes (rq.reverse ++ q)))
  | [], _, _, _, _, _ => by simp [collectRecList, suffixesList]
  | (r, c) :: rest, d, chain, rq, hwf, hg => by
    simp only [WFChildren] at hwf
    obtain ⟨_, _, hc, hrest⟩ := hwf
    simp only [collectRecList, collectRec_ok c (d + 1) chain rq hc hg,
      collectRecList_ok rest d chain rq hrest hg, suffixesList]
    by_cases ht : c.term = true <;> simp [ht]
end

theorem collect_inner {d : Nat} {n : Node M} (h : WFInner d n) (ps : List (Node M))
    (rq : List Char) (hg : GoodChain (n :: ps) rq) :
    collect ps n = .ok ((suffixesList n.children).map (fun q => stringOfRunes (rq.reverse ++ q))) := by
  rw [collect_eq_collectRec]
  obtain ⟨h1, h2, h3⟩ := h
  have h4 := collectRecList_ok n.children d (n :: ps) rq h3 hg
  cases n with
  | mk v t dep m k cs =>
    simp only [Node.term_mk] at h2
    subst h2
    simp only [Node.children_mk] at h4
    simp [collectRec, h4]

theorem getChild_mem {cs : List (Char × Node M)} {r : Char} {c : Node M}
    (h : getChild cs r = some c) : (r, c) ∈ cs := by
  induction cs with
  | nil => simp [getChild] at h
  | cons p rest ih =>
    obtain ⟨k, x⟩ := p
    by_cases hk : k = r
    · simp only [getChild, hk, if_true, Option.some.injEq] at h
      simp [hk, h]
    · simp only [getChild, hk, if_false] at h
      simp [ih h]

theorem getChild_of_mem {d : Nat} {cs : List (Char × Node M)} (hwf : WFChildren d cs)
    {r : Char} {c : Node M} (h : (r, c) ∈ cs) : getChild cs r = some c := by
  induction cs with
  | nil => simp at h
  | cons p rest ih =>
    obtain ⟨k, x⟩ := p
    simp only [WFChildren] at hwf
    rcases List.mem_cons.1 h with h1 | h1
    · cases h1
      simp [getChild]
    · have h2 := ih hwf.2.2.2 h1
      by_cases hk : k = r
      · subst hk
        rw [hwf.2.1] at h2
        cases h2
      · simp [getChild, hk, h2]

theorem mem_suffixesList {cs : List (Char × Node M)} {q : List Char} :
    q ∈ suffixesList cs ↔ ∃ r c, (r, c) ∈ cs ∧
      ((c.term = true ∧ q = []) ∨ ∃ q1, q = c.val :: q1 ∧ q1 ∈ suffixesList c.children) := by
  induction cs with
  | nil => simp [suffixesList]
  | cons p rest ih =>
    obtain ⟨k, x⟩ := p
    simp only [suffixesList, List.mem_append, ih, List.mem_cons, suffixes_eq]
    constructor
    · rintro (h | ⟨r, c, hm, h⟩)
      · refine ⟨k, x, Or.inl rfl, ?_⟩
        rcases h with h | h
        · by_cases ht : x.term = true
          · simp only [ht, if_true, List.mem_singleton] at h
            exact Or.inl ⟨ht, h⟩
          · simp [ht] at h
        · simp only [List.mem_map] at h
          obtain ⟨q1, hq1, rfl⟩ := h
          exact Or.inr ⟨q1, rfl, hq1⟩
      · exact ⟨r, c, Or.inr hm, h⟩
    · rintro ⟨r, c, hm | hm, h⟩
      · cases hm
        left
        rcases h with ⟨ht, hq⟩ | ⟨q1, rfl, hq1⟩
        · left; simp [ht, hq]
        · right; simp only [List.mem_map]; exact ⟨q1, hq1, rfl⟩
      · exact Or.inr ⟨r, c, hm, h⟩

theorem mem_suffixesList_iff (q : List Char) (d : Nat) (cs : List (Char × Node M))
    (hwf : WFChildren d cs) :
    q ∈ suffixesList cs ↔ nul ∉ q ∧ (sentinelIn cs q).isSome = true := by
  induction q generalizing d cs with
  | nil =>
    rw [mem_suffixesList]
    simp only [sentinelIn, List.not_mem_nil, not_false_eq_true, true_and]
    constructor
    · rintro ⟨r, c, hm, h⟩
      rcases h with ⟨ht, _⟩ | ⟨q1, hq, _⟩
      · have hg := getChild_of_mem hwf hm
        obtain ⟨hv, hw⟩ := WFChildren_getChild hwf hg
        rw [WFNode_iff] at hw
        by_cases hn : c.val = nul
        · rw [← hn, hv, hg]; rfl
        · simp [hn, ht] at hw
      · cases hq
    · intro h
      cases hg : getChild cs nul with
      | none => simp [hg] at h
      | some c =>
        obtain ⟨hv, hw⟩ := WFChildren_getChild hwf hg
        rw [WFNode_iff] at hw
        simp only [hv, if_true] at hw
        exact ⟨nul, c, getChild_mem hg, Or.inl ⟨hw.2.2.1, trivial⟩⟩
  | cons r q1 ih =>
    rw [mem_suffixesList]
    constructor
    · rintro ⟨r1, c, hm, h⟩
      rcases h with ⟨_, hq⟩ | ⟨q2, hq, hq2⟩
      · cases hq
      · have hg := getChild_of_mem hwf hm
        obtain ⟨hv, hw⟩ := WFChildren_getChild hwf hg
        simp only [List.cons.injEq] at hq
        obtain ⟨hr, rfl⟩ := hq
        rw [WFNode_iff] at hw
        by_cases hn : c.val = nul
        · simp only [hn, if_true] at hw
          rw [hw.2.2.2] at hq2
          simp [suffixesList] at hq2
        · simp only [hn, if_false] at hw
          have h3 := (ih (d + 1) c.children hw.2.2.2).1 hq2
          rw [hr, hv]
          refine ⟨?_, ?_⟩
          · simp only [List.mem_cons, not_or]
            exact ⟨fun h => hn (by rw [hv, h]), h3.1⟩
          · simp only [sentinelIn, hg]
            exact h3.2
    · rintro ⟨hn, hs⟩
      simp only [List.mem_cons, not_or] at hn
      cases hg : getChild cs r with
      | none => simp [sentinelIn, hg] at hs
      | some c =>
        simp only [sentinelIn, hg] at hs
        obtain ⟨hv, hw⟩ := WFChildren_getChild hwf hg
        have hw2 := WFInner_of_WFNode hw (by rw [hv]; exact fun h => hn.1 h.symm)
        exact ⟨r, c, getChild_mem hg, Or.inr ⟨q1, by rw [hv],
          (ih (d + 1) c.children hw2.2.2).2 ⟨hn.2, hs⟩⟩⟩

theorem findNode_WF (k : List Char) (hk : nul ∉ k) (ps : List (Node M)) (n : Node M) (d : Nat)
    (rq : List Char) (hwf : WFInner d n) (hg : GoodChain (n :: ps) rq)
    (res : List (Node M) × Node M) (hf : findNode ps n k = some res) :
    WFInner (d + k.length) res.2 ∧ GoodChain (res.2 :: res.1) (k.reverse ++ rq) := by
  induction k generalizing ps n d rq with
  | nil =>
    simp only [findNode, Option.some.injEq] at hf
    subst hf
    exact ⟨hwf, by simpa using hg⟩
  | cons r rest ih =>
    have hr : r ≠ nul := fun h => hk (by simp [h])
    have hrest : nul ∉ rest := fun h => hk (by simp [h])
    cases hc : getChild n.children r with
    | none => simp [findNode, hc] at hf
    | some c =>
      simp only [findNode, hc] at hf
      obtain ⟨hv, hw⟩ := WFChildren_getChild hwf.2.2 hc
      have hin : WFInner (d + 1) c := WFInner_of_WFNode hw (by rw [hv]; exact hr)
      have hg2 : GoodChain (c :: n :: ps) (c.val :: rq) :=
        GoodChain_cons hg c (by rw [hin.1]; omega)
      have h := ih hrest (n :: ps) c (d + 1) (c.val :: rq) hin hg2 hf
      refine ⟨?_, ?_⟩
      · have : d + (r :: rest).length = d + 1 + rest.length := by simp; omega
        rw [this]; exact h.1
      · have : (r :: rest).reverse ++ rq = rest.reverse ++ c.val :: rq := by simp [hv]
        rw [this]; exact h.2

theorem findNode_none (k : List Char) (ps : List (Node M)) (n : Node M)
    (hf : findNode ps n k = none) (q : List Char) : sentinelIn n.children (k ++ q) = none := by
  induction k generalizing ps n with
  | nil => simp [findNode] at hf
  | cons r rest ih =>
    cases hc : getChild n.children r with
    | none => simp [sentinelIn, hc]
    | some c =>
      simp only [findNode, hc] at hf
      simp only [List.cons_append, sentinelIn, hc]
      exact ih _ _ hf

theorem findNode_some (k : List Char) (ps : List (Node M)) (n : Node M)
    (res : List (Node M) × Node M) (hf : findNode ps n k = some res) (q : List Char) :
    sentinelIn n.children (k ++ q) = sentinelIn res.2.children q := by
  induction k generalizing ps n with
  | nil =>
    simp only [findNode, Option.some.injEq] at hf
    subst hf
    rfl
  | cons r rest ih =>
    cases hc : getChild n.children r with
    | none => simp [findNode, hc] at hf
    | some c =>
      simp only [findNode, hc] at hf
      simp only [List.cons_append, sentinelIn, hc]
      exact ih _ _ hf

theorem PrefixSearch_spec (t : Trie M) (hwf : TrieWF t) (pre : GoString)
    (hpre : nul ∉ runes pre) :
    ∃ l, PrefixSearch t pre = .ok l ∧ ∀ s : GoString, s ∈ l ↔
      ∃ q : List Char, stringOfRunes q = s ∧ nul ∉ q
        ∧ (sentinelIn t.root.children q).isSome = true ∧ runes pre <+: q := by
  unfold PrefixSearch
  cases hf : findNode [] t.root (runes pre) with
  | none =>
    refine ⟨[], rfl, fun s => ?_⟩
    simp only [List.not_mem_nil, false_iff, not_exists, not_and]
    rintro q' _ _ hs ⟨q, hq⟩
    rw [← hq, findNode_none _ _ _ hf q] at hs
    cases hs
  | some res =>
    have hg0 : GoodChain [t.root] [] := by simp [GoodChain, hwf.2.1]
    obtain ⟨hin, hg⟩ := findNode_WF (runes pre) hpre [] t.root 0 [] hwf.2 hg0 res hf
    refine ⟨_, collect_inner hin res.1 _ hg, fun s => ?_⟩
    simp only [List.mem_map, List.append_nil, List.reverse_reverse]
    constructor
    · rintro ⟨q, hq, rfl⟩
      obtain ⟨h1, h2⟩ := (mem_suffixesList_iff q _ _ hin.2.2).1 hq
      refine ⟨runes pre ++ q, rfl, ?_, ?_, ⟨q, rfl⟩⟩
      · simp only [List.mem_append, not_or]
        exact ⟨hpre, h1⟩
      · rw [findNode_some _ _ _ _ hf q]
        exact h2
    · rintro ⟨q', rfl, h1, h2, ⟨q, rfl⟩⟩
      refine ⟨q, (mem_suffixesList_iff q _ _ hin.2.2).2 ⟨?_, ?_⟩, rfl⟩
      · intro h
        exact h1 (by simp [h])
      · rw [← findNode_some _ _ _ _ hf q]
        exact h2

theorem stored_foldl (k : List Char) (hk : nul ∉ k) (ys : List (GoString × Option M))
    (hnul : ∀ p ∈ ys, nul ∉ runes p.1) (t : Trie M) :
    (sentinelIn (ys.foldl (fun t p => (Add t p.1 p.2).1) t).root.children k).isSome = true
      ↔ (k ∈ ys.map (fun p => runes p.1)
          ∨ (sentinelIn t.root.children k).isSome = true) := by
  induction ys generalizing t with
  | nil => simp
  | cons p rest ih =>
    simp only [List.foldl_cons, List.map_cons, List.mem_cons]
    rw [ih (fun q hq => hnul q (by simp [hq]))]
    by_cases h : k = runes p.1
    · obtain ⟨s, hs, _⟩ := sentinelIn_Add_self t p.1 p.2
      rw [h, hs]
      simp
    · rw [sentinelIn_Add_ne t p.1 p.2 k (hnul p (by simp)) hk h]
      simp only [h, false_or]

theorem stored_build (adds : List (GoString × Option M)) (hnul : ∀ p ∈ adds, nul ∉ runes p.1)
    (q : List Char) :
    (nul ∉ q ∧ (sentinelIn (build adds).root.children q).isSome = true)
      ↔ q ∈ adds.map (fun p => runes p.1) := by
  constructor
  · rintro ⟨h1, h2⟩
    have h3 := (stored_foldl q h1 adds hnul New).1 h2
    simpa only [New, Node.children_mk, sentinelIn_nil, Option.isSome_none, or_false,
      Bool.false_eq_true] using h3
  · intro h
    obtain ⟨p, hp, rfl⟩ := List.mem_map.1 h
    exact ⟨hnul p hp, (stored_foldl (runes p.1) (hnul p hp) adds hnul New).2 (Or.inl h)⟩

theorem runes_start_of_start {a b : GoString} (ha : ValidString a = true) (h : a <+: b) :
    runes a <+: runes b := by
  obtain ⟨rs, rfl⟩ := (ValidString_iff a).1 ha
  obtain ⟨c, rfl⟩ := h
  rw [runes_stringOfRunes_append, runes_stringOfRunes]
  exact List.prefix_append _ _

theorem start_of_runes_start {a b : GoString} (ha : ValidString a = true)
    (hb : ValidString b = true) (h : runes a <+: runes b) : a <+: b := by
  obtain ⟨ra, rfl⟩ := (ValidString_iff a).1 ha
  obtain ⟨rb, rfl⟩ := (ValidString_iff b).1 hb
  rw [runes_stringOfRunes, runes_stringOfRunes] at h
  obtain ⟨c, rfl⟩ := h
  rw [stringOfRunes_append]
  exact List.prefix_append _ _

theorem starts_iff_runes_start {a b : GoString} (ha : ValidString a = true)
    (hb : ValidString b = true) : a <+: b ↔ runes a <+: runes b :=
  ⟨runes_start_of_start ha, start_of_runes_start ha hb⟩

/-- On a trie built by `Add` calls on keys free of `nul`, `PrefixSearch(pre)` for a
`pre` free of `nul` returns exactly the strings that spell the runes of an added
key whose runes start with the runes of `pre`. -/
theorem PrefixSearch_build (adds : List (GoString × Option M))
    (hnul : ∀ p ∈ adds, nul ∉ runes p.1) (pre : GoString) (hpre : nul ∉ runes pre) :
    ∃ l, PrefixSearch (build adds) pre = .ok l
      ∧ ∀ s : GoString, s ∈ l ↔
          ∃ k ∈ adds.map Prod.fst, stringOfRunes (runes k) = s ∧ runes pre <+: runes k := by
  obtain ⟨l, hl, hmem⟩ := PrefixSearch_spec (build adds) (TrieWF_build adds hnul) pre hpre
  refine ⟨l, hl, fun s => ?_⟩
  rw [hmem s]
  constructor
  · rintro ⟨q, hq, h1, h2, h3⟩
    obtain ⟨p, hp, rfl⟩ := List.mem_map.1 ((stored_build adds hnul q).1 ⟨h1, h2⟩)
    exact ⟨p.1, List.mem_map.2 ⟨p, hp, rfl⟩, hq, h3⟩
  · rintro ⟨k, hk, hs, h3⟩
    obtain ⟨p, hp, rfl⟩ := List.mem_map.1 hk
    obtain ⟨h1, h2⟩ := (stored_build adds hnul (runes p.1)).2 (List.mem_map.2 ⟨p, hp, rfl⟩)
    exact ⟨runes p.1, hs, h1, h2, h3⟩

/-- On a trie built by `Add` calls on valid UTF-8 keys free of `nul`,
`PrefixSearch(pre)` for a valid UTF-8 `pre` free of `nul` returns exactly the added
keys that start with `pre`, and `Keys()` returns exactly the added keys. -/
theorem PrefixSearch_build_valid (adds : List (GoString × Option M))
    (hnul : ∀ p ∈ adds, nul ∉ runes p.1) (hvalid : ∀ p ∈ adds, ValidString p.1 = true)
    (pre : GoString) (hpre : nul ∉ runes pre) (hvpre : ValidString pre = true) :
    ∃ l, PrefixSearch (build adds) pre = .ok l
      ∧ ∀ s : GoString, s ∈ l ↔ (s ∈ adds.map Prod.fst ∧ pre <+: s) := by
  obtain ⟨l, hl, hmem⟩ := PrefixSearch_build adds hnul pre hpre
  refine ⟨l, hl, fun s => ?_⟩
  rw [hmem s]
  constructor
  · rintro ⟨k, hk, rfl, h3⟩
    obtain ⟨p, hp, rfl⟩ := List.mem_map.1 hk
    rw [ValidString_eq (hvalid p hp)]
    exact ⟨hk, start_of_runes_start hvpre (hvalid p hp) h3⟩
  · rintro ⟨hk, h3⟩
    obtain ⟨p, hp, rfl⟩ := List.mem_map.1 hk
    exact ⟨p.1, hk, ValidString_eq (hvalid p hp), runes_start_of_start hvpre h3⟩

theorem Keys_build_valid (adds : List (GoString × Option M))
    (hnul : ∀ p ∈ adds, nul ∉ runes p.1) (hvalid : ∀ p ∈ adds, ValidString p.1 = true) :
    ∃ l, Keys (build adds) = .ok l ∧ ∀ s : GoString, s ∈ l ↔ s ∈ adds.map Prod.fst := by
  obtain ⟨l, hl, hmem⟩ := PrefixSearch_build_valid adds hnul hvalid [] (by decide) (by decide)
  refine ⟨l, hl, fun s => ?_⟩
  rw [hmem s]
  simp

/-- C2 fails on keys that are not valid UTF-8: after `Add("\xff", 1)` and
`Add("\xfe", 2)`, two keys without a NUL rune, `Keys()` is the one string
`"\uFFFD"`, which is neither key, and `PrefixSearch("\xff")` returns it too. -/
theorem C2_keys_rebuilt_from_runes :
    (∀ p ∈ [(([0xff] : GoString), some 1), ([0xfe], some 2)], nul ∉ runes p.1)
      ∧ Keys (build [(([0xff] : GoString), some 1), ([0xfe], some 2)]) = .ok [[0xef, 0xbf, 0xbd]]
      ∧ PrefixSearch (build [(([0xff] : GoString), some 1), ([0xfe], some 2)]) [0xff]
          = .ok [[0xef, 0xbf, 0xbd]]
      ∧ ([0xff] : GoString) ∉ [([0xef, 0xbf, 0xbd] : GoString)]
      ∧ ([0xfe] : GoString) ∉ [([0xef, 0xbf, 0xbd] : GoString)] := by
  decide

/-! ### The loop of `fuzzycollect` -/

theorem fuzzyLoop_nil (pattern : List Char) (fuel : Nat) (keys : List GoString) :
    fuzzyLoop pattern fuel ([] : List (potentialSubtree M)) keys = .ok keys := by
  cases fuel <;> rfl

mutual
theorem fuzzyLoop_node (pattern : List Char) : ∀ (n : Node M) (idx : Nat)
    (parents : List (Node M)), ∃ u, u ≤ n.count ∧
      ∀ (fuel : Nat) (potential : List (potentialSubtree M)) (keys : List GoString), u ≤ fuel →
        fuzzyLoop pattern fuel ((idx, parents, n) :: potential) keys =
          match fuzzyRec pattern idx parents n with
          | .error e => .error e
          | .ok ws => fuzzyLoop pattern (fuel - u) potential (keys ++ ws)
  | Node.mk v t d m k cs, idx, parents => by
    have hc : 1 ≤ (Node.mk v t d m k cs).count := Node.count_pos _
    by_cases h1 : idx > pattern.length
    · refine ⟨1, hc, fun fuel potential keys hf => ?_⟩
      obtain ⟨f, rfl⟩ : ∃ f, fuel = f + 1 := ⟨fuel - 1, by omega⟩
      simp [fuzzyLoop, fuzzyRec, h1]
    by_cases h2 : k &&& maskruneslice (pattern.drop idx) ≠ maskruneslice (pattern.drop idx)
    · refine ⟨1, hc, fun fuel potential keys hf => ?_⟩
      obtain ⟨f, rfl⟩ : ∃ f, fuel = f + 1 := ⟨fuel - 1, by omega⟩
      simp only [fuzzyLoop, fuzzyRec, h1, if_false, Node.mask_mk, if_pos h2]
      simp
    cases h3 : pattern[idx]? with
    | none =>
      refine ⟨1, hc, fun fuel potential keys hf => ?_⟩
      obtain ⟨f, rfl⟩ : ∃ f, fuel = f + 1 := ⟨fuel - 1, by omega⟩
      simp only [fuzzyLoop, fuzzyRec, h1, if_false, Node.mask_mk, h2, h3]
    | some c =>
      by_cases h4 : v = c
      · by_cases h5 : idx + 1 = pattern.length
        · refine ⟨1, hc, fun fuel potential keys hf => ?_⟩
          obtain ⟨f, rfl⟩ : ∃ f, fuel = f + 1 := ⟨fuel - 1, by omega⟩
          simp only [fuzzyLoop, fuzzyRec, h1, if_false, Node.mask_mk, h2, h3, Node.val_mk, h4,
            if_true, h5]
          cases collect parents (Node.mk c t d m k cs) <;> simp
        · obtain ⟨u, hu, hrec⟩ := fuzzyLoop_list pattern cs (idx + 1)
            (Node.mk v t d m k cs :: parents)
          refine ⟨1 + u, by simp only [Node.count]; omega, fun fuel potential keys hf => ?_⟩
          obtain ⟨f, rfl⟩ : ∃ f, fuel = f + 1 := ⟨fuel - 1, by omega⟩
          have hsub : f + 1 - (1 + u) = f - u := by omega
          rw [hsub]
          subst h4
          simp only [fuzzyLoop, fuzzyRec, h1, if_false, Node.mask_mk, h2, h3, Node.val_mk,
            if_true, h5, Node.children_mk]
          exact hrec f potential keys (by omega)
      · obtain ⟨u, hu, hrec⟩ := fuzzyLoop_list pattern cs idx (Node.mk v t d m k cs :: parents)
        refine ⟨1 + u, by simp only [Node.count]; omega, fun fuel potential keys hf => ?_⟩
        obtain ⟨f, rfl⟩ : ∃ f, fuel = f + 1 := ⟨fuel - 1, by omega⟩
        have hsub : f + 1 - (1 + u) = f - u := by omega
        rw [hsub]
        simp only [fuzzyLoop, fuzzyRec, h1, if_false, Node.mask_mk, h2, h3, Node.val_mk, h4,
          Node.children_mk]
        exact hrec f potential keys (by omega)
theorem fuzzyLoop_list (pattern : List Char) : ∀ (cs : List (Char × Node M)) (idx : Nat)
    (chain : List (Node M)), ∃ u, u ≤ Node.countList cs ∧
      ∀ (fuel : Nat) (potential : List (potentialSubtree M)) (keys : List GoString), u ≤ fuel →
        fuzzyLoop pattern fuel (cs.map (fun c => (idx, chain, c.2)) ++ potential) keys =
          match fuzzyRecList pattern idx chain cs with
          | .error e => .error e
          | .ok ws => fuzzyLoop pattern (fuel - u) potential (keys ++ ws)
  | [], idx, chain => ⟨0, Nat.zero_le _, fun fuel potential keys _ => by
      simp [fuzzyRecList]⟩
  | (r, c) :: rest, idx, chain => by
    obtain ⟨u1, hu1, hrec1⟩ := fuzzyLoop_node pattern c idx chain
    obtain ⟨u2, hu2, hrec2⟩ := fuzzyLoop_list pattern rest idx chain
    refine ⟨u1 + u2, by simp only [Node.countList]; omega, fun fuel potential keys hf => ?_⟩
    simp only [List.map_cons, List.cons_append, fuzzyRecList]
    rw [hrec1 fuel _ keys (by omega)]
    cases fuzzyRec pattern idx chain c with
    | error e => rfl
    | ok a =>
      simp only []
      rw [hrec2 (fuel - u1) potential _ (by omega)]
      cases fuzzyRecList pattern idx chain rest with
      | error e => rfl
      | ok b =>
        simp only [List.append_assoc]
        rw [Nat.sub_sub]
end

theorem fuzzycollect_eq_fuzzyRec (parents : List (Node M)) (n : Node M) (pattern : List Char) :
    fuzzycollect parents n pattern = fuzzyRec pattern 0 parents n := by
  unfold fuzzycollect
  obtain ⟨u, hu, hrec⟩ := fuzzyLoop_node pattern n 0 parents
  rw [hrec n.count [] [] hu]
  cases fuzzyRec pattern 0 parents n <;> simp [fuzzyLoop_nil]

/-! ### Masks -/

theorem covers_or_left {a b m : Nat} (h : a &&& m = m) : (a ||| b) &&& m = m := by
  apply Nat.eq_of_testBit_eq
  intro i
  have h1 := congrArg (fun x => x.testBit i) h
  simp only [Nat.testBit_and, Nat.testBit_or] at h1 ⊢
  cases ha : a.testBit i <;> cases hb : b.testBit i <;> cases hm : m.testBit i <;> simp_all

theorem covers_or_right {a b m : Nat} (h : b &&& m = m) : (a ||| b) &&& m = m := by
  rw [Nat.or_comm]
  exact covers_or_left h

theorem covers_trans {a b c : Nat} (h1 : a &&& b = b) (h2 : b &&& c = c) : a &&& c = c := by
  apply Nat.eq_of_testBit_eq
  intro i
  have h3 := congrArg (fun x => x.testBit i) h1
  have h4 := congrArg (fun x => x.testBit i) h2
  simp only [Nat.testBit_and] at h3 h4 ⊢
  cases ha : a.testBit i <;> cases hb : b.testBit i <;> cases hc : c.testBit i <;> simp_all

theorem covers_or {a m1 m2 : Nat} (h1 : a &&& m1 = m1) (h2 : a &&& m2 = m2) :
    a &&& (m1 ||| m2) = m1 ||| m2 := by
  apply Nat.eq_of_testBit_eq
  intro i
  have h3 := congrArg (fun x => x.testBit i) h1
  have h4 := congrArg (fun x => x.testBit i) h2
  simp only [Nat.testBit_and, Nat.testBit_or] at h3 h4 ⊢
  cases ha : a.testBit i <;> cases hb : m1.testBit i <;> cases hc : m2.testBit i <;> simp_all

theorem maskruneslice_foldl (rs : List Char) (a : Nat) :
    rs.foldl (fun m r => m ||| runeBit r) a = a ||| maskruneslice rs := by
  induction rs generalizing a with
  | nil => simp [maskruneslice]
  | cons r rest ih =>
    simp only [maskruneslice, List.foldl_cons]
    rw [ih (a ||| runeBit r), ih (0 ||| runeBit r)]
    simp [maskruneslice, Nat.or_assoc]

theorem maskruneslice_nil : maskruneslice [] = 0 := rfl

theorem maskruneslice_cons (r : Char) (rs : List Char) :
    maskruneslice (r :: rs) = runeBit r ||| maskruneslice rs := by
  simp only [maskruneslice, List.foldl_cons]
  rw [maskruneslice_foldl]
  simp [maskruneslice]

theorem maskruneslice_sublist {l1 l2 : List Char} (h : l1.Sublist l2) :
    maskruneslice l2 &&& maskruneslice l1 = maskruneslice l1 := by
  induction h with
  | slnil => simp [maskruneslice_nil]
  | cons a _ ih =>
    rw [maskruneslice_cons]
    exact covers_or_right ih
  | cons₂ a _ ih =>
    rw [maskruneslice_cons, maskruneslice_cons]
    exact covers_or (covers_or_left (Nat.and_self _)) (covers_or_right ih)

theorem runeBit_nul : runeBit nul = 0 := by decide

/-! ### `fuzzycollect`: every listed key matches -/

theorem getElem?_take_succ (pattern : List Char) (idx : Nat) (c : Char)
    (h : pattern[idx]? = some c) : pattern.take (idx + 1) = pattern.take idx ++ [c] := by
  rw [List.take_succ, h]
  rfl

mutual
theorem fuzzyRec_sound (pattern : List Char) (hp : nul ∉ pattern) : ∀ (c : Node M) (d : Nat)
    (chain : List (Node M)) (rq : List Char) (idx : Nat), WFNode d c → GoodChain chain rq →
    idx < pattern.length → (pattern.take idx).Sublist rq.reverse →
    ∃ l, fuzzyRec pattern idx chain c = .ok l ∧ ∀ s ∈ l, ∃ q, q ∈ suffixes c
      ∧ s = stringOfRunes (rq.reverse ++ c.val :: q) ∧ pattern.Sublist (rq.reverse ++ c.val :: q)
  | Node.mk v t dep m k cs, d, chain, rq, idx, hwf, hg, hidx, hsub => by
    have h1 : ¬ idx > pattern.length := by omega
    by_cases h2 : k &&& maskruneslice (pattern.drop idx) ≠ maskruneslice (pattern.drop idx)
    · refine ⟨[], ?_, by simp⟩
      simp only [fuzzyRec, h1, if_false, if_pos h2]
    obtain ⟨ch, h3, hcm⟩ : ∃ ch, pattern[idx]? = some ch ∧ ch ∈ pattern :=
      ⟨pattern[idx], List.getElem?_eq_getElem hidx, by simp⟩
    have hch : ch ≠ nul := by
      intro h
      exact hp (by rw [← h]; exact hcm)
    simp only [WFNode] at hwf
    obtain ⟨hdep, hd, hrest⟩ := hwf
    have hg2 : GoodChain (Node.mk v t dep m k cs :: chain) (v :: rq) :=
      GoodChain_cons hg (Node.mk v t dep m k cs) (by simp [hdep, hd])
    by_cases h4 : v = ch
    · have hv : v ≠ nul := by rw [h4]; exact hch
      simp only [hv, if_false] at hrest
      have hsub2 : (pattern.take (idx + 1)).Sublist (v :: rq).reverse := by
        rw [getElem?_take_succ pattern idx ch h3, List.reverse_cons, h4]
        exact List.Sublist.append hsub (List.Sublist.refl _)
      by_cases h5 : idx + 1 = pattern.length
      · have hin : WFInner d (Node.mk v t dep m k cs) := ⟨hdep, hrest.1, hrest.2⟩
        have hcol := collect_inner hin chain (v :: rq) hg2
        simp only [Node.children_mk] at hcol
        refine ⟨(suffixesList cs).map (fun q => stringOfRunes ((v :: rq).reverse ++ q)), ?_, ?_⟩
        · simp only [fuzzyRec, h1, if_false, if_neg h2, h3, h4, if_true, h5]
          rw [← h4]
          exact hcol
        · intro s hs
          simp only [List.mem_map] at hs
          obtain ⟨q, hq, rfl⟩ := hs
          refine ⟨q, by simpa [suffixes] using hq, by simp, ?_⟩
          have h6 : pattern.take (idx + 1) = pattern := by
            rw [h5]; exact List.take_length pattern
          rw [h6] at hsub2
          have h7 : rq.reverse ++ (Node.mk v t dep m k cs).val :: q = (v :: rq).reverse ++ q := by
            simp
          rw [h7]
          exact hsub2.trans (List.sublist_append_left _ _)
      · obtain ⟨l, hl, hmem⟩ := fuzzyRecList_sound pattern hp cs d
          (Node.mk v t dep m k cs :: chain) (v :: rq) (idx + 1) hrest.2 hg2 (by omega) hsub2
        refine ⟨l, ?_, ?_⟩
        · simp only [fuzzyRec, h1, if_false, if_neg h2, h3, h4, if_true, h5]
          rw [← h4]
          exact hl
        · intro s hs
          obtain ⟨q, hq, hsq, hpq⟩ := hmem s hs
          refine ⟨q, by simpa [suffixes] using hq, by simpa using hsq, by simpa using hpq⟩
    · have hsub2 : (pattern.take idx).Sublist (v :: rq).reverse := by
        rw [List.reverse_cons]
        exact hsub.trans (List.sublist_append_left _ _)
      by_cases hv : v = nul
      · simp only [hv, if_true] at hrest
        refine ⟨[], ?_, by simp⟩
        simp only [fuzzyRec, h1, if_false, if_neg h2, h3, h4, hrest.2, fuzzyRecList]
      · simp only [hv, if_false] at hrest
        obtain ⟨l, hl, hmem⟩ := fuzzyRecList_sound pattern hp cs d
          (Node.mk v t dep m k cs :: chain) (v :: rq) idx hrest.2 hg2 hidx hsub2
        refine ⟨l, ?_, ?_⟩
        · simp only [fuzzyRec, h1, if_false, if_neg h2, h3, h4]
          exact hl
        · intro s hs
          obtain ⟨q, hq, hsq, hpq⟩ := hmem s hs
          refine ⟨q, by simpa [suffixes] using hq, by simpa using hsq, by simpa using hpq⟩
theorem fuzzyRecList_sound (pattern : List Char) (hp : nul ∉ pattern) :
    ∀ (cs : List (Char × Node M)) (d : Nat) (chain : List (Node M)) (rq : List Char) (idx : Nat),
    WFChildren d cs → GoodChain chain rq →
    idx < pattern.length → (pattern.take idx).Sublist rq.reverse →
    ∃ l, fuzzyRecList pattern idx chain cs = .ok l ∧ ∀ s ∈ l, ∃ q, q ∈ suffixesList cs
      ∧ s = stringOfRunes (rq.reverse ++ q) ∧ pattern.Sublist (rq.reverse ++ q)
  | [], _, _, _, _, _, _, _, _ => ⟨[], by simp [fuzzyRecList], by simp⟩
  | (r, c) :: rest, d, chain, rq, idx, hwf, hg, hidx, hsub => by
    simp only [WFChildren] at hwf
    obtain ⟨_, _, hc, hrest⟩ := hwf
    obtain ⟨a, ha, hma⟩ := fuzzyRec_sound pattern hp c (d + 1) chain rq idx hc hg hidx hsub
    obtain ⟨b, hb, hmb⟩ := fuzzyRecList_sound pattern hp rest d chain rq idx hrest hg hidx hsub
    refine ⟨a ++ b, by simp [fuzzyRecList, ha, hb], ?_⟩
    intro s hs
    rcases List.mem_append.1 hs with hs | hs
    · obtain ⟨q, hq, hsq, hpq⟩ := hma s hs
      refine ⟨c.val :: q, ?_, hsq, hpq⟩
      simp only [suffixesList, List.mem_append, List.mem_map]
      exact Or.inl (Or.inr ⟨q, hq, rfl⟩)
    · obtain ⟨q, hq, hsq, hpq⟩ := hmb s hs
      refine ⟨q, ?_, hsq, hpq⟩
      simp only [suffixesList, List.mem_append]
      exact Or.inr hq
end

theorem fuzzycollect_root (t : Trie M) (hwf : TrieWF t) (pattern : List Char)
    (hp : nul ∉ pattern) (hne : pattern ≠ []) :
    fuzzycollect [] t.root pattern
      = if t.root.mask &&& maskruneslice pattern ≠ maskruneslice pattern then .ok []
        else fuzzyRecList pattern 0 [t.root] t.root.children := by
  rw [fuzzycollect_eq_fuzzyRec]
  obtain ⟨hv, -, -, -⟩ := hwf
  cases hr : t.root with
  | mk v tm dep m k cs =>
    rw [hr] at hv
    simp only [Node.val_mk] at hv
    cases pattern with
    | nil => exact absurd rfl hne
    | cons c rest =>
      have hc : v ≠ c := by
        rw [hv]
        intro h
        exact hp (by simp [h])
      simp [fuzzyRec, hc]

theorem fuzzycollect_sound (t : Trie M) (hwf : TrieWF t) (pattern : List Char)
    (hp : nul ∉ pattern) (hne : pattern ≠ []) :
    ∃ l, fuzzycollect [] t.root pattern = .ok l ∧ ∀ s ∈ l, ∃ q : List Char,
      stringOfRunes q = s ∧ nul ∉ q
        ∧ (sentinelIn t.root.children q).isSome = true ∧ pattern.Sublist q := by
  rw [fuzzycollect_root t hwf pattern hp hne]
  by_cases h2 : t.root.mask &&& maskruneslice pattern ≠ maskruneslice pattern
  · exact ⟨[], by simp only [if_pos h2], by simp⟩
  · have hlen : 0 < pattern.length := List.length_pos.2 hne
    have hg0 : GoodChain [t.root] [] := by simp [GoodChain, hwf.2.1]
    obtain ⟨l, hl, hmem⟩ := fuzzyRecList_sound pattern hp t.root.children 0 [t.root] [] 0
      hwf.2.2.2 hg0 hlen (by simp)
    refine ⟨l, by simp only [if_neg h2, hl], fun s hs => ?_⟩
    obtain ⟨q, hq, hsq, hpq⟩ := hmem s hs
    simp only [List.reverse_nil, List.nil_append] at hsq hpq
    subst hsq
    obtain ⟨h3, h4⟩ := (mem_suffixesList_iff q 0 _ hwf.2.2.2).1 hq
    exact ⟨q, rfl, h3, h4, hpq⟩

theorem mem_sortSort (less : GoString → GoString → Bool) (keys : List GoString) (s : GoString) :
    s ∈ sortSort less keys ↔ s ∈ keys :=
  (List.perm_insertionSort _ keys).mem_iff

/-- On a trie built by `Add` calls on keys free of `nul`, `FuzzySearch` with a
non-empty pattern free of `nul` returns only strings that spell the runes of an
added key whose runes hold the runes of the pattern as a subsequence. -/
theorem FuzzySearch_build_sound (adds : List (GoString × Option M))
    (hnul : ∀ p ∈ adds, nul ∉ runes p.1) (pre : GoString) (hne : runes pre ≠ [])
    (hpre : nul ∉ runes pre) :
    ∃ l, FuzzySearch (build adds) pre = .ok l
      ∧ ∀ s ∈ l, ∃ k ∈ adds.map Prod.fst,
          stringOfRunes (runes k) = s ∧ (runes pre).Sublist (runes k) := by
  obtain ⟨l, hl, hmem⟩ := fuzzycollect_sound (build adds) (TrieWF_build adds hnul) (runes pre)
    hpre hne
  refine ⟨sortSort ByKeys.Less l, by simp only [FuzzySearch, hl], fun s hs => ?_⟩
  obtain ⟨q, hq, h1, h2, h3⟩ := hmem s ((mem_sortSort _ _ _).1 hs)
  obtain ⟨p, hp, rfl⟩ := List.mem_map.1 ((stored_build adds hnul q).1 ⟨h1, h2⟩)
  exact ⟨p.1, List.mem_map.2 ⟨p, hp, rfl⟩, hq, h3⟩

/-- C4, as stated, fails on keys that are not valid UTF-8: with the one key
`"\xffa"` stored (no NUL rune), `FuzzySearch("a")` returns `"\uFFFDa"`, which is
not a stored key. -/
theorem C4_invalid_utf8_counterexample :
    (∀ p ∈ [(([0xff, 0x61] : GoString), some 1)], nul ∉ runes p.1)
      ∧ runes (utf8 "a") ≠ [] ∧ nul ∉ runes (utf8 "a")
      ∧ FuzzySearch (build [(([0xff, 0x61] : GoString), some 1)]) (utf8 "a")
          = .ok [[0xef, 0xbf, 0xbd, 0x61]]
      ∧ ([0xef, 0xbf, 0xbd, 0x61] : GoString)
          ∉ [(([0xff, 0x61] : GoString), some 1)].map Prod.fst := by
  decide

/-- C4: on a trie built by `Add` calls on valid UTF-8 keys free of `nul`,
`FuzzySearch` with a non-empty pattern free of `nul` returns only added keys that
hold the pattern as a subsequence. -/
theorem C4_fuzzy_soundness (adds : List (GoString × Option M))
    (hnul : ∀ p ∈ adds, nul ∉ runes p.1) (hvalid : ∀ p ∈ adds, ValidString p.1 = true)
    (pre : GoString) (hne : runes pre ≠ []) (hpre : nul ∉ runes pre) :
    ∃ l, FuzzySearch (build adds) pre = .ok l
      ∧ ∀ s ∈ l, s ∈ adds.map Prod.fst ∧ (runes pre).Sublist (runes s) := by
  obtain ⟨l, hl, hmem⟩ := FuzzySearch_build_sound adds hnul pre hne hpre
  refine ⟨l, hl, fun s hs => ?_⟩
  obtain ⟨k, hk, rfl, hsub⟩ := hmem s hs
  obtain ⟨p, hp, rfl⟩ := List.mem_map.1 hk
  rw [ValidString_eq (hvalid p hp)]
  exact ⟨hk, hsub⟩

/-- C4 at the keys of the third scenario and the pattern `ct`. -/
theorem C4_fuzzy_soundness_witness :
    ∃ l, FuzzySearch (build [(utf8 "cat", some 1), (utf8 "cart", some 2),
        (utf8 "cot", some 3)]) (utf8 "ct") = .ok l
      ∧ ∀ s ∈ l, s ∈ [(utf8 "cat", some 1), (utf8 "cart", some 2),
          (utf8 "cot", some 3)].map Prod.fst
        ∧ (runes (utf8 "ct")).Sublist (runes s) :=
  C4_fuzzy_soundness [(utf8 "cat", some 1), (utf8 "cart", some 2), (utf8 "cot", some 3)]
    (by decide) (by decide) (utf8 "ct") (by decide) (by decide)

/-- C9: whenever `FuzzySearch` returns, the keys come in non-decreasing length
(`len` of a Go string, in bytes) and are a permutation of what `fuzzycollect`
produced. -/
theorem C9_fuzzy_ordering (t : Trie M) (pre : GoString) (l : List GoString)
    (h : FuzzySearch t pre = .ok l) :
    l.Sorted (fun a b => a.length ≤ b.length)
      ∧ ∃ l0, fuzzycollect [] t.root (runes pre) = .ok l0 ∧ l.Perm l0 := by
  unfold FuzzySearch at h
  cases hf : fuzzycollect [] t.root (runes pre) with
  | error e => rw [hf] at h; cases h
  | ok keys =>
    rw [hf] at h
    simp only [Except.ok.injEq] at h
    subst h
    refine ⟨?_, keys, rfl, List.perm_insertionSort _ keys⟩
    haveI : IsTotal GoString (fun a b => ByKeys.Less b a = false) :=
      ⟨fun a b => by simp only [ByKeys.Less, decide_eq_false_iff_not, not_lt]; omega⟩
    haveI : IsTrans GoString (fun a b => ByKeys.Less b a = false) :=
      ⟨fun a b c => by simp only [ByKeys.Less, decide_eq_false_iff_not, not_lt]; omega⟩
    have hs := List.sorted_insertionSort (fun a b => ByKeys.Less b a = false) keys
    exact List.Pairwise.imp (fun {a b} hab => by
      simpa only [ByKeys.Less, decide_eq_false_iff_not, not_lt] using hab) hs

/-- C9 at the third scenario: `cat`, `cot` (3 bytes) come before `cart` (4 bytes). -/
theorem C9_fuzzy_ordering_witness :
    [utf8 "cat", utf8 "cot", utf8 "cart"].Sorted (fun a b => a.length ≤ b.length)
      ∧ ∃ l0, fuzzycollect [] (build [(utf8 "cat", some 1), (utf8 "cart", some 2),
          (utf8 "cot", some 3)]).root (runes (utf8 "ct")) = .ok l0
        ∧ [utf8 "cat", utf8 "cot", utf8 "cart"].Perm l0 :=
  C9_fuzzy_ordering
    (build [(utf8 "cat", some 1), (utf8 "cart", some 2), (utf8 "cot", some 3)]) (utf8 "ct")
    [utf8 "cat", utf8 "cot", utf8 "cart"] (by decide)

/-! ### Masks of the tries built by `Add`, and `fuzzycollect` misses no match -/

theorem MaskOK_iff (n : Node M) :
    MaskOK n ↔ (∀ q ∈ suffixesList n.children,
        n.mask &&& maskruneslice (n.val :: q) = maskruneslice (n.val :: q))
      ∧ MaskOKList n.children := by
  cases n; simp [MaskOK]

theorem MaskOKList_getChild {cs : List (Char × Node M)} (h : MaskOKList cs) {r : Char}
    {c : Node M} (hg : getChild cs r = some c) : MaskOK c := by
  induction cs with
  | nil => simp [getChild] at hg
  | cons p rest ih =>
    obtain ⟨k, x⟩ := p
    simp only [MaskOKList] at h
    by_cases hk : k = r
    · simp only [getChild, hk, if_true, Option.some.injEq] at hg
      subst hg
      exact h.1
    · simp only [getChild, hk, if_false] at hg
      exact ih h.2 hg

theorem MaskOKList_setChild {cs : List (Char × Node M)} (h : MaskOKList cs) (r : Char)
    {c : Node M} (hc : MaskOK c) : MaskOKList (setChild cs r c) := by
  induction cs with
  | nil => simp [setChild, MaskOKList, hc]
  | cons p rest ih =>
    obtain ⟨k, x⟩ := p
    simp only [MaskOKList] at h
    by_cases hk : k = r
    · simp only [setChild, hk, if_true, MaskOKList]
      exact ⟨hc, h.2⟩
    · simp only [setChild, hk, if_false, MaskOKList]
      exact ⟨h.1, ih h.2⟩

theorem MaskOK_setMask_or {n : Node M} (h : MaskOK n) (b : Nat) :
    MaskOK (n.setMask (n.mask ||| b)) := by
  rw [MaskOK_iff] at h ⊢
  simp only [Node.children_setMask, Node.mask_setMask, Node.val_setMask]
  exact ⟨fun q hq => covers_or_left (h.1 q hq), h.2⟩

theorem addLoop_fst_mask_covers (node : Node M) (k : List Char) (m : Option M) {x : Nat}
    (h : node.mask &&& x = x) : (addLoop node k m).1.mask &&& x = x := by
  cases k with
  | nil => simpa [addLoop_nil] using h
  | cons r rest =>
    cases hg : getChild node.children r with
    | none =>
      rw [addLoop_cons_none _ _ _ _ hg]
      simp only [plug_mask, NewChild_fst_mask]
      exact covers_or_left h
    | some n =>
      rw [addLoop_cons_some _ _ _ _ _ hg]
      simpa using h

theorem mem_suffixesList_addLoop {d : Nat} {node : Node M} (hwf : WFInner d node)
    (k : List Char) (hk : nul ∉ k) (m : Option M) (q : List Char) :
    q ∈ suffixesList (addLoop node k m).1.children ↔ (q = k ∨ q ∈ suffixesList node.children) := by
  rw [mem_suffixesList_iff q d _ (addLoop_WFInner k hk m d node hwf).2.2,
    mem_suffixesList_iff q d _ hwf.2.2]
  by_cases h : q = k
  · subst h
    simp [sentinelIn_addLoop_self, hk]
  · simp only [h, false_or]
    constructor
    · rintro ⟨h1, h2⟩
      rw [sentinelIn_addLoop_ne node k q m hk h1 h] at h2
      exact ⟨h1, h2⟩
    · rintro ⟨h1, h2⟩
      rw [sentinelIn_addLoop_ne node k q m hk h1 h]
      exact ⟨h1, h2⟩

theorem addLoop_MaskOK (k : List Char) (hk : nul ∉ k) (m : Option M) (d : Nat) (node : Node M)
    (hwf : WFInner d node) (hm : MaskOK node)
    (hcov : node.mask &&& maskruneslice (node.val :: k) = maskruneslice (node.val :: k)) :
    MaskOK (addLoop node k m).1 := by
  induction k generalizing node d with
  | nil =>
    rw [MaskOK_iff]
    refine ⟨fun q hq => ?_, ?_⟩
    · rw [(addLoop_fst_fields node [] m).1]
      apply addLoop_fst_mask_covers
      rcases (mem_suffixesList_addLoop hwf [] hk m q).1 hq with h | h
      · rw [h]; exact hcov
      · exact ((MaskOK_iff node).1 hm).1 q h
    · simp only [addLoop_nil, NewChild_fst_children]
      exact MaskOKList_setChild ((MaskOK_iff node).1 hm).2 nul
        (by simp [MaskOK, suffixesList, MaskOKList])
  | cons r rest ih =>
    have hr : r ≠ nul := fun h => hk (by simp [h])
    have hrest : nul ∉ rest := fun h => hk (by simp [h])
    rw [MaskOK_iff]
    refine ⟨fun q hq => ?_, ?_⟩
    · rw [(addLoop_fst_fields node (r :: rest) m).1]
      apply addLoop_fst_mask_covers
      rcases (mem_suffixesList_addLoop hwf (r :: rest) hk m q).1 hq with h | h
      · rw [h]; exact hcov
      · exact ((MaskOK_iff node).1 hm).1 q h
    · cases hg : getChild node.children r with
      | none =>
        rw [addLoop_cons_none _ _ _ _ hg]
        simp only [plug_children, NewChild_fst_children]
        have hfresh : WFInner (d + 1)
            (Node.mk r false (node.depth + 1) none (maskruneslice (r :: rest)) [] : Node M) := by
          simp [WFInner, hwf.1, WFChildren]
        have hmf : MaskOK
            (Node.mk r false (node.depth + 1) none (maskruneslice (r :: rest)) [] : Node M) := by
          simp [MaskOK, suffixesList, MaskOKList]
        have h4 := ih hrest (d + 1) _ hfresh hmf (by simp)
        exact MaskOKList_setChild (MaskOKList_setChild ((MaskOK_iff node).1 hm).2 r hmf) r h4
      | some n =>
        rw [addLoop_cons_some _ _ _ _ _ hg]
        simp only [plug_children]
        obtain ⟨hnv, hnw⟩ := WFChildren_getChild hwf.2.2 hg
        have hin : WFInner (d + 1) n := WFInner_of_WFNode hnw (by rw [hnv]; exact hr)
        have hmn : MaskOK n := MaskOKList_getChild ((MaskOK_iff node).1 hm).2 hg
        have h4 := ih hrest (d + 1) _
          (WFInner_setMask hin (n.mask ||| maskruneslice (r :: rest)))
          (MaskOK_setMask_or hmn _)
          (by
            simp only [Node.mask_setMask, Node.val_setMask, hnv]
            exact covers_or_right (Nat.and_self _))
        exact MaskOKList_setChild ((MaskOK_iff node).1 hm).2 r h4

theorem MaskOK_Add {t : Trie M} (hwf : TrieWF t) (hm : MaskOK t.root) (key : GoString)
    (hk : nul ∉ runes key) (m : Option M) : MaskOK (Add t key m).1.root := by
  rw [Add_root]
  apply addLoop_MaskOK (runes key) hk m 0 _ (WFInner_setMask hwf.2 _) (MaskOK_setMask_or hm _)
  simp only [Node.mask_setMask, Node.val_setMask, hwf.1, maskruneslice_cons, runeBit_nul,
    Nat.zero_or]
  exact covers_or_right (Nat.and_self _)

theorem MaskOK_foldl (ys : List (GoString × Option M)) (hnul : ∀ p ∈ ys, nul ∉ runes p.1)
    (t : Trie M) (hwf : TrieWF t) (hm : MaskOK t.root) :
    MaskOK (ys.foldl (fun t p => (Add t p.1 p.2).1) t).root := by
  induction ys generalizing t with
  | nil => exact hm
  | cons p rest ih =>
    simp only [List.foldl_cons]
    exact ih (fun q hq => hnul q (by simp [hq])) _ (TrieWF_Add hwf p.1 (hnul p (by simp)) p.2)
      (MaskOK_Add hwf hm p.1 (hnul p (by simp)) p.2)

theorem MaskOK_build (adds : List (GoString × Option M)) (hnul : ∀ p ∈ adds, nul ∉ runes p.1) :
    MaskOK (build adds).root :=
  MaskOK_foldl adds hnul New TrieWF_New (by simp [New, MaskOK, suffixesList, MaskOKList])

theorem sublist_of_cons_ne {a b : Char} {l1 l2 : List Char} (h : (a :: l1).Sublist (b :: l2))
    (hne : b ≠ a) : (a :: l1).Sublist l2 := by
  cases h with
  | cons _ h1 => exact h1
  | cons₂ _ h1 => exact absurd rfl hne

mutual
theorem fuzzyRec_complete (pattern : List Char) (hp : nul ∉ pattern) : ∀ (c : Node M) (d : Nat)
    (chain : List (Node M)) (rq : List Char) (idx : Nat) (q : List Char) (l : List GoString),
    WFNode d c → MaskOK c → GoodChain chain rq → idx < pattern.length → q ∈ suffixes c →
    (pattern.drop idx).Sublist (c.val :: q) → fuzzyRec pattern idx chain c = .ok l →
    stringOfRunes (rq.reverse ++ c.val :: q) ∈ l
  | Node.mk v t dep m k cs, d, chain, rq, idx, q, l, hwf, hmask, hg, hidx, hq, hsub, hl => by
    have h1 : ¬ idx > pattern.length := by omega
    simp only [suffixes] at hq
    simp only [MaskOK] at hmask
    obtain ⟨hm1, hm2⟩ := hmask
    simp only [Node.val_mk] at hsub ⊢
    have h2 : ¬ k &&& maskruneslice (pattern.drop idx) ≠ maskruneslice (pattern.drop idx) := by
      simp only [ne_eq, not_not]
      exact covers_trans (hm1 q hq) (maskruneslice_sublist hsub)
    simp only [WFNode] at hwf
    obtain ⟨hdep, hd, hrest⟩ := hwf
    by_cases hv : v = nul
    · simp only [hv, if_true] at hrest
      rw [hrest.2] at hq
      simp [suffixesList] at hq
    simp only [hv, if_false] at hrest
    have hg2 : GoodChain (Node.mk v t dep m k cs :: chain) (v :: rq) :=
      GoodChain_cons hg (Node.mk v t dep m k cs) (by simp [hdep, hd])
    have h3 : pattern[idx]? = some pattern[idx] := List.getElem?_eq_getElem hidx
    have hdrop : pattern.drop idx = pattern[idx] :: pattern.drop (idx + 1) :=
      List.drop_eq_getElem_cons hidx
    rw [hdrop] at hsub
    have hstr : stringOfRunes (rq.reverse ++ v :: q) = stringOfRunes ((v :: rq).reverse ++ q) := by
      simp
    rw [hstr]
    by_cases h4 : v = pattern[idx]
    · rw [← h4] at hsub
      have hsub2 : (pattern.drop (idx + 1)).Sublist q := List.cons_sublist_cons.1 hsub
      by_cases h5 : idx + 1 = pattern.length
      · have hin : WFInner d (Node.mk v t dep m k cs) := ⟨hdep, hrest.1, hrest.2⟩
        have hcol := collect_inner hin chain (v :: rq) hg2
        simp only [Node.children_mk] at hcol
        simp only [fuzzyRec, h1, if_false, if_neg h2, h3, h4, if_true, h5] at hl
        rw [← h4, hcol] at hl
        simp only [Except.ok.injEq] at hl
        rw [← hl]
        exact List.mem_map.2 ⟨q, hq, rfl⟩
      · simp only [fuzzyRec, h1, if_false, if_neg h2, h3, h4, if_true, h5] at hl
        rw [← h4] at hl
        exact fuzzyRecList_complete pattern hp cs d _ (v :: rq) (idx + 1) q l hrest.2 hm2 hg2
          (by omega) hq hsub2 hl
    · have hsub2 : (pattern.drop idx).Sublist q := by
        rw [hdrop]
        exact sublist_of_cons_ne hsub h4
      simp only [fuzzyRec, h1, if_false, if_neg h2, h3, h4] at hl
      exact fuzzyRecList_complete pattern hp cs d _ (v :: rq) idx q l hrest.2 hm2 hg2
        hidx hq hsub2 hl
theorem fuzzyRecList_complete (pattern : List Char) (hp : nul ∉ pattern) :
    ∀ (cs : List (Char × Node M)) (d : Nat) (chain : List (Node M)) (rq : List Char) (idx : Nat)
    (q : List Char) (l : List GoString),
    WFChildren d cs → MaskOKList cs → GoodChain chain rq → idx < pattern.length →
    q ∈ suffixesList cs → (pattern.drop idx).Sublist q →
    fuzzyRecList pattern idx chain cs = .ok l → stringOfRunes (rq.reverse ++ q) ∈ l
  | [], _, _, _, _, _, _, _, _, _, _, hq, _, _ => by simp [suffixesList] at hq
  | (r, c) :: rest, d, chain, rq, idx, q, l, hwf, hmask, hg, hidx, hq, hsub, hl => by
    simp only [WFChildren] at hwf
    obtain ⟨_, _, hc, hrest⟩ := hwf
    simp only [MaskOKList] at hmask
    simp only [fuzzyRecList] at hl
    cases ha : fuzzyRec pattern idx chain c with
    | error e => rw [ha] at hl; cases hl
    | ok a =>
      rw [ha] at hl
      simp only [] at hl
      cases hb : fuzzyRecList pattern idx chain rest with
      | error e => rw [hb] at hl; cases hl
      | ok b =>
        rw [hb] at hl
        simp only [Except.ok.injEq] at hl
        rw [← hl]
        simp only [suffixesList, List.mem_append, List.mem_map] at hq
        rcases hq with (hq | ⟨q1, hq1, rfl⟩) | hq
        · by_cases ht : c.term = true
          · simp only [ht, if_true, List.mem_singleton] at hq
            rw [hq, List.drop_eq_getElem_cons hidx] at hsub
            cases hsub
          · simp [ht] at hq
        · exact List.mem_append.2 (Or.inl
            (fuzzyRec_complete pattern hp c (d + 1) chain rq idx q1 a hc hmask.1 hg hidx hq1
              hsub ha))
        · exact List.mem_append.2 (Or.inr
            (fuzzyRecList_complete pattern hp rest d chain rq idx q b hrest hmask.2 hg hidx hq
              hsub hb))
end

theorem fuzzycollect_complete (t : Trie M) (hwf : TrieWF t) (hm : MaskOK t.root)
    (pattern : List Char) (hp : nul ∉ pattern) (hne : pattern ≠ []) (q : List Char)
    (hq : q ∈ suffixesList t.root.children) (hsub : pattern.Sublist q) (l : List GoString)
    (hl : fuzzycollect [] t.root pattern = .ok l) : stringOfRunes q ∈ l := by
  rw [fuzzycollect_root t hwf pattern hp hne] at hl
  have hcov : t.root.mask &&& maskruneslice pattern = maskruneslice pattern := by
    have h1 := ((MaskOK_iff t.root).1 hm).1 q hq
    rw [hwf.1, maskruneslice_cons, runeBit_nul, Nat.zero_or] at h1
    exact covers_trans h1 (maskruneslice_sublist hsub)
  have h2 : ¬ t.root.mask &&& maskruneslice pattern ≠ maskruneslice pattern := by
    simp only [ne_eq, not_not]; exact hcov
  rw [if_neg h2] at hl
  have hg0 : GoodChain [t.root] [] := by simp [GoodChain, hwf.2.1]
  have := fuzzyRecList_complete pattern hp t.root.children 0 [t.root] [] 0 q l hwf.2.2.2
    ((MaskOK_iff t.root).1 hm).2 hg0 (List.length_pos.2 hne) hq (by simpa using hsub) hl
  simpa using this

theorem not_nul_of_lower {cs : List Char} (h : ∀ c ∈ cs, 'a' ≤ c ∧ c ≤ 'z') : nul ∉ cs := by
  intro hmem
  exact absurd (h nul hmem).1 (by decide)

/-- C3: on a trie built by `Add` calls on keys over `a`-`z`, `FuzzySearch` with a
non-empty pattern over `a`-`z` returns every added key that holds the pattern as
a subsequence: the mask test prunes no subtree with such a key. -/
theorem C3_fuzzy_completeness (adds : List (GoString × Option M))
    (haz : ∀ p ∈ adds, ∀ c ∈ runes p.1, 'a' ≤ c ∧ c ≤ 'z') (pre : GoString)
    (hne : runes pre ≠ []) (hpre : ∀ c ∈ runes pre, 'a' ≤ c ∧ c ≤ 'z') (k : GoString)
    (hk : k ∈ adds.map Prod.fst) (hsub : (runes pre).Sublist (runes k)) :
    ∃ l, FuzzySearch (build adds) pre = .ok l ∧ k ∈ l := by
  have hnul : ∀ p ∈ adds, nul ∉ runes p.1 := fun p hp => not_nul_of_lower (haz p hp)
  have hp : nul ∉ runes pre := not_nul_of_lower hpre
  have hwf := TrieWF_build adds hnul
  obtain ⟨l, hl, -⟩ := fuzzycollect_sound (build adds) hwf (runes pre) hp hne
  refine ⟨sortSort ByKeys.Less l, by simp only [FuzzySearch, hl], ?_⟩
  rw [mem_sortSort]
  obtain ⟨p, hpm, rfl⟩ := List.mem_map.1 hk
  obtain ⟨h1, h2⟩ := (stored_build adds hnul (runes p.1)).2 (List.mem_map.2 ⟨p, hpm, rfl⟩)
  have hq := (mem_suffixesList_iff (runes p.1) 0 _ hwf.2.2.2).2 ⟨h1, h2⟩
  have hmem := fuzzycollect_complete (build adds) hwf (MaskOK_build adds hnul) (runes pre) hp hne
    (runes p.1) hq hsub l hl
  rwa [valid_of_lower p.1 (haz p hpm)] at hmem

/-- C3 at the keys of the third scenario: `cart` holds `ct` as a subsequence. -/
theorem C3_fuzzy_completeness_witness :
    ∃ l, FuzzySearch (build [(utf8 "cat", some 1), (utf8 "cart", some 2),
        (utf8 "cot", some 3)]) (utf8 "ct") = .ok l
      ∧ utf8 "cart" ∈ l :=
  C3_fuzzy_completeness [(utf8 "cat", some 1), (utf8 "cart", some 2), (utf8 "cot", some 3)]
    (by decide) (utf8 "ct") (by decide) (by decide) (utf8 "cart") (by decide) (by decide)

/-! ### Counting keys: `size`, terminal nodes and `Keys` -/

mutual
theorem length_suffixes : ∀ (c : Node M),
    (suffixes c).length + (if c.term then 1 else 0) = termCount c
  | Node.mk v t d m k cs => by
    simp only [suffixes, termCount, Node.term_mk, length_suffixesList cs]
    omega
theorem length_suffixesList : ∀ (cs : List (Char × Node M)),
    (suffixesList cs).length = termCountList cs
  | [] => by simp [suffixesList, termCountList]
  | (r, c) :: rest => by
    simp only [suffixesList, termCountList, List.length_append, List.length_map,
      length_suffixesList rest, ← length_suffixes c]
    by_cases ht : c.term = true
    · simp [ht]; omega
    · simp [ht]
end

theorem not_mem_suffixesList_of_getChild_none {d : Nat} {cs : List (Char × Node M)}
    (hwf : WFChildren d cs) {r : Char} (hg : getChild cs r = none) :
    (r = nul → [] ∉ suffixesList cs) ∧ ∀ q, r :: q ∉ suffixesList cs := by
  refine ⟨fun hr h => ?_, fun q h => ?_⟩
  · have := ((mem_suffixesList_iff [] d cs hwf).1 h).2
    rw [sentinelIn, ← hr, hg] at this
    cases this
  · have := ((mem_suffixesList_iff (r :: q) d cs hwf).1 h).2
    rw [sentinelIn, hg] at this
    cases this

mutual
theorem nodup_suffixes : ∀ (c : Node M) (d : Nat), WFNode d c → (suffixes c).Nodup
  | Node.mk v t dep m k cs, d, hwf => by
    simp only [WFNode] at hwf
    simp only [suffixes]
    by_cases hv : v = nul
    · simp only [hv, if_true] at hwf
      rw [hwf.2.2.2]
      simp [suffixesList]
    · simp only [hv, if_false] at hwf
      exact nodup_suffixesList cs d hwf.2.2.2
theorem nodup_suffixesList : ∀ (cs : List (Char × Node M)) (d : Nat), WFChildren d cs →
    (suffixesList cs).Nodup
  | [], _, _ => by simp [suffixesList]
  | (r, c) :: rest, d, hwf => by
    simp only [WFChildren] at hwf
    obtain ⟨hv, hg, hc, hrest⟩ := hwf
    obtain ⟨hno1, hno2⟩ := not_mem_suffixesList_of_getChild_none hrest hg
    have hterm : c.term = true → r = nul := by
      intro ht
      rw [WFNode_iff] at hc
      by_contra hne
      rw [hv] at hc
      simp only [hne, if_false] at hc
      rw [hc.2.2.1] at ht
      cases ht
    simp only [suffixesList]
    rw [List.nodup_append, List.nodup_append]
    refine ⟨⟨?_, ?_, ?_⟩, nodup_suffixesList rest d hrest, ?_⟩
    · by_cases ht : c.term = true <;> simp [ht]
    · exact (nodup_suffixes c (d + 1) hc).map (fun a b h => by simpa using h)
    · intro q hq1 hq2
      by_cases ht : c.term = true
      · simp only [ht, if_true, List.mem_singleton] at hq1
        subst hq1
        simp at hq2
      · simp [ht] at hq1
    · intro q hq1 hq2
      rcases List.mem_append.1 hq1 with h | h
      · by_cases ht : c.term = true
        · simp only [ht, if_true, List.mem_singleton] at h
          subst h
          exact hno1 (hterm ht) hq2
        · simp [ht] at h
      · obtain ⟨q1, _, rfl⟩ := List.mem_map.1 h
        rw [hv] at hq2
        exact hno2 q1 hq2
end

theorem Keys_eq (t : Trie M) (hwf : TrieWF t) :
    Keys t = .ok ((suffixesList t.root.children).map stringOfRunes) := by
  have hg0 : GoodChain [t.root] [] := by simp [GoodChain, hwf.2.1]
  have := collect_inner hwf.2 [] [] hg0
  simpa [Keys, PrefixSearch, findNode] using this

theorem termCount_root (t : Trie M) (hwf : TrieWF t) :
    termCount t.root = (suffixesList t.root.children).length := by
  have h := length_suffixes t.root
  rw [hwf.2.2.1, suffixes_eq] at h
  simpa using h.symm

theorem Add_size (t : Trie M) (key : GoString) (m : Option M) :
    (Add t key m).1.size = t.size + 1 := rfl

theorem size_foldl (ys : List (GoString × Option M)) (t : Trie M) :
    (ys.foldl (fun t p => (Add t p.1 p.2).1) t).size = t.size + ys.length := by
  induction ys generalizing t with
  | nil => simp
  | cons p rest ih =>
    simp only [List.foldl_cons, List.length_cons]
    rw [ih, Add_size]
    push_cast
    ring

theorem size_Remove {t t1 : Trie M} {key : GoString} (h : Remove t key = .ok t1) :
    t1.size = t.size - 1 := by
  simp only [Remove] at h
  cases hf : findNode [] t.root (runes key) with
  | none => rw [hf] at h; cases h
  | some res =>
    rw [hf] at h
    simp only [] at h
    cases hr : removeLoop (runes key) res.1 0 with
    | error e => rw [hr] at h; cases h
    | ok o =>
      rw [hr] at h
      cases o with
      | none => simp only [Except.ok.injEq] at h; rw [← h]
      | some root => simp only [Except.ok.injEq] at h; rw [← h]

theorem size_run (ops : List (Op M)) (t0 t : Trie M) (h : run t0 ops = .ok t) :
    t.size = t0.size + (addCalls ops : Int) - (removeCalls ops : Int) := by
  induction ops generalizing t0 with
  | nil =>
    simp only [run, Except.ok.injEq] at h
    simp [addCalls, removeCalls, h]
  | cons op rest ih =>
    cases op with
    | add key m =>
      simp only [run] at h
      rw [ih _ h, Add_size]
      simp only [addCalls, removeCalls]
      push_cast
      ring
    | remove key =>
      simp only [run] at h
      cases hr : Remove t0 key with
      | error e => rw [hr] at h; cases h
      | ok t1 =>
        rw [hr] at h
        simp only [] at h
        rw [ih _ h, size_Remove hr]
        simp only [addCalls, removeCalls]
        push_cast
        ring

theorem Keys_length_build (adds : List (GoString × Option M))
    (hnul : ∀ p ∈ adds, nul ∉ runes p.1) (hdist : (adds.map (fun p => runes p.1)).Nodup) :
    (suffixesList (build adds).root.children).length = adds.length := by
  have hwf := TrieWF_build adds hnul
  have hperm : (suffixesList (build adds).root.children).Perm
      (adds.map (fun p => runes p.1)) := by
    rw [List.perm_ext_iff_of_nodup (nodup_suffixesList _ 0 hwf.2.2.2) hdist]
    intro q
    rw [← stored_build adds hnul q]
    exact mem_suffixesList_iff q 0 _ hwf.2.2.2
  simpa using hperm.length_eq

theorem nodup_runes_of_valid (adds : List (GoString × Option M))
    (hvalid : ∀ p ∈ adds, ValidString p.1 = true) (hdist : (adds.map Prod.fst).Nodup) :
    (adds.map (fun p => runes p.1)).Nodup := by
  have h : adds.map (fun p => runes p.1) = (adds.map Prod.fst).map runes := by
    rw [List.map_map]
    rfl
  rw [h]
  refine List.Nodup.map_on (fun x hx y hy hxy => ?_) hdist
  obtain ⟨p, hp, rfl⟩ := List.mem_map.1 hx
  obtain ⟨q, hq, rfl⟩ := List.mem_map.1 hy
  exact ValidString_inj (hvalid p hp) (hvalid q hq) hxy

/-- C8, amended: `size` counts calls, the `Add` calls minus the `Remove` calls
that returned; on a trie built by `Add` calls alone on pairwise distinct keys
that are valid UTF-8 and free of `nul` it is the number of terminal nodes and of
keys that `Keys()` lists. -/
theorem C8_size_counts_calls (ops : List (Op M)) (t : Trie M) (hrun : run New ops = .ok t)
    (adds : List (GoString × Option M)) (hnul : ∀ p ∈ adds, nul ∉ runes p.1)
    (hvalid : ∀ p ∈ adds, ValidString p.1 = true)
    (hdist : (adds.map Prod.fst).Nodup) :
    t.size = (addCalls ops : Int) - (removeCalls ops : Int)
      ∧ (build adds).size = (adds.length : Int)
      ∧ termCount (build adds).root = adds.length
      ∧ ∃ l, Keys (build adds) = .ok l ∧ l.length = adds.length := by
  have hwf := TrieWF_build adds hnul
  have hlen := Keys_length_build adds hnul (nodup_runes_of_valid adds hvalid hdist)
  refine ⟨?_, ?_, ?_, _, Keys_eq _ hwf, ?_⟩
  · rw [size_run ops New t hrun]
    simp [New]
  · rw [build, size_foldl]
    simp [New]
  · rw [termCount_root _ hwf, hlen]
  · simpa using hlen

/-- C8, amended, at two calls sequences: `a`, `b` added and `a` removed; and the
four distinct keys of the first scenario. -/
theorem C8_size_counts_calls_witness :
    ((run New [Op.add (utf8 "a") (some 1), Op.add (utf8 "b") (some 2),
        Op.remove (utf8 "a")]).toOption.getD New).size
        = ((addCalls [Op.add (utf8 "a") (some 1), Op.add (utf8 "b") (some 2),
            Op.remove (utf8 "a")] : Nat) : Int)
          - ((removeCalls [Op.add (utf8 "a") (some 1), Op.add (utf8 "b") (some 2),
              Op.remove (utf8 "a")] : Nat) : Int)
      ∧ (build [(utf8 "cat", some 1), (utf8 "car", some 2), (utf8 "cart", some 3),
          (utf8 "dog", some 4)]).size
          = (([(utf8 "cat", some 1), (utf8 "car", some 2), (utf8 "cart", some 3),
              (utf8 "dog", some 4)].length : Nat) : Int)
      ∧ termCount (build [(utf8 "cat", some 1), (utf8 "car", some 2), (utf8 "cart", some 3),
          (utf8 "dog", some 4)]).root
          = [(utf8 "cat", some 1), (utf8 "car", some 2), (utf8 "cart", some 3),
              (utf8 "dog", some 4)].length
      ∧ ∃ l, Keys (build [(utf8 "cat", some 1), (utf8 "car", some 2), (utf8 "cart", some 3),
          (utf8 "dog", some 4)]) = .ok l
          ∧ l.length = [(utf8 "cat", some 1), (utf8 "car", some 2), (utf8 "cart", some 3),
            (utf8 "dog", some 4)].length :=
  C8_size_counts_calls
    [Op.add (utf8 "a") (some 1), Op.add (utf8 "b") (some 2), Op.remove (utf8 "a")]
    ((run New [Op.add (utf8 "a") (some 1), Op.add (utf8 "b") (some 2),
      Op.remove (utf8 "a")]).toOption.getD New) rfl
    [(utf8 "cat", some 1), (utf8 "car", some 2), (utf8 "cart", some 3), (utf8 "dog", some 4)]
    (by decide) (by decide) (by decide)

/-- C8 as stated fails: after `Add("a")` twice `size` is 2 with one terminal node
and one key listed; after `Add("a")`, `Remove("a")` `size` is 0 with the
terminal node and the key still there. -/
theorem C8_size_invariant_counterexample :
    (build [(utf8 "a", some 1), (utf8 "a", some 2)]).size = 2
      ∧ termCount (build [(utf8 "a", some 1), (utf8 "a", some 2)]).root = 1
      ∧ Keys (build [(utf8 "a", some 1), (utf8 "a", some 2)]) = .ok [utf8 "a"]
      ∧ (run New [Op.add (utf8 "a") (some 1), Op.remove (utf8 "a")]).map
          (fun t => (t.size, termCount t.root, Keys t)) = .ok (0, 1, .ok [utf8 "a"]) := by
  decide

/-! ### Inputs on which the code leaves its documented behaviour -/

/-- C5 fails on the code: with `cat` and `car` stored, `Find("ca")` reads `term`
through the nil entry of the children map and panics; so does `Find("")` on the
empty trie. -/
theorem C5_find_absent_key_faults :
    Find (build [(utf8 "cat", some 1), (utf8 "car", some 2)]) (utf8 "ca")
        = .error Fault.nilDereference
      ∧ Find (New : Trie Nat) [] = .error Fault.nilDereference :=
  ⟨rfl, rfl⟩

/-- C6 fails on the code: after adding `a`, `ab`, `abc`, `Remove("ab")` detaches
the whole subtree under `b`: `Keys()` is `a` alone and `Find("abc")` reports
not found. -/
theorem C6_remove_drops_longer_keys :
    (run New [Op.add (utf8 "a") (some 1), Op.add (utf8 "ab") (some 2),
        Op.add (utf8 "abc") (some 3), Op.remove (utf8 "ab")]).bind Keys = .ok [utf8 "a"]
      ∧ (run New [Op.add (utf8 "a") (some 1), Op.add (utf8 "ab") (some 2),
        Op.add (utf8 "abc") (some 3), Op.remove (utf8 "ab")]).bind
          (fun t => Find t (utf8 "abc")) = .ok none :=
  ⟨by decide, rfl⟩

/-- C7 fails on the code: `Remove("a")` on the trie holding `a` alone finds no
ancestor with two children and removes nothing: `Keys()` still lists `a` and
`Find("a")` still finds it. -/
theorem C7_remove_only_key_keeps_it :
    (run New [Op.add (utf8 "a") (some 1), Op.remove (utf8 "a")]).bind Keys = .ok [utf8 "a"]
      ∧ (run New [Op.add (utf8 "a") (some 1), Op.remove (utf8 "a")]).bind
          (fun t => Find t (utf8 "a"))
        = .ok (some (Node.mk nul true 2 (some 1) 0 [])) :=
  ⟨by decide, rfl⟩

/-- C10 fails on the code: with the empty pattern `fuzzycollect` indexes
`partial[0]` and panics, on the empty trie and on a trie with keys. -/
theorem C10_fuzzy_empty_pattern_faults :
    FuzzySearch (New : Trie Nat) [] = .error Fault.indexOutOfRange
      ∧ FuzzySearch (build [(utf8 "cat", some 1), (utf8 "cart", some 2)]) []
        = .error Fault.indexOutOfRange := by
  decide

/-! ### `maskruneslice` as a filter -/

theorem maskruneslice_append (xs ys : List Char) :
    maskruneslice (xs ++ ys) = maskruneslice xs ||| maskruneslice ys := by
  induction xs with
  | nil => simp [maskruneslice_nil]
  | cons x rest ih => simp [maskruneslice_cons, ih, Nat.or_assoc]

theorem runeBit_out_of_range (r : Char) (h : r.toNat < 97 ∨ 161 ≤ r.toNat) : runeBit r = 0 := by
  have h64 : ¬ shiftCount r < 64 := by
    unfold shiftCount
    have hlt : r.toNat < 2 ^ 32 := by
      have := r.val.val.isLt
      simpa [Char.toNat] using this
    have e : (2 : Int) ^ 64 = 18446744073709551616 := by norm_num
    rw [e]
    omega
  simp [runeBit, h64]

theorem runeBit_in_range (r : Char) (h1 : 97 ≤ r.toNat) (h2 : r.toNat < 161) :
    runeBit r = 2 ^ (r.toNat - 97) := by
  have hs : shiftCount r = r.toNat - 97 := by
    unfold shiftCount
    have e : (2 : Int) ^ 64 = 18446744073709551616 := by norm_num
    rw [e]
    omega
  have hlt : r.toNat - 97 < 64 := by omega
  simp only [runeBit, hs, hlt, if_true, Nat.shiftLeft_eq, one_mul]
  exact Nat.mod_eq_of_lt (Nat.pow_lt_pow_right (by norm_num) hlt)

/-- C15: for all rune sequences, if `p` is a subsequence of `s` then every bit of
`maskruneslice(p)` is set in `maskruneslice(s)`; the mask of a concatenation is
the OR of the masks; a rune outside `a`..`a`+63 has shift count 64 or more and
contributes no bit. -/
theorem C15_mask_necessary_filter (p s : List Char) (h : p.Sublist s) (xs ys : List Char) :
    maskruneslice s &&& maskruneslice p = maskruneslice p
      ∧ maskruneslice (xs ++ ys) = maskruneslice xs ||| maskruneslice ys
      ∧ ∀ r : Char, (r.toNat < 97 ∨ 161 ≤ r.toNat) → runeBit r = 0 :=
  ⟨maskruneslice_sublist h, maskruneslice_append xs ys, runeBit_out_of_range⟩

/-- C15 at the subsequence `ct` of `cart`. -/
theorem C15_mask_necessary_filter_witness :
    maskruneslice ['c', 'a', 'r', 't'] &&& maskruneslice ['c', 't'] = maskruneslice ['c', 't']
      ∧ maskruneslice (['c', 'a'] ++ ['r', 't'])
          = maskruneslice ['c', 'a'] ||| maskruneslice ['r', 't']
      ∧ ∀ r : Char, (r.toNat < 97 ∨ 161 ≤ r.toNat) → runeBit r = 0 :=
  C15_mask_necessary_filter ['c', 't'] ['c', 'a', 'r', 't'] (by decide) ['c', 'a'] ['r', 't']

/-! ### `Keys` after re-adds -/

theorem Keys_build_nodup (adds : List (GoString × Option M))
    (hnul : ∀ p ∈ adds, nul ∉ runes p.1) :
    ∃ l, Keys (build adds) = .ok l ∧ l.Nodup
      ∧ ∀ s : GoString, s ∈ l ↔ ∃ k ∈ adds.map Prod.fst, stringOfRunes (runes k) = s := by
  have hwf := TrieWF_build adds hnul
  refine ⟨_, Keys_eq _ hwf, ?_, fun s => ?_⟩
  · exact (nodup_suffixesList _ 0 hwf.2.2.2).map (fun a b h => stringOfRunes_injective h)
  · rw [List.mem_map]
    constructor
    · rintro ⟨q, hq, rfl⟩
      obtain ⟨p, hp, rfl⟩ := List.mem_map.1
        ((stored_build adds hnul q).1 ((mem_suffixesList_iff q 0 _ hwf.2.2.2).1 hq))
      exact ⟨p.1, List.mem_map.2 ⟨p, hp, rfl⟩, rfl⟩
    · rintro ⟨k, hk, rfl⟩
      obtain ⟨p, hp, rfl⟩ := List.mem_map.1 hk
      exact ⟨runes p.1, (mem_suffixesList_iff _ 0 _ hwf.2.2.2).2
        ((stored_build adds hnul (runes p.1)).2 (List.mem_map.2 ⟨p, hp, rfl⟩)), rfl⟩

theorem Keys_build_nodup_valid (adds : List (GoString × Option M))
    (hnul : ∀ p ∈ adds, nul ∉ runes p.1) (hvalid : ∀ p ∈ adds, ValidString p.1 = true) :
    ∃ l, Keys (build adds) = .ok l ∧ l.Nodup
      ∧ ∀ s : GoString, s ∈ l ↔ s ∈ adds.map Prod.fst := by
  obtain ⟨l, hl, hnd, hmem⟩ := Keys_build_nodup adds hnul
  refine ⟨l, hl, hnd, fun s => ?_⟩
  rw [hmem s]
  constructor
  · rintro ⟨k, hk, rfl⟩
    obtain ⟨p, hp, rfl⟩ := List.mem_map.1 hk
    rwa [ValidString_eq (hvalid p hp)]
  · intro hs
    obtain ⟨p, hp, rfl⟩ := List.mem_map.1 hs
    exact ⟨p.1, hs, ValidString_eq (hvalid p hp)⟩

/-- C20, as stated, fails on keys that are not valid UTF-8: after `Add("\xff", 1)`
and `Add("\xfe", 2)`, two distinct keys without a NUL rune, `Keys()` lists one
string. -/
theorem C20_invalid_utf8_counterexample :
    (∀ p ∈ [(([0xff] : GoString), some 1), ([0xfe], some 2)], nul ∉ runes p.1)
      ∧ Keys (build [(([0xff] : GoString), some 1), ([0xfe], some 2)]) = .ok [[0xef, 0xbf, 0xbd]]
      ∧ ([([0xef, 0xbf, 0xbd] : GoString)]).length = 1
      ∧ ([(([0xff] : GoString), some 1), ([0xfe], some 2)].map Prod.fst).dedup.length = 2 := by
  decide

/-- C20: after `Add` calls on `New()` with keys that are valid UTF-8 and free of
`nul`, the same key possibly added several times, `Keys()` lists no string twice
and as many strings as there are distinct keys added. -/
theorem C20_keys_listed_once (adds : List (GoString × Option M))
    (hnul : ∀ p ∈ adds, nul ∉ runes p.1) (hvalid : ∀ p ∈ adds, ValidString p.1 = true) :
    ∃ l, Keys (build adds) = .ok l ∧ l.Nodup
      ∧ l.length = (adds.map Prod.fst).dedup.length := by
  obtain ⟨l, hl, hnd, hmem⟩ := Keys_build_nodup_valid adds hnul hvalid
  refine ⟨l, hl, hnd, List.Perm.length_eq ?_⟩
  rw [List.perm_ext_iff_of_nodup hnd (List.nodup_dedup _)]
  intro s
  rw [hmem s, List.mem_dedup]

/-- C20 with `car` added three times among the keys of the first scenario. -/
theorem C20_keys_listed_once_witness :
    ∃ l, Keys (build [(utf8 "car", some 1), (utf8 "cat", some 2), (utf8 "car", some 3),
        (utf8 "cart", some 4), (utf8 "car", some 5)]) = .ok l ∧ l.Nodup
      ∧ l.length = ([(utf8 "car", some 1), (utf8 "cat", some 2), (utf8 "car", some 3),
        (utf8 "cart", some 4), (utf8 "car", some 5)].map Prod.fst).dedup.length :=
  C20_keys_listed_once [(utf8 "car", some 1), (utf8 "cat", some 2), (utf8 "car", some 3),
    (utf8 "cart", some 4), (utf8 "car", some 5)] (by decide) (by decide)

/-- C12, amended: on a trie built by `Add` calls on keys free of `nul`, `Add` of
a key already stored increments `size` by one and leaves `Keys()` the same
keys, each listed once before and after. -/
theorem C12_readd_increments_size (adds : List (GoString × Option M))
    (hnul : ∀ p ∈ adds, nul ∉ runes p.1) (k : GoString) (hk : k ∈ adds.map Prod.fst)
    (m : Option M) :
    (Add (build adds) k m).1.size = (build adds).size + 1
      ∧ ∃ l l1, Keys (build adds) = .ok l ∧ Keys (Add (build adds) k m).1 = .ok l1
        ∧ l1.Perm l ∧ l.Nodup ∧ l1.Nodup := by
  refine ⟨Add_size _ _ _, ?_⟩
  have hknul : nul ∉ runes k := by
    obtain ⟨p, hp, rfl⟩ := List.mem_map.1 hk
    exact hnul p hp
  have hnul2 : ∀ p ∈ adds ++ [(k, m)], nul ∉ runes p.1 := by
    intro p hp
    rcases List.mem_append.1 hp with h | h
    · exact hnul p h
    · simp only [List.mem_singleton] at h
      rw [h]; exact hknul
  obtain ⟨l, hl, hnd, hmem⟩ := Keys_build_nodup adds hnul
  obtain ⟨l1, hl1, hnd1, hmem1⟩ := Keys_build_nodup (adds ++ [(k, m)]) hnul2
  have hb : build (adds ++ [(k, m)]) = (Add (build adds) k m).1 := by
    rw [build_append]; rfl
  rw [hb] at hl1
  refine ⟨l, l1, hl, hl1, ?_, hnd, hnd1⟩
  rw [List.perm_ext_iff_of_nodup hnd1 hnd]
  intro s
  rw [hmem s, hmem1 s]
  constructor
  · rintro ⟨k1, hk1, hs⟩
    rw [List.map_append, List.mem_append] at hk1
    rcases hk1 with h | h
    · exact ⟨k1, h, hs⟩
    · simp only [List.map_cons, List.map_nil, List.mem_singleton] at h
      subst h
      exact ⟨k1, hk, hs⟩
  · rintro ⟨k1, hk1, hs⟩
    exact ⟨k1, by rw [List.map_append]; exact List.mem_append.2 (Or.inl hk1), hs⟩

/-- C12, amended, at `car` added again to the keys of the first scenario. -/
theorem C12_readd_increments_size_witness :
    (Add (build [(utf8 "cat", some 1), (utf8 "car", some 2), (utf8 "cart", some 3)])
        (utf8 "car") (some 9)).1.size
        = (build [(utf8 "cat", some 1), (utf8 "car", some 2), (utf8 "cart", some 3)]).size + 1
      ∧ ∃ l l1, Keys (build [(utf8 "cat", some 1), (utf8 "car", some 2),
          (utf8 "cart", some 3)]) = .ok l
        ∧ Keys (Add (build [(utf8 "cat", some 1), (utf8 "car", some 2), (utf8 "cart", some 3)])
            (utf8 "car") (some 9)).1 = .ok l1
        ∧ l1.Perm l ∧ l.Nodup ∧ l1.Nodup :=
  C12_readd_increments_size
    [(utf8 "cat", some 1), (utf8 "car", some 2), (utf8 "cart", some 3)] (by decide)
    (utf8 "car") (by decide) (some 9)

/-- C12 as stated fails: `Add("a")` on the trie holding `a` raises `size` from 1
to 2; and with a key holding `nul`, re-adding the stored `a` drops the stored
key `a`, `nul`, `b` from `Keys()`. -/
theorem C12_readd_size_counterexample :
    (build [(utf8 "a", some 1)]).size = 1
      ∧ (Add (build [(utf8 "a", some 1)]) (utf8 "a") (some 2)).1.size = 2
      ∧ Keys (build [(utf8 "a", some 1), (stringOfRunes ['a', nul, 'b'], some 2)])
          = .ok [utf8 "a", stringOfRunes ['a', nul, 'b']]
      ∧ Keys (Add (build [(utf8 "a", some 1), (stringOfRunes ['a', nul, 'b'], some 2)]) (utf8 "a")
          (some 3)).1 = .ok [utf8 "a"] := by
  decide

/-! ### `fuzzycollect` lists a part of what `collect` lists, in the same order -/

mutual
theorem fuzzyRec_sublist (pattern : List Char) (hp : nul ∉ pattern) : ∀ (c : Node M) (d : Nat)
    (chain : List (Node M)) (rq : List Char) (idx : Nat) (l : List GoString),
    WFNode d c → GoodChain chain rq → idx < pattern.length →
    fuzzyRec pattern idx chain c = .ok l →
    l.Sublist ((suffixes c).map (fun q => stringOfRunes (rq.reverse ++ c.val :: q)))
  | Node.mk v t dep m k cs, d, chain, rq, idx, l, hwf, hg, hidx, hl => by
    have h1 : ¬ idx > pattern.length := by omega
    by_cases h2 : k &&& maskruneslice (pattern.drop idx) ≠ maskruneslice (pattern.drop idx)
    · simp only [fuzzyRec, h1, if_false, if_pos h2, Except.ok.injEq] at hl
      rw [← hl]
      exact List.nil_sublist _
    obtain ⟨ch, h3, hcm⟩ : ∃ ch, pattern[idx]? = some ch ∧ ch ∈ pattern :=
      ⟨pattern[idx], List.getElem?_eq_getElem hidx, by simp⟩
    have hch : ch ≠ nul := by
      intro h
      exact hp (by rw [← h]; exact hcm)
    simp only [WFNode] at hwf
    obtain ⟨hdep, hd, hrest⟩ := hwf
    have hg2 : GoodChain (Node.mk v t dep m k cs :: chain) (v :: rq) :=
      GoodChain_cons hg (Node.mk v t dep m k cs) (by simp [hdep, hd])
    have htarget : (suffixes (Node.mk v t dep m k cs)).map
        (fun q => stringOfRunes (rq.reverse ++ (Node.mk v t dep m k cs).val :: q))
        = (suffixesList cs).map (fun q => stringOfRunes ((v :: rq).reverse ++ q)) := by
      simp [suffixes]
    rw [htarget]
    by_cases h4 : v = ch
    · have hv : v ≠ nul := by rw [h4]; exact hch
      simp only [hv, if_false] at hrest
      by_cases h5 : idx + 1 = pattern.length
      · have hin : WFInner d (Node.mk v t dep m k cs) := ⟨hdep, hrest.1, hrest.2⟩
        have hcol := collect_inner hin chain (v :: rq) hg2
        simp only [Node.children_mk] at hcol
        simp only [fuzzyRec, h1, if_false, if_neg h2, h3, h4, if_true, h5] at hl
        rw [← h4, hcol] at hl
        simp only [Except.ok.injEq] at hl
        rw [← hl]
      · simp only [fuzzyRec, h1, if_false, if_neg h2, h3, h4, if_true, h5] at hl
        rw [← h4] at hl
        exact fuzzyRecList_sublist pattern hp cs d _ (v :: rq) (idx + 1) l hrest.2 hg2
          (by omega) hl
    · simp only [fuzzyRec, h1, if_false, if_neg h2, h3, h4] at hl
      by_cases hv : v = nul
      · simp only [hv, if_true] at hrest
        rw [hrest.2] at hl ⊢
        simp only [fuzzyRecList, Except.ok.injEq] at hl
        rw [← hl]
        exact List.nil_sublist _
      · simp only [hv, if_false] at hrest
        exact fuzzyRecList_sublist pattern hp cs d _ (v :: rq) idx l hrest.2 hg2 hidx hl
theorem fuzzyRecList_sublist (pattern : List Char) (hp : nul ∉ pattern) :
    ∀ (cs : List (Char × Node M)) (d : Nat) (chain : List (Node M)) (rq : List Char) (idx : Nat)
    (l : List GoString), WFChildren d cs → GoodChain chain rq → idx < pattern.length →
    fuzzyRecList pattern idx chain cs = .ok l →
    l.Sublist ((suffixesList cs).map (fun q => stringOfRunes (rq.reverse ++ q)))
  | [], _, _, _, _, l, _, _, _, hl => by
    simp only [fuzzyRecList, Except.ok.injEq] at hl
    rw [← hl]
    exact List.nil_sublist _
  | (r, c) :: rest, d, chain, rq, idx, l, hwf, hg, hidx, hl => by
    simp only [WFChildren] at hwf
    obtain ⟨_, _, hc, hrest⟩ := hwf
    simp only [fuzzyRecList] at hl
    cases ha : fuzzyRec pattern idx chain c with
    | error e => rw [ha] at hl; cases hl
    | ok a =>
      rw [ha] at hl
      simp only [] at hl
      cases hb : fuzzyRecList pattern idx chain rest with
      | error e => rw [hb] at hl; cases hl
      | ok b =>
        rw [hb] at hl
        simp only [Except.ok.injEq] at hl
        rw [← hl]
        have h1 := fuzzyRec_sublist pattern hp c (d + 1) chain rq idx a hc hg hidx ha
        have h2 := fuzzyRecList_sublist pattern hp rest d chain rq idx b hrest hg hidx hb
        simp only [suffixesList, List.map_append, List.map_map]
        refine List.Sublist.append ?_ h2
        exact List.Sublist.trans h1 (List.sublist_append_right _ _)
end

/-- C19: on a trie built by `Add` calls on keys free of `nul`, `FuzzySearch` with
a non-empty pattern free of `nul` returns no string twice: what `fuzzycollect`
lists is, in order, a part of the keys that `collect` lists from the root. -/
theorem C19_fuzzy_lists_once (adds : List (GoString × Option M))
    (hnul : ∀ p ∈ adds, nul ∉ runes p.1) (pre : GoString) (hne : runes pre ≠ [])
    (hpre : nul ∉ runes pre) :
    ∃ l, FuzzySearch (build adds) pre = .ok l ∧ l.Nodup := by
  have hwf := TrieWF_build adds hnul
  obtain ⟨l, hl, -⟩ := fuzzycollect_sound (build adds) hwf (runes pre) hpre hne
  refine ⟨sortSort ByKeys.Less l, by simp only [FuzzySearch, hl], ?_⟩
  unfold sortSort
  rw [(List.perm_insertionSort _ l).nodup_iff]
  have hnd : ((suffixesList (build adds).root.children).map
      (fun q => stringOfRunes (([] : List Char).reverse ++ q))).Nodup :=
    (nodup_suffixesList _ 0 hwf.2.2.2).map (fun a b h => by
      simpa using stringOfRunes_injective h)
  rw [fuzzycollect_root _ hwf (runes pre) hpre hne] at hl
  by_cases h2 : (build adds).root.mask &&& maskruneslice (runes pre) ≠ maskruneslice (runes pre)
  · simp only [if_pos h2, Except.ok.injEq] at hl
    rw [← hl]
    exact List.nodup_nil
  · rw [if_neg h2] at hl
    have hg0 : GoodChain [(build adds).root] [] := by simp [GoodChain, hwf.2.1]
    exact (fuzzyRecList_sublist (runes pre) hpre _ 0 _ [] 0 l hwf.2.2.2 hg0
      (List.length_pos.2 hne) hl).nodup hnd

/-- C19 at the keys of the third scenario and the pattern `ct`. -/
theorem C19_fuzzy_lists_once_witness :
    ∃ l, FuzzySearch (build [(utf8 "cat", some 1), (utf8 "cart", some 2),
        (utf8 "cot", some 3)]) (utf8 "ct") = .ok l
      ∧ l.Nodup :=
  C19_fuzzy_lists_once [(utf8 "cat", some 1), (utf8 "cart", some 2), (utf8 "cot", some 3)]
    (by decide) (utf8 "ct") (by decide) (by decide)

/-! ### `Remove`: the upward walk and its reading from the top -/

theorem getElem?_append_cons (pre : List Char) (r : Char) (tail : List Char) :
    (pre ++ r :: tail)[pre.length]? = some r := by
  induction pre with
  | nil => simp
  | cons a rest ih => simpa using ih

theorem removeLoop_nil (rs : List Char) (i : Nat) :
    removeLoop rs ([] : List (Node M)) i = .ok none := rfl

theorem removeLoop_eq_removeRec (k : List Char) : ∀ (n0 : Node M) (ps0 : List (Node M))
    (pre post : List Char) (res : List (Node M) × Node M), findNode ps0 n0 k = some res →
    removeLoop (pre ++ k ++ post) res.1 post.length =
      match removeRec n0 k with
      | some n1 => .ok (some (recomputeUp ps0 n1))
      | none => removeLoop (pre ++ k ++ post) ps0 (post.length + k.length) := by
  induction k with
  | nil =>
    intro n0 ps0 pre post res hf
    simp only [findNode, Option.some.injEq] at hf
    subst hf
    simp [removeRec]
  | cons r rest ih =>
    intro n0 ps0 pre post res hf
    cases hc : getChild n0.children r with
    | none => simp [findNode, hc] at hf
    | some c =>
      simp only [findNode, hc] at hf
      have h := ih c (n0 :: ps0) (pre ++ [r]) post res hf
      have hrs : pre ++ [r] ++ rest ++ post = pre ++ r :: rest ++ post := by simp
      rw [hrs] at h
      rw [h]
      simp only [removeRec, hc]
      cases hr : removeRec c rest with
      | some c1 => simp [recomputeUp]
      | none =>
        simp only []
        have hlen : (pre ++ r :: rest ++ post).length
            = pre.length + (rest.length + 1) + post.length := by simp; omega
        have hidx : (pre ++ r :: rest ++ post).length - (post.length + rest.length + 1)
            = pre.length := by omega
        have hget : (pre ++ r :: rest ++ post)[pre.length]? = some r := by
          have := getElem?_append_cons pre r (rest ++ post)
          simpa using this
        by_cases hgt : n0.children.length > 1
        · have hle : post.length + rest.length + 1 ≤ (pre ++ r :: rest ++ post).length := by
            omega
          simp only [removeLoop, hgt, if_true, hle, hidx, hget, Node.RemoveChild]
        · simp only [removeLoop, hgt, if_false, List.length_cons]
          rfl

theorem Remove_of_findNode (t : Trie M) (key : GoString) (res : List (Node M) × Node M)
    (hf : findNode [] t.root (runes key) = some res) :
    Remove t key
      = .ok { root := (removeRec t.root (runes key)).getD t.root, size := t.size - 1 } := by
  have h := removeLoop_eq_removeRec (runes key) t.root [] [] [] res hf
  simp only [List.nil_append, List.append_nil, List.length_nil, Nat.zero_add,
    removeLoop_nil] at h
  simp only [Remove, hf, h]
  cases removeRec t.root (runes key) <;> simp [recomputeUp]

theorem Remove_of_findNode_none (t : Trie M) (key : GoString)
    (hf : findNode [] t.root (runes key) = none) :
    Remove t key = .error Fault.nilDereference := by
  simp only [Remove, hf]

theorem findNode_isSome (ps : List (Node M)) (n : Node M) (p : List Char) :
    (findNode ps n p).isSome = hasPath n p := by
  induction p generalizing ps n with
  | nil => rfl
  | cons r rest ih =>
    cases hc : getChild n.children r with
    | none => simp [findNode, hasPath, hc]
    | some c => simp only [findNode, hasPath, hc]; exact ih _ _

theorem hasPath_congr {n1 n2 : Node M} (h : n1.children = n2.children) (p : List Char) :
    hasPath n1 p = hasPath n2 p := by
  cases p with
  | nil => rfl
  | cons r rest => simp only [hasPath, h]

theorem hasPath_leaf (v : Char) (t : Bool) (d : Nat) (m : Option M) (k : Nat) (p : List Char) :
    hasPath (Node.mk v t d m k []) p = true ↔ p = [] := by
  cases p <;> simp [hasPath, getChild]

theorem hasPath_addLoop (k : List Char) (m : Option M) : ∀ (node : Node M) (p : List Char),
    nul ∉ p → (hasPath (addLoop node k m).1 p = true ↔ (p <+: k ∨ hasPath node p = true)) := by
  induction k with
  | nil =>
    intro node p hp
    cases p with
    | nil => simp [hasPath]
    | cons r rest =>
      have hr : r ≠ nul := fun h => hp (by simp [h])
      simp [hasPath, addLoop_nil, getChild_setChild_ne _ _ _ _ hr]
  | cons r1 rest1 ih =>
    intro node p hp
    cases p with
    | nil => simp [hasPath]
    | cons r rest =>
      have hrest : nul ∉ rest := fun h => hp (by simp [h])
      by_cases hr : r = r1
      · subst hr
        cases hg : getChild node.children r with
        | none =>
          rw [addLoop_cons_none _ _ _ _ hg]
          simp only [hasPath, plug_children, getChild_setChild_self, hg]
          rw [ih _ rest hrest, hasPath_leaf]
          simp only [List.cons_prefix_cons, true_and, Bool.false_eq_true, or_false]
          constructor
          · rintro (h | h)
            · exact h
            · rw [h]; exact List.nil_prefix
          · exact Or.inl
        | some n =>
          rw [addLoop_cons_some _ _ _ _ _ hg]
          simp only [hasPath, plug_children, getChild_setChild_self, hg]
          rw [ih _ rest hrest, hasPath_congr (Node.children_setMask n _) rest]
          simp only [List.cons_prefix_cons, true_and]
      · have hne : ¬ (r :: rest <+: r1 :: rest1) := by
          simp only [List.cons_prefix_cons, not_and]
          exact fun h => absurd h hr
        cases hg : getChild node.children r1 with
        | none =>
          rw [addLoop_cons_none _ _ _ _ hg]
          simp only [hasPath, plug_children, NewChild_fst_children,
            getChild_setChild_ne _ _ _ _ hr, hne, false_or]
        | some n =>
          rw [addLoop_cons_some _ _ _ _ _ hg]
          simp only [hasPath, plug_children, getChild_setChild_ne _ _ _ _ hr, hne, false_or]

theorem hasPath_foldl (p : List Char) (hp : nul ∉ p) (ys : List (GoString × Option M))
    (t : Trie M) :
    hasPath (ys.foldl (fun t q => (Add t q.1 q.2).1) t).root p = true
      ↔ ((∃ key ∈ ys.map Prod.fst, p <+: (runes key)) ∨ hasPath t.root p = true) := by
  induction ys generalizing t with
  | nil => simp
  | cons q rest ih =>
    simp only [List.foldl_cons, List.map_cons, List.mem_cons, exists_eq_or_imp]
    rw [ih, Add_root, hasPath_addLoop _ _ _ p hp,
      hasPath_congr (Node.children_setMask t.root _) p]
    constructor
    · rintro (h | h | h)
      · exact Or.inl (Or.inr h)
      · exact Or.inl (Or.inl h)
      · exact Or.inr h
    · rintro ((h | h) | h)
      · exact Or.inr (Or.inl h)
      · exact Or.inl h
      · exact Or.inr (Or.inr h)

theorem hasPath_build (adds : List (GoString × Option M)) (p : List Char) (hp : nul ∉ p) :
    hasPath (build adds).root p = true
      ↔ (p = [] ∨ ∃ key ∈ adds.map Prod.fst, p <+: (runes key)) := by
  rw [build, hasPath_foldl p hp adds New]
  simp only [New, hasPath_leaf]
  exact or_comm

/-- On a trie built by `Add` calls, for a key `k` free of `nul`, `Remove(k)` faults
with a nil dereference exactly when the character path of `k` is missing: `k` has
a rune and the runes of no stored key start with the runes of `k`. -/
theorem Remove_faults_iff (adds : List (GoString × Option M))
    (k : GoString) (hk : nul ∉ runes k) :
    (Remove (build adds) k = .error Fault.nilDereference
        ↔ (runes k ≠ [] ∧ ∀ key ∈ adds.map Prod.fst, ¬ runes k <+: runes key))
      ∧ ((∃ t1, Remove (build adds) k = .ok t1)
        ↔ (runes k = [] ∨ ∃ key ∈ adds.map Prod.fst, runes k <+: runes key)) := by
  have hpath := hasPath_build adds (runes k) hk
  rw [← findNode_isSome []] at hpath
  cases hf : findNode [] (build adds).root (runes k) with
  | none =>
    rw [hf] at hpath
    simp only [Option.isSome_none, Bool.false_eq_true, false_iff, not_or, not_exists,
      not_and] at hpath
    rw [Remove_of_findNode_none _ _ hf]
    refine ⟨⟨fun _ => ⟨hpath.1, fun key hkey => hpath.2 key hkey⟩, fun _ => rfl⟩, ?_⟩
    constructor
    · rintro ⟨t1, h⟩
      cases h
    · rintro (h | ⟨key, hkey, h⟩)
      · exact absurd h hpath.1
      · exact absurd h (hpath.2 key hkey)
  | some res =>
    rw [hf] at hpath
    simp only [Option.isSome_some, true_iff] at hpath
    rw [Remove_of_findNode _ _ res hf]
    refine ⟨⟨(by intro h; cases h), ?_⟩, ⟨fun _ => hpath, fun _ => ⟨_, rfl⟩⟩⟩
    rintro ⟨hne, hno⟩
    rcases hpath with h | ⟨key, hkey, h⟩
    · exact absurd h hne
    · exact absurd h (hno key hkey)

theorem runes_eq_nil_iff {k : GoString} (hv : ValidString k = true) : runes k = [] ↔ k = [] := by
  constructor
  · intro h
    rw [← ValidString_eq hv, h]
    rfl
  · intro h
    rw [h]
    rfl

/-- C14, amended: on a trie built by `Add` calls on keys that are valid UTF-8 and
free of `nul`, and for a key `k` that is valid UTF-8 and free of `nul`,
`Remove(k)` faults with a nil dereference exactly when `k` is not empty and no
stored key starts with `k`; it returns normally exactly when `k` is empty or a
stored key starts with `k`. -/
theorem C14_remove_faults_iff_no_path (adds : List (GoString × Option M))
    (_hnul : ∀ p ∈ adds, nul ∉ runes p.1) (hvalid : ∀ p ∈ adds, ValidString p.1 = true)
    (k : GoString) (hk : nul ∉ runes k) (hkvalid : ValidString k = true) :
    (Remove (build adds) k = .error Fault.nilDereference
        ↔ (k ≠ [] ∧ ∀ key ∈ adds.map Prod.fst, ¬ k <+: key))
      ∧ ((∃ t1, Remove (build adds) k = .ok t1)
        ↔ (k = [] ∨ ∃ key ∈ adds.map Prod.fst, k <+: key)) := by
  have hpre : ∀ key ∈ adds.map Prod.fst, (k <+: key ↔ runes k <+: runes key) := by
    intro key hkey
    obtain ⟨p, hp, rfl⟩ := List.mem_map.1 hkey
    exact starts_iff_runes_start hkvalid (hvalid p hp)
  obtain ⟨h1, h2⟩ := Remove_faults_iff adds k hk
  rw [h1, h2, ne_eq, runes_eq_nil_iff hkvalid]
  constructor
  · constructor
    · rintro ⟨hne, hno⟩
      exact ⟨hne, fun key hkey h => hno key hkey ((hpre key hkey).1 h)⟩
    · rintro ⟨hne, hno⟩
      exact ⟨hne, fun key hkey h => hno key hkey ((hpre key hkey).2 h)⟩
  · constructor
    · rintro (h | ⟨key, hkey, h⟩)
      · exact Or.inl h
      · exact Or.inr ⟨key, hkey, (hpre key hkey).2 h⟩
    · rintro (h | ⟨key, hkey, h⟩)
      · exact Or.inl h
      · exact Or.inr ⟨key, hkey, (hpre key hkey).1 h⟩

/-- C14, amended, at the trie holding `cat` and `car` and the key `dog`. -/
theorem C14_remove_faults_iff_no_path_witness :
    (Remove (build [(utf8 "cat", some 1), (utf8 "car", some 2)]) (utf8 "dog")
          = .error Fault.nilDereference
        ↔ (utf8 "dog" ≠ [] ∧ ∀ key ∈ [(utf8 "cat", some 1), (utf8 "car", some 2)].map Prod.fst,
            ¬ utf8 "dog" <+: key))
      ∧ ((∃ t1, Remove (build [(utf8 "cat", some 1), (utf8 "car", some 2)]) (utf8 "dog")
          = .ok t1)
        ↔ (utf8 "dog" = [] ∨ ∃ key ∈ [(utf8 "cat", some 1), (utf8 "car", some 2)].map Prod.fst,
            utf8 "dog" <+: key)) :=
  C14_remove_faults_iff_no_path [(utf8 "cat", some 1), (utf8 "car", some 2)] (by decide)
    (by decide) (utf8 "dog") (by decide) (by decide)

/-- C14 as stated fails: `ca` is not stored in the trie holding `cat` and `car`,
yet `Remove("ca")` returns normally, with both keys still listed and `size` 1. -/
theorem C14_remove_absent_counterexample :
    utf8 "ca" ∉ [(utf8 "cat", some 1), (utf8 "car", some 2)].map Prod.fst
      ∧ (Remove (build [(utf8 "cat", some 1), (utf8 "car", some 2)]) (utf8 "ca")).bind Keys
          = .ok [utf8 "cat", utf8 "car"]
      ∧ (Remove (build [(utf8 "cat", some 1), (utf8 "car", some 2)]) (utf8 "ca")).map Trie.size
          = .ok 1 := by
  decide

/-! ### The mask invariant kept by `Add` and `Remove` -/

theorem or_eq_of_covers {a b : Nat} (h : a &&& b = b) : a ||| b = a := by
  apply Nat.eq_of_testBit_eq
  intro i
  have h1 := congrArg (fun x => x.testBit i) h
  simp only [Nat.testBit_and, Nat.testBit_or] at h1 ⊢
  cases ha : a.testBit i <;> cases hb : b.testBit i <;> simp_all

theorem foldl_or_masks (cs : List (Char × Node M)) (a : Nat) :
    cs.foldl (fun m c => m ||| c.2.mask) a = a ||| orMasks cs := by
  induction cs generalizing a with
  | nil => simp [orMasks]
  | cons p rest ih =>
    simp only [orMasks, List.foldl_cons]
    rw [ih (a ||| p.2.mask), ih (0 ||| p.2.mask)]
    simp [orMasks, Nat.or_assoc]

theorem orMasks_nil : orMasks ([] : List (Char × Node M)) = 0 := rfl

theorem orMasks_cons (p : Char × Node M) (rest : List (Char × Node M)) :
    orMasks (p :: rest) = p.2.mask ||| orMasks rest := by
  simp only [orMasks, List.foldl_cons]
  rw [foldl_or_masks]
  simp [orMasks]

theorem recomputedMask_eq (nd : Node M) :
    recomputedMask nd = runeBit nd.val ||| orMasks nd.children := by
  simp [recomputedMask, foldl_or_masks]

theorem orMasks_covers {cs : List (Char × Node M)} {p : Char × Node M} (h : p ∈ cs) :
    orMasks cs &&& p.2.mask = p.2.mask := by
  induction cs with
  | nil => simp at h
  | cons x rest ih =>
    rw [orMasks_cons]
    rcases List.mem_cons.1 h with h1 | h1
    · rw [h1]
      exact covers_or_left (Nat.and_self _)
    · exact covers_or_right (ih h1)

theorem LocalMask_iff (n : Node M) :
    LocalMask n ↔ n.mask &&& runeBit n.val = runeBit n.val ∧ LocalMaskList n.mask n.children := by
  cases n; simp [LocalMask]

theorem LocalMaskList_iff (k : Nat) (cs : List (Char × Node M)) :
    LocalMaskList k cs
      ↔ ∀ p ∈ cs, p.2.val = p.1 ∧ k &&& p.2.mask = p.2.mask ∧ LocalMask p.2 := by
  induction cs with
  | nil => simp [LocalMaskList]
  | cons x rest ih =>
    obtain ⟨r, c⟩ := x
    simp only [LocalMaskList, ih, List.mem_cons, forall_eq_or_imp]
    tauto

theorem mem_setChild {cs : List (Char × Node M)} {r : Char} {c : Node M} {p : Char × Node M}
    (h : p ∈ setChild cs r c) : p = (r, c) ∨ p ∈ cs := by
  induction cs with
  | nil => simpa [setChild] using h
  | cons x rest ih =>
    obtain ⟨k, y⟩ := x
    by_cases hk : k = r
    · simp only [setChild, hk, if_true, List.mem_cons] at h
      rcases h with h | h
      · exact Or.inl h
      · exact Or.inr (List.mem_cons_of_mem _ h)
    · simp only [setChild, hk, if_false, List.mem_cons] at h
      rcases h with h | h
      · exact Or.inr (by rw [h]; exact List.mem_cons_self _ _)
      · rcases ih h with h1 | h1
        · exact Or.inl h1
        · exact Or.inr (List.mem_cons_of_mem _ h1)

theorem mem_delChild {cs : List (Char × Node M)} {r : Char} {p : Char × Node M}
    (h : p ∈ delChild cs r) : p ∈ cs ∧ p.1 ≠ r := by
  induction cs with
  | nil => simp [delChild] at h
  | cons x rest ih =>
    obtain ⟨k, y⟩ := x
    by_cases hk : k = r
    · simp only [delChild, hk, if_true] at h
      exact ⟨List.mem_cons_of_mem _ (ih h).1, (ih h).2⟩
    · simp only [delChild, hk, if_false, List.mem_cons] at h
      rcases h with h | h
      · rw [h]
        exact ⟨List.mem_cons_self _ _, hk⟩
      · exact ⟨List.mem_cons_of_mem _ (ih h).1, (ih h).2⟩

theorem LocalMask_setMask_or {n : Node M} (h : LocalMask n) (b : Nat) :
    LocalMask (n.setMask (n.mask ||| b)) := by
  rw [LocalMask_iff] at h ⊢
  simp only [Node.mask_setMask, Node.val_setMask, Node.children_setMask]
  refine ⟨covers_or_left h.1, ?_⟩
  rw [LocalMaskList_iff] at h ⊢
  exact fun p hp => ⟨(h.2 p hp).1, covers_or_left (h.2 p hp).2.1, (h.2 p hp).2.2⟩

theorem addLoop_fst_mask_eq (node : Node M) (k : List Char) (m : Option M)
    (h : node.mask &&& maskruneslice k = maskruneslice k) :
    (addLoop node k m).1.mask = node.mask := by
  cases k with
  | nil => simp [addLoop_nil]
  | cons r rest =>
    cases hg : getChild node.children r with
    | none =>
      rw [addLoop_cons_none _ _ _ _ hg]
      simp only [plug_mask, NewChild_fst_mask]
      exact or_eq_of_covers h
    | some n =>
      rw [addLoop_cons_some _ _ _ _ _ hg]
      simp

theorem getChild_LocalMask {k : Nat} {cs : List (Char × Node M)} (h : LocalMaskList k cs)
    {r : Char} {c : Node M} (hg : getChild cs r = some c) :
    c.val = r ∧ k &&& c.mask = c.mask ∧ LocalMask c :=
  (LocalMaskList_iff k cs).1 h (r, c) (getChild_mem hg)

theorem addLoop_LocalMask (k : List Char) (m : Option M) : ∀ (node : Node M),
    LocalMask node → node.mask &&& maskruneslice k = maskruneslice k →
    LocalMask (addLoop node k m).1 := by
  induction k with
  | nil =>
    intro node h _
    rw [LocalMask_iff] at h ⊢
    simp only [addLoop_nil, NewChild_fst_mask, NewChild_fst_val, NewChild_fst_children,
      Nat.or_zero]
    refine ⟨h.1, ?_⟩
    rw [LocalMaskList_iff] at h ⊢
    intro p hp
    rcases mem_setChild hp with h1 | h1
    · rw [h1]
      simp [LocalMask, runeBit_nul, LocalMaskList]
    · exact h.2 p h1
  | cons r rest ih =>
    intro node h hcov
    have hm := addLoop_fst_mask_eq node (r :: rest) m hcov
    have hv := (addLoop_fst_fields node (r :: rest) m).1
    rw [LocalMask_iff, hm, hv]
    rw [LocalMask_iff] at h
    refine ⟨h.1, ?_⟩
    have hcr : maskruneslice (r :: rest) &&& maskruneslice rest = maskruneslice rest := by
      rw [maskruneslice_cons]
      exact covers_or_right (Nat.and_self _)
    have hcb : maskruneslice (r :: rest) &&& runeBit r = runeBit r := by
      rw [maskruneslice_cons]
      exact covers_or_left (Nat.and_self _)
    have hl := (LocalMaskList_iff _ _).1 h.2
    rw [LocalMaskList_iff]
    cases hg : getChild node.children r with
    | none =>
      rw [addLoop_cons_none _ _ _ _ hg]
      simp only [plug_children, NewChild_fst_children]
      have hfresh : LocalMask
          (Node.mk r false (node.depth + 1) none (maskruneslice (r :: rest)) [] : Node M) := by
        simp [LocalMask, hcb, LocalMaskList]
      have h4 := ih _ hfresh (by simpa using hcr)
      have h5 := addLoop_fst_mask_eq (Node.mk r false (node.depth + 1) none
        (maskruneslice (r :: rest)) [] : Node M) rest m (by simpa using hcr)
      have h6 := (addLoop_fst_fields (Node.mk r false (node.depth + 1) none
        (maskruneslice (r :: rest)) [] : Node M) rest m).1
      simp only [Node.mask_mk] at h5
      simp only [Node.val_mk] at h6
      intro p hp
      rcases mem_setChild hp with h1 | h1
      · rw [h1]
        exact ⟨h6, by rw [h5]; exact hcov, h4⟩
      · rcases mem_setChild h1 with h2 | h2
        · rw [h2]
          exact ⟨rfl, hcov, hfresh⟩
        · exact hl p h2
    | some n =>
      rw [addLoop_cons_some _ _ _ _ _ hg]
      simp only [plug_children]
      obtain ⟨hnv, hnm, hnl⟩ := getChild_LocalMask h.2 hg
      have hcov2 : (n.setMask (n.mask ||| maskruneslice (r :: rest))).mask
          &&& maskruneslice rest = maskruneslice rest := by
        simp only [Node.mask_setMask]
        exact covers_or_right hcr
      have h4 := ih _ (LocalMask_setMask_or hnl _) hcov2
      have h5 := addLoop_fst_mask_eq _ rest m hcov2
      have h6 := (addLoop_fst_fields (n.setMask (n.mask ||| maskruneslice (r :: rest)))
        rest m).1
      simp only [Node.mask_setMask] at h5
      simp only [Node.val_setMask] at h6
      intro p hp
      rcases mem_setChild hp with h1 | h1
      · rw [h1]
        refine ⟨h6.trans hnv, ?_, h4⟩
        rw [h5]
        exact covers_or hnm hcov
      · exact hl p h1

theorem LocalMask_Add {t : Trie M} (h : LocalMask t.root) (key : GoString) (m : Option M) :
    LocalMask (Add t key m).1.root := by
  rw [Add_root]
  apply addLoop_LocalMask _ _ _ (LocalMask_setMask_or h _)
  simp only [Node.mask_setMask]
  exact covers_or_right (Nat.and_self _)

theorem removeRec_LocalMask (k : List Char) : ∀ (n n1 : Node M), LocalMask n →
    removeRec n k = some n1 → LocalMask n1 ∧ n1.val = n.val := by
  induction k with
  | nil => intro n n1 _ h; simp [removeRec] at h
  | cons r rest ih =>
    intro n n1 hl h
    cases hg : getChild n.children r with
    | none => simp [removeRec, hg] at h
    | some c =>
      simp only [removeRec, hg] at h
      rw [LocalMask_iff] at hl
      have hcs := (LocalMaskList_iff _ _).1 hl.2
      obtain ⟨hcv, -, hcl⟩ := getChild_LocalMask hl.2 hg
      cases hr : removeRec c rest with
      | some c1 =>
        rw [hr] at h
        simp only [Option.some.injEq] at h
        obtain ⟨hc1, hc1v⟩ := ih c c1 hcl hr
        rw [← h]
        refine ⟨?_, by simp⟩
        rw [LocalMask_iff]
        simp only [Node.mask_setMask, Node.val_setMask, Node.children_setMask, plug_val,
          plug_children, recomputedMask_eq]
        refine ⟨covers_or_left (Nat.and_self _), ?_⟩
        rw [LocalMaskList_iff]
        intro p hp
        refine ⟨?_, covers_or_right (orMasks_covers hp), ?_⟩
        · rcases mem_setChild hp with h1 | h1
          · rw [h1]
          · exact (hcs p h1).1
        · rcases mem_setChild hp with h1 | h1
          · rw [h1]; exact hc1
          · exact (hcs p h1).2.2
      | none =>
        rw [hr] at h
        by_cases hgt : n.children.length > 1
        · simp only [hgt, if_true, Option.some.injEq] at h
          rw [← h]
          refine ⟨?_, by simp⟩
          rw [LocalMask_iff]
          simp only [Node.mask_setChildren, Node.val_setChildren, Node.children_setChildren]
          refine ⟨hl.1, ?_⟩
          rw [LocalMaskList_iff]
          exact fun p hp => hcs p (mem_delChild hp).1
        · simp [hgt] at h

theorem findNode_of_Remove_ok {t t1 : Trie M} {key : GoString} (h : Remove t key = .ok t1) :
    ∃ res, findNode [] t.root (runes key) = some res := by
  cases hf : findNode [] t.root (runes key) with
  | none => rw [Remove_of_findNode_none _ _ hf] at h; cases h
  | some res => exact ⟨res, rfl⟩

theorem Remove_root {t t1 : Trie M} {key : GoString} (h : Remove t key = .ok t1) :
    t1.root = (removeRec t.root (runes key)).getD t.root := by
  obtain ⟨res, hf⟩ := findNode_of_Remove_ok h
  rw [Remove_of_findNode _ _ res hf] at h
  simp only [Except.ok.injEq] at h
  rw [← h]

theorem LocalMask_Remove {t t1 : Trie M} {key : GoString} (hl : LocalMask t.root)
    (h : Remove t key = .ok t1) : LocalMask t1.root := by
  rw [Remove_root h]
  cases hr : removeRec t.root (runes key) with
  | none => exact hl
  | some n1 => exact (removeRec_LocalMask _ _ _ hl hr).1

theorem LocalMask_run (ops : List (Op M)) (t0 t : Trie M) (hl : LocalMask t0.root)
    (h : run t0 ops = .ok t) : LocalMask t.root := by
  induction ops generalizing t0 with
  | nil =>
    simp only [run, Except.ok.injEq] at h
    rw [← h]; exact hl
  | cons op rest ih =>
    cases op with
    | add key m =>
      simp only [run] at h
      exact ih _ (LocalMask_Add hl key m) h
    | remove key =>
      simp only [run] at h
      cases hr : Remove t0 key with
      | error e => rw [hr] at h; cases h
      | ok t1 =>
        rw [hr] at h
        exact ih _ (LocalMask_Remove hl hr) h

theorem LocalMask_New : LocalMask (New : Trie M).root := by
  simp [New, LocalMask, runeBit_nul, LocalMaskList]

theorem findNode_append (p q : List Char) : ∀ (ps : List (Node M)) (n : Node M),
    findNode ps n (p ++ q) =
      match findNode ps n p with
      | none => none
      | some res => findNode res.1 res.2 q := by
  induction p with
  | nil => intro ps n; rfl
  | cons r rest ih =>
    intro ps n
    cases hc : getChild n.children r with
    | none => simp [findNode, hc]
    | some c =>
      simp only [List.cons_append, findNode, hc]
      exact ih _ _

theorem findNode_LocalMask (p : List Char) : ∀ (ps : List (Node M)) (n : Node M)
    (res : List (Node M) × Node M), LocalMask n → findNode ps n p = some res →
    LocalMask res.2 := by
  induction p with
  | nil =>
    intro ps n res hl hf
    simp only [findNode, Option.some.injEq] at hf
    rw [← hf]; exact hl
  | cons r rest ih =>
    intro ps n res hl hf
    cases hc : getChild n.children r with
    | none => simp [findNode, hc] at hf
    | some c =>
      simp only [findNode, hc] at hf
      exact ih _ _ _ (getChild_LocalMask ((LocalMask_iff n).1 hl).2 hc).2.2 hf

theorem covers_hasPath (q : List Char) : ∀ (n : Node M), LocalMask n → hasPath n q = true →
    n.mask &&& maskruneslice q = maskruneslice q := by
  induction q with
  | nil => intro n _ _; simp [maskruneslice_nil]
  | cons r rest ih =>
    intro n hl hp
    cases hc : getChild n.children r with
    | none => simp [hasPath, hc] at hp
    | some c =>
      simp only [hasPath, hc] at hp
      obtain ⟨hv, hm, hcl⟩ := getChild_LocalMask ((LocalMask_iff n).1 hl).2 hc
      have h1 := ih c hcl hp
      have h2 := ((LocalMask_iff c).1 hcl).1
      rw [hv] at h2
      rw [maskruneslice_cons]
      exact covers_trans hm (covers_or h2 h1)

theorem findNode_of_Find {t : Trie M} {key : GoString} {s : Node M}
    (h : Find t key = .ok (some s)) : ∃ res, findNode [] t.root (runes key) = some res := by
  cases hf : findNode [] t.root (runes key) with
  | none => simp [Find, hf] at h
  | some res => exact ⟨res, rfl⟩

/-- C11: in every trie reached from `New()` by `Add` calls and `Remove` calls
that return, for every stored key `k` the root's mask holds every bit of
`maskruneslice(k)`, and the node reached by the first `i + 1` runes of `k` holds
every bit of `maskruneslice` of `k` from rune `i` on. -/
theorem C11_mask_superset (ops : List (Op M)) (t : Trie M) (hrun : run New ops = .ok t)
    (k : GoString) (hstored : ∃ s, Find t k = .ok (some s)) :
    t.root.mask &&& maskruneslice (runes k) = maskruneslice (runes k)
      ∧ ∀ i, i < (runes k).length →
        ∃ res, findNode [] t.root ((runes k).take (i + 1)) = some res
          ∧ res.2.mask &&& maskruneslice ((runes k).drop i) = maskruneslice ((runes k).drop i) := by
  have hl : LocalMask t.root := LocalMask_run ops New t LocalMask_New hrun
  obtain ⟨s, hs⟩ := hstored
  obtain ⟨resk, hfk⟩ := findNode_of_Find hs
  refine ⟨covers_hasPath _ _ hl (by rw [← findNode_isSome [], hfk]; rfl), fun i hi => ?_⟩
  have hsplit : (runes k) = (runes k).take (i + 1) ++ (runes k).drop (i + 1) :=
    (List.take_append_drop _ _).symm
  have hf2 := findNode_append ((runes k).take (i + 1)) ((runes k).drop (i + 1)) [] t.root
  rw [← hsplit, hfk] at hf2
  cases hfi : findNode [] t.root ((runes k).take (i + 1)) with
  | none => rw [hfi] at hf2; cases hf2
  | some res =>
    rw [hfi] at hf2
    simp only [] at hf2
    refine ⟨res, rfl, ?_⟩
    have hlr : LocalMask res.2 := findNode_LocalMask _ _ _ _ hl hfi
    have hrest : hasPath res.2 ((runes k).drop (i + 1)) = true := by
      rw [← findNode_isSome res.1, ← hf2]; rfl
    have hval : res.2.val = (runes k)[i] := by
      have htk : (runes k).take (i + 1) = (runes k).take i ++ [(runes k)[i]] := by
        rw [List.take_succ, List.getElem?_eq_getElem hi]; rfl
      have hf3 := findNode_append ((runes k).take i) [(runes k)[i]] [] t.root
      rw [← htk, hfi] at hf3
      cases hf0 : findNode [] t.root ((runes k).take i) with
      | none => rw [hf0] at hf3; cases hf3
      | some res0 =>
        rw [hf0] at hf3
        simp only [] at hf3
        have hl0 : LocalMask res0.2 := findNode_LocalMask _ _ _ _ hl hf0
        cases hc : getChild res0.2.children (runes k)[i] with
        | none => simp [findNode, hc] at hf3
        | some c =>
          simp only [findNode, hc, Option.some.injEq] at hf3
          have := (getChild_LocalMask ((LocalMask_iff res0.2).1 hl0).2 hc).1
          rw [hf3]
          simpa using this
    rw [List.drop_eq_getElem_cons hi, maskruneslice_cons]
    have h1 := ((LocalMask_iff res.2).1 hlr).1
    rw [hval] at h1
    exact covers_or h1 (covers_hasPath _ _ hlr hrest)

/-- C11 after adding `cat`, `car`, `cart` and removing `cat`, at the key `cart`. -/
theorem C11_mask_superset_witness :
    ((run New [Op.add (utf8 "cat") (some 1), Op.add (utf8 "car") (some 2),
        Op.add (utf8 "cart") (some 3), Op.remove (utf8 "cat")]).toOption.getD New).root.mask
          &&& maskruneslice (runes (utf8 "cart"))
        = maskruneslice (runes (utf8 "cart"))
      ∧ ∀ i, i < (runes (utf8 "cart")).length →
        ∃ res, findNode [] ((run New [Op.add (utf8 "cat") (some 1), Op.add (utf8 "car") (some 2),
            Op.add (utf8 "cart") (some 3), Op.remove (utf8 "cat")]).toOption.getD New).root
              ((runes (utf8 "cart")).take (i + 1)) = some res
          ∧ res.2.mask &&& maskruneslice ((runes (utf8 "cart")).drop i)
              = maskruneslice ((runes (utf8 "cart")).drop i) :=
  C11_mask_superset
    [Op.add (utf8 "cat") (some 1), Op.add (utf8 "car") (some 2), Op.add (utf8 "cart") (some 3),
      Op.remove (utf8 "cat")]
    ((run New [Op.add (utf8 "cat") (some 1), Op.add (utf8 "car") (some 2),
        Op.add (utf8 "cart") (some 3), Op.remove (utf8 "cat")]).toOption.getD New) rfl
    (utf8 "cart") ⟨Node.mk nul true 5 (some 3) 0 [], rfl⟩

/-- C13 fails on the code: after adding `ab` and `ac`, `Remove("ab")` prunes the
child `b` of the node `a`; `RemoveChild` recomputes from `n.parent` on, so the
node `a` keeps the mask 7 (bits of a, b, c) although the bit of its own rune
OR-ed with the mask of its remaining child `c` is 5, and the root, recomputed
from that stale mask, holds 7 as well. -/
theorem C13_pruned_node_mask_not_recomputed :
    (run New [Op.add (utf8 "ab") (some 1), Op.add (utf8 "ac") (some 2), Op.remove (utf8 "ab")]).map
      (fun t => ((findNode [] t.root (runes (utf8 "a"))).map
        (fun res => (res.2.children.map Prod.fst, res.2.mask, recomputedMask res.2)),
        t.root.mask))
      = .ok (some (['c'], 7, 5), 7) := by
  decide

/-! ### Shape and masks after `Remove`; `FuzzySearch` still finds every match -/

theorem getChild_delChild (cs : List (Char × Node M)) (r k : Char) :
    getChild (delChild cs r) k = if k = r then none else getChild cs k := by
  induction cs with
  | nil => simp [delChild, getChild]
  | cons x rest ih =>
    obtain ⟨k1, y⟩ := x
    by_cases h1 : k1 = r
    · subst h1
      simp only [delChild, if_true, ih, getChild]
      by_cases h2 : k = k1
      · simp [h2]
      · simp [h2, Ne.symm h2]
    · simp only [delChild, h1, if_false, getChild, ih]
      by_cases h2 : k1 = k
      · subst h2
        simp [h1]
      · simp [h2]

theorem WFChildren_delChild {d : Nat} {cs : List (Char × Node M)} (h : WFChildren d cs)
    (r : Char) : WFChildren d (delChild cs r) := by
  induction cs with
  | nil => simp [delChild, WFChildren]
  | cons x rest ih =>
    obtain ⟨k, y⟩ := x
    simp only [WFChildren] at h
    by_cases hk : k = r
    · simp only [delChild, hk, if_true]
      exact ih h.2.2.2
    · simp only [delChild, hk, if_false, WFChildren]
      refine ⟨h.1, ?_, h.2.2.1, ih h.2.2.2⟩
      rw [getChild_delChild, h.2.1]
      simp

theorem removeRec_fields (k : List Char) (n n1 : Node M) (h : removeRec n k = some n1) :
    n1.val = n.val ∧ n1.depth = n.depth ∧ n1.term = n.term := by
  cases k with
  | nil => simp [removeRec] at h
  | cons r rest =>
    cases hg : getChild n.children r with
    | none => simp [removeRec, hg] at h
    | some c =>
      simp only [removeRec, hg] at h
      cases hr : removeRec c rest with
      | some c1 =>
        rw [hr] at h
        simp only [Option.some.injEq] at h
        rw [← h]; simp
      | none =>
        rw [hr] at h
        by_cases hgt : n.children.length > 1
        · simp only [hgt, if_true, Option.some.injEq] at h
          rw [← h]; simp
        · simp [hgt] at h

theorem removeRec_leaf (n : Node M) (hcs : n.children = []) (k : List Char) :
    removeRec n k = none := by
  cases k with
  | nil => rfl
  | cons r rest => simp [removeRec, hcs, getChild]

theorem removeRec_WFInner (k : List Char) : ∀ (d : Nat) (n n1 : Node M), WFInner d n →
    removeRec n k = some n1 → WFInner d n1 := by
  induction k with
  | nil => intro d n n1 _ h; simp [removeRec] at h
  | cons r rest ih =>
    intro d n n1 hwf h
    obtain ⟨hf1, hf2, hf3⟩ := removeRec_fields _ _ _ h
    refine ⟨hf2.trans hwf.1, hf3.trans hwf.2.1, ?_⟩
    cases hg : getChild n.children r with
    | none => simp [removeRec, hg] at h
    | some c =>
      simp only [removeRec, hg] at h
      obtain ⟨hcv, hcw⟩ := WFChildren_getChild hwf.2.2 hg
      cases hr : removeRec c rest with
      | some c1 =>
        rw [hr] at h
        simp only [Option.some.injEq] at h
        rw [← h]
        simp only [Node.children_setMask, plug_children]
        have hcn : c.val ≠ nul := by
          intro hn
          rw [WFNode_iff] at hcw
          simp only [hn, if_true] at hcw
          rw [removeRec_leaf c hcw.2.2.2 rest] at hr
          cases hr
        have hc1 := ih (d + 1) c c1 (WFInner_of_WFNode hcw hcn) hr
        have hv1 := (removeRec_fields _ _ _ hr).1
        have hw1 : WFNode (d + 1) c1 :=
          WFNode_of_WFInner hc1 (by rw [hv1]; exact hcn) (by omega)
        have hset := WFChildren_setChild hwf.2.2 (hv1.trans hcv) hw1
        rw [hv1, hcv]
        exact hset
      | none =>
        rw [hr] at h
        by_cases hgt : n.children.length > 1
        · simp only [hgt, if_true, Option.some.injEq] at h
          rw [← h]
          simp only [Node.children_setChildren]
          exact WFChildren_delChild hwf.2.2 r
        · simp [hgt] at h

theorem TrieWF_Remove {t t1 : Trie M} {key : GoString} (hwf : TrieWF t)
    (h : Remove t key = .ok t1) : TrieWF t1 := by
  have hroot := Remove_root h
  cases hr : removeRec t.root (runes key) with
  | none =>
    rw [hr] at hroot
    simp only [Option.getD_none] at hroot
    exact ⟨by rw [hroot]; exact hwf.1, by rw [hroot]; exact hwf.2⟩
  | some n1 =>
    rw [hr] at hroot
    simp only [Option.getD_some] at hroot
    refine ⟨?_, ?_⟩
    · rw [hroot, (removeRec_fields _ _ _ hr).1]; exact hwf.1
    · rw [hroot]; exact removeRec_WFInner _ 0 _ _ hwf.2 hr

theorem TrieWF_run (ops : List (Op M)) (hnul : ∀ op ∈ ops, nul ∉ runes op.key) (t0 t : Trie M)
    (hwf : TrieWF t0) (h : run t0 ops = .ok t) : TrieWF t := by
  induction ops generalizing t0 with
  | nil =>
    simp only [run, Except.ok.injEq] at h
    rw [← h]; exact hwf
  | cons op rest ih =>
    have hrest : ∀ op ∈ rest, nul ∉ runes op.key := fun o ho => hnul o (by simp [ho])
    cases op with
    | add key m =>
      simp only [run] at h
      exact ih hrest _ (TrieWF_Add hwf key (hnul (Op.add key m) (by simp)) m) h
    | remove key =>
      simp only [run] at h
      cases hr : Remove t0 key with
      | error e => rw [hr] at h; cases h
      | ok t1 =>
        rw [hr] at h
        exact ih hrest _ (TrieWF_Remove hwf hr) h

mutual
theorem MaskOK_of_LocalMask : ∀ (c : Node M), LocalMask c → MaskOK c
  | Node.mk v t d m k cs, h => by
    simp only [LocalMask] at h
    obtain ⟨h1, h2⟩ := MaskOKList_of_LocalMaskList cs k h.2
    simp only [MaskOK]
    refine ⟨fun q hq => ?_, h2⟩
    rw [maskruneslice_cons]
    exact covers_or h.1 (h1 q hq)
theorem MaskOKList_of_LocalMaskList : ∀ (cs : List (Char × Node M)) (k : Nat),
    LocalMaskList k cs →
    (∀ q ∈ suffixesList cs, k &&& maskruneslice q = maskruneslice q) ∧ MaskOKList cs
  | [], _, _ => by simp [suffixesList, MaskOKList]
  | (r, c) :: rest, k, h => by
    simp only [LocalMaskList] at h
    obtain ⟨_, hm, hc, hrest⟩ := h
    have hmc := MaskOK_of_LocalMask c hc
    obtain ⟨h1, h2⟩ := MaskOKList_of_LocalMaskList rest k hrest
    simp only [MaskOKList]
    refine ⟨fun q hq => ?_, hmc, h2⟩
    simp only [suffixesList, List.mem_append, List.mem_map] at hq
    rcases hq with (hq | ⟨q1, hq1, rfl⟩) | hq
    · by_cases ht : c.term = true
      · simp only [ht, if_true, List.mem_singleton] at hq
        rw [hq]
        simp [maskruneslice_nil]
      · simp [ht] at hq
    · rw [suffixes_eq] at hq1
      exact covers_trans hm (((MaskOK_iff c).1 hmc).1 q1 hq1)
    · exact h1 q hq
end

/-- C17: in every trie reached from `New()` by `Add` and `Remove` calls on keys
over `a`-`z`, for every non-empty pattern over `a`-`z`, each key that `Keys()`
returns and that holds the pattern as a subsequence is returned by
`FuzzySearch`. -/
theorem C17_no_false_negatives_after_remove (ops : List (Op M))
    (haz : ∀ op ∈ ops, ∀ c ∈ runes op.key, 'a' ≤ c ∧ c ≤ 'z') (t : Trie M)
    (hrun : run New ops = .ok t) (pre : GoString) (hne : runes pre ≠ [])
    (hpre : ∀ c ∈ runes pre, 'a' ≤ c ∧ c ≤ 'z') (l : List GoString) (hkeys : Keys t = .ok l)
    (k : GoString) (hk : k ∈ l) (hsub : (runes pre).Sublist (runes k)) :
    ∃ l1, FuzzySearch t pre = .ok l1 ∧ k ∈ l1 := by
  have hnul : ∀ op ∈ ops, nul ∉ runes op.key := fun op ho => not_nul_of_lower (haz op ho)
  have hp : nul ∉ runes pre := not_nul_of_lower hpre
  have hwf : TrieWF t := TrieWF_run ops hnul New t TrieWF_New hrun
  have hm : MaskOK t.root :=
    MaskOK_of_LocalMask _ (LocalMask_run ops New t LocalMask_New hrun)
  rw [Keys_eq t hwf] at hkeys
  simp only [Except.ok.injEq] at hkeys
  rw [← hkeys] at hk
  obtain ⟨q, hq, rfl⟩ := List.mem_map.1 hk
  rw [runes_stringOfRunes] at hsub
  obtain ⟨l0, hl0, -⟩ := fuzzycollect_sound t hwf (runes pre) hp hne
  refine ⟨sortSort ByKeys.Less l0, by simp only [FuzzySearch, hl0], ?_⟩
  rw [mem_sortSort]
  exact fuzzycollect_complete t hwf hm (runes pre) hp hne q hq hsub l0 hl0

/-- C17 after adding `cat`, `cart`, `cot`, `dog` and removing `cat`: `cart` is
still found for the pattern `ct`. -/
theorem C17_no_false_negatives_after_remove_witness :
    ∃ l1, FuzzySearch ((run New [Op.add (utf8 "cat") (some 1), Op.add (utf8 "cart") (some 2),
        Op.add (utf8 "cot") (some 3), Op.add (utf8 "dog") (some 4),
        Op.remove (utf8 "cat")]).toOption.getD New) (utf8 "ct")
        = .ok l1 ∧ utf8 "cart" ∈ l1 :=
  C17_no_false_negatives_after_remove
    [Op.add (utf8 "cat") (some 1), Op.add (utf8 "cart") (some 2), Op.add (utf8 "cot") (some 3),
      Op.add (utf8 "dog") (some 4), Op.remove (utf8 "cat")] (by decide)
    ((run New [Op.add (utf8 "cat") (some 1), Op.add (utf8 "cart") (some 2),
      Op.add (utf8 "cot") (some 3), Op.add (utf8 "dog") (some 4),
      Op.remove (utf8 "cat")]).toOption.getD New) rfl (utf8 "ct") (by decide) (by decide)
    [utf8 "cart", utf8 "cot", utf8 "dog"] (by decide) (utf8 "cart") (by decide) (by decide)

/-! ### The keys left by `Remove` -/

theorem only_child {cs : List (Char × Node M)} (hlen : ¬ cs.length > 1) {r : Char}
    {c : Node M} (hg : getChild cs r = some c) : cs = [(r, c)] := by
  cases cs with
  | nil => simp [getChild] at hg
  | cons x rest =>
    cases rest with
    | nil =>
      obtain ⟨k, y⟩ := x
      by_cases hk : k = r
      · simp only [getChild, hk, if_true, Option.some.injEq] at hg
        rw [hk, hg]
      · simp [getChild, hk] at hg
    | cons y rest2 => simp at hlen

theorem other_child {d : Nat} {cs : List (Char × Node M)} (hwf : WFChildren d cs)
    (hlen : cs.length > 1) (r : Char) : ∃ r2 c2, getChild cs r2 = some c2 ∧ r2 ≠ r := by
  cases cs with
  | nil => simp at hlen
  | cons x rest =>
    cases rest with
    | nil => simp at hlen
    | cons y rest2 =>
      obtain ⟨k1, c1⟩ := x
      obtain ⟨k2, c2⟩ := y
      by_cases h1 : k1 = r
      · refine ⟨k2, c2, getChild_of_mem hwf (by simp), ?_⟩
        simp only [WFChildren] at hwf
        have h2 := hwf.2.1
        intro h3
        rw [h3, ← h1] at h2
        simp [getChild] at h2
      · exact ⟨k1, c1, by simp [getChild], h1⟩

theorem removeRec_none_stored (k : List Char) : ∀ (d : Nat) (n : Node M), WFInner d n →
    nul ∉ k → hasPath n k = true → removeRec n k = none →
    ∀ q, (sentinelIn n.children q).isSome = true → k <+: q := by
  induction k with
  | nil => intro d n _ _ _ _ q _; exact List.nil_prefix
  | cons r rest ih =>
    intro d n hwf hk hp hr q hq
    have hrn : r ≠ nul := fun h => hk (by simp [h])
    have hrest : nul ∉ rest := fun h => hk (by simp [h])
    cases hg : getChild n.children r with
    | none => simp [hasPath, hg] at hp
    | some c =>
      simp only [hasPath, hg] at hp
      simp only [removeRec, hg] at hr
      cases hrc : removeRec c rest with
      | some c1 => rw [hrc] at hr; cases hr
      | none =>
        rw [hrc] at hr
        by_cases hgt : n.children.length > 1
        · simp [hgt] at hr
        · have hcs := only_child hgt hg
          obtain ⟨hcv, hcw⟩ := WFChildren_getChild hwf.2.2 hg
          have hin : WFInner (d + 1) c := WFInner_of_WFNode hcw (by rw [hcv]; exact hrn)
          cases q with
          | nil =>
            rw [hcs] at hq
            simp [sentinelIn, getChild, hrn] at hq
          | cons r1 q1 =>
            rw [hcs] at hq
            by_cases h1 : r = r1
            · subst h1
              simp only [sentinelIn, getChild, if_true] at hq
              rw [List.cons_prefix_cons]
              exact ⟨rfl, ih (d + 1) c hin hrest hp hrc q1 hq⟩
            · simp [sentinelIn, getChild, h1] at hq

theorem removeRec_some_stored (k : List Char) : ∀ (d : Nat) (n n1 : Node M), WFInner d n →
    nul ∉ k → hasPath n k = true → removeRec n k = some n1 →
    ∀ q, nul ∉ q →
      sentinelIn n1.children q = if k <+: q then none else sentinelIn n.children q := by
  induction k with
  | nil => intro d n n1 _ _ _ h; simp [removeRec] at h
  | cons r rest ih =>
    intro d n n1 hwf hk hp hr q hq
    have hrn : r ≠ nul := fun h => hk (by simp [h])
    have hrest : nul ∉ rest := fun h => hk (by simp [h])
    cases hg : getChild n.children r with
    | none => simp [hasPath, hg] at hp
    | some c =>
      simp only [hasPath, hg] at hp
      simp only [removeRec, hg] at hr
      obtain ⟨hcv, hcw⟩ := WFChildren_getChild hwf.2.2 hg
      have hin : WFInner (d + 1) c := WFInner_of_WFNode hcw (by rw [hcv]; exact hrn)
      cases hrc : removeRec c rest with
      | some c1 =>
        rw [hrc] at hr
        simp only [Option.some.injEq] at hr
        have hv1 : c1.val = r := ((removeRec_fields _ _ _ hrc).1).trans hcv
        rw [← hr]
        simp only [Node.children_setMask, plug_children, hv1]
        cases q with
        | nil =>
          simp [sentinelIn, getChild_setChild_ne _ _ _ _ (Ne.symm hrn)]
        | cons r1 q1 =>
          have hq1 : nul ∉ q1 := fun h => hq (by simp [h])
          by_cases h1 : r1 = r
          · subst h1
            simp only [sentinelIn, getChild_setChild_self, hg, List.cons_prefix_cons, true_and]
            exact ih (d + 1) c c1 hin hrest hp hrc q1 hq1
          · have hnp : ¬ (r :: rest <+: r1 :: q1) := by
              simp only [List.cons_prefix_cons, not_and]
              exact fun h => absurd h.symm h1
            simp only [sentinelIn, getChild_setChild_ne _ _ _ _ h1, hnp, if_false]
      | none =>
        rw [hrc] at hr
        by_cases hgt : n.children.length > 1
        · simp only [hgt, if_true, Option.some.injEq] at hr
          rw [← hr]
          simp only [Node.children_setChildren]
          cases q with
          | nil =>
            simp [sentinelIn, getChild_delChild, Ne.symm hrn]
          | cons r1 q1 =>
            by_cases h1 : r1 = r
            · subst h1
              simp only [sentinelIn, getChild_delChild, if_true, hg, List.cons_prefix_cons,
                true_and]
              by_cases hpq : rest <+: q1
              · simp [hpq]
              · simp only [hpq, if_false]
                cases hs : sentinelIn c.children q1 with
                | none => rfl
                | some x =>
                  exact absurd (removeRec_none_stored rest (d + 1) c hin hrest hp hrc q1
                    (by rw [hs]; rfl)) hpq
            · have hnp : ¬ (r :: rest <+: r1 :: q1) := by
                simp only [List.cons_prefix_cons, not_and]
                exact fun h => absurd h.symm h1
              simp only [sentinelIn, getChild_delChild, h1, if_false, hnp]
        · simp [hgt] at hr

theorem removeRec_some_branch (k : List Char) : ∀ (d : Nat) (n n1 : Node M), WFInner d n →
    nul ∉ k → removeRec n k = some n1 →
    ∃ p r2, hasPath n (p ++ [r2]) = true ∧ p.length < k.length ∧ p <+: k
      ∧ k[p.length]? ≠ some r2 := by
  induction k with
  | nil => intro d n n1 _ _ h; simp [removeRec] at h
  | cons r rest ih =>
    intro d n n1 hwf hk hr
    have hrn : r ≠ nul := fun h => hk (by simp [h])
    have hrest : nul ∉ rest := fun h => hk (by simp [h])
    cases hg : getChild n.children r with
    | none => simp [removeRec, hg] at hr
    | some c =>
      simp only [removeRec, hg] at hr
      obtain ⟨hcv, hcw⟩ := WFChildren_getChild hwf.2.2 hg
      have hin : WFInner (d + 1) c := WFInner_of_WFNode hcw (by rw [hcv]; exact hrn)
      cases hrc : removeRec c rest with
      | some c1 =>
        obtain ⟨p, r2, h1, h2, h3, h4⟩ := ih (d + 1) c c1 hin hrest hrc
        refine ⟨r :: p, r2, ?_, by simp; omega, ?_, ?_⟩
        · simpa [hasPath, hg] using h1
        · rw [List.cons_prefix_cons]; exact ⟨rfl, h3⟩
        · simpa using h4
      | none =>
        rw [hrc] at hr
        by_cases hgt : n.children.length > 1
        · obtain ⟨r2, c2, hg2, hne⟩ := other_child hwf.2.2 hgt r
          refine ⟨[], r2, by simp [hasPath, hg2], by simp, List.nil_prefix, ?_⟩
          simp only [List.length_nil, List.getElem?_cons_zero, ne_eq, Option.some.injEq]
          exact fun h => hne h.symm
        · simp [hgt] at hr

theorem hasPath_snoc_nul (p : List Char) : ∀ (n : Node M),
    hasPath n (p ++ [nul]) = (sentinelIn n.children p).isSome := by
  induction p with
  | nil =>
    intro n
    cases hg : getChild n.children nul <;> simp [hasPath, sentinelIn, hg]
  | cons r rest ih =>
    intro n
    cases hg : getChild n.children r with
    | none => simp [hasPath, sentinelIn, hg]
    | some c => simp only [List.cons_append, hasPath, sentinelIn, hg]; exact ih c

theorem getElem?_of_isPrefix {l1 l2 : List Char} (h : l1 <+: l2) {i : Nat}
    (hi : i < l1.length) : l2[i]? = l1[i]? := by
  obtain ⟨t, rfl⟩ := h
  simp [List.getElem?_append, hi]

theorem removeRec_some_other_key (adds : List (GoString × Option M))
    (hnul : ∀ p ∈ adds, nul ∉ runes p.1) (k : List Char) (hk : nul ∉ k) (n1 : Node M)
    (hr : removeRec (build adds).root k = some n1) :
    ∃ s ∈ adds.map Prod.fst, ¬ k <+: (runes s) := by
  have hwf := TrieWF_build adds hnul
  obtain ⟨p, r2, h1, h2, h3, h4⟩ := removeRec_some_branch k 0 _ n1 hwf.2 hk hr
  have hpn : nul ∉ p := by
    obtain ⟨t, ht⟩ := h3
    intro h
    exact hk (by rw [← ht]; simp [h])
  by_cases hr2 : r2 = nul
  · subst hr2
    rw [hasPath_snoc_nul] at h1
    obtain ⟨p0, hp0, hp0e⟩ := List.mem_map.1 ((stored_build adds hnul p).1 ⟨hpn, h1⟩)
    refine ⟨p0.1, List.mem_map.2 ⟨p0, hp0, rfl⟩, ?_⟩
    intro hpre
    have := hpre.length_le
    simp only [hp0e] at this
    omega
  · have hpn2 : nul ∉ p ++ [r2] := by
      simp only [List.mem_append, List.mem_singleton, not_or]
      exact ⟨hpn, fun h => hr2 h.symm⟩
    rcases (hasPath_build adds _ hpn2).1 h1 with h5 | ⟨key, hkey, h5⟩
    · simp at h5
    · refine ⟨key, hkey, fun hpre => h4 ?_⟩
      have e1 := getElem?_of_isPrefix hpre h2
      have e2 := getElem?_of_isPrefix h5 (i := p.length) (by simp)
      rw [← e1, e2]
      simp

theorem Keys_congr {t1 t2 : Trie M} (h : t1.root = t2.root) : Keys t1 = Keys t2 := by
  simp only [Keys, PrefixSearch, h]

/-- On a trie built by `Add` calls on keys free of `nul`, for a `k` free of `nul`
whose character path exists, `Remove(k)` returns with `size` one less; when the
runes of some stored key do not start with the runes of `k`, `Keys()` afterwards
lists exactly the spellings of the stored keys whose runes do not start with the
runes of `k`; otherwise the tree is unchanged. -/
theorem Remove_build_effect (adds : List (GoString × Option M))
    (hnul : ∀ p ∈ adds, nul ∉ runes p.1) (k : GoString) (hknul : nul ∉ runes k)
    (hpath : hasPath (build adds).root (runes k) = true) :
    ∃ t1, Remove (build adds) k = .ok t1 ∧ t1.size = (build adds).size - 1
      ∧ ((∃ s ∈ adds.map Prod.fst, ¬ runes k <+: runes s) →
          ∃ l, Keys t1 = .ok l
            ∧ ∀ s : GoString, s ∈ l ↔ ∃ key ∈ adds.map Prod.fst,
                stringOfRunes (runes key) = s ∧ ¬ runes k <+: runes key)
      ∧ ((∀ s ∈ adds.map Prod.fst, runes k <+: runes s) →
          t1.root = (build adds).root
            ∧ ∃ l, Keys t1 = .ok l ∧ ∀ s : GoString, s ∈ l ↔ ∃ key ∈ adds.map Prod.fst,
                stringOfRunes (runes key) = s) := by
  have hwf := TrieWF_build adds hnul
  obtain ⟨res, hf⟩ : ∃ res, findNode [] (build adds).root (runes k) = some res := by
    rw [← findNode_isSome []] at hpath
    exact Option.isSome_iff_exists.1 hpath
  have hrem := Remove_of_findNode _ _ res hf
  cases hr : removeRec (build adds).root (runes k) with
  | none =>
    rw [hr] at hrem
    simp only [Option.getD_none] at hrem
    refine ⟨_, hrem, rfl, ?_, ?_⟩
    · rintro ⟨s0, hs0, hs0k⟩
      obtain ⟨p0, hp0, rfl⟩ := List.mem_map.1 hs0
      exact absurd (removeRec_none_stored _ 0 _ hwf.2 hknul hpath hr (runes p0.1)
        ((stored_build adds hnul (runes p0.1)).2 (List.mem_map.2 ⟨p0, hp0, rfl⟩)).2) hs0k
    · intro _
      refine ⟨rfl, ?_⟩
      obtain ⟨l, hl, -, hmem⟩ := Keys_build_nodup adds hnul
      refine ⟨l, ?_, hmem⟩
      rw [← hl]
      exact Keys_congr rfl
  | some n1 =>
    rw [hr] at hrem
    simp only [Option.getD_some] at hrem
    have hwf1 := TrieWF_Remove hwf hrem
    refine ⟨_, hrem, rfl, ?_, ?_⟩
    · intro _
      refine ⟨_, Keys_eq _ hwf1, fun s => ?_⟩
      have hsem := removeRec_some_stored _ 0 _ n1 hwf.2 hknul hpath hr
      constructor
      · intro hmem
        obtain ⟨q, hq, rfl⟩ := List.mem_map.1 hmem
        obtain ⟨hq1, hq2⟩ := (mem_suffixesList_iff q 0 _ hwf1.2.2.2).1 hq
        rw [hsem q hq1] at hq2
        by_cases hpq : runes k <+: q
        · simp [hpq] at hq2
        · simp only [hpq, if_false] at hq2
          obtain ⟨p0, hp0, rfl⟩ := List.mem_map.1 ((stored_build adds hnul q).1 ⟨hq1, hq2⟩)
          exact ⟨p0.1, List.mem_map.2 ⟨p0, hp0, rfl⟩, rfl, hpq⟩
      · rintro ⟨key, hkey, rfl, hsk⟩
        obtain ⟨p0, hp0, rfl⟩ := List.mem_map.1 hkey
        obtain ⟨h1, h2⟩ := (stored_build adds hnul (runes p0.1)).2
          (List.mem_map.2 ⟨p0, hp0, rfl⟩)
        refine List.mem_map.2
          ⟨runes p0.1, (mem_suffixesList_iff (runes p0.1) 0 _ hwf1.2.2.2).2 ⟨h1, ?_⟩, rfl⟩
        rw [hsem (runes p0.1) h1]
        simp only [hsk, if_false]
        exact h2
    · intro hall
      obtain ⟨s, hs, hsk⟩ := removeRec_some_other_key adds hnul (runes k) hknul n1 hr
      exact absurd (hall s hs) hsk

/-- C16, as stated, fails at a `k` that ends in a NUL rune: on the trie holding
`a` and `ab` the character path of `k = "a\x00"` exists (it ends in the terminal
node of `a`) and no stored key starts with `k`, so `E` is empty; yet `Remove(k)`
returns and `Keys()` afterwards lists `ab` alone, the stored key `a` is gone. -/
theorem C16_nul_key_counterexample :
    (∀ p ∈ [(utf8 "a", some 1), (utf8 "ab", some 2)], nul ∉ runes p.1)
      ∧ hasPath (build [(utf8 "a", some 1), (utf8 "ab", some 2)]).root
          (runes ([0x61, 0x00] : GoString)) = true
      ∧ (∀ s ∈ [(utf8 "a", some 1), (utf8 "ab", some 2)].map Prod.fst,
          ¬ ([0x61, 0x00] : GoString) <+: s)
      ∧ (Remove (build [(utf8 "a", some 1), (utf8 "ab", some 2)]) [0x61, 0x00]).bind Keys
          = .ok [utf8 "ab"]
      ∧ utf8 "a" ∈ [(utf8 "a", some 1), (utf8 "ab", some 2)].map Prod.fst
      ∧ utf8 "a" ∉ [utf8 "ab"] := by
  decide

/-- C16, amended: on a trie built by `Add` calls on keys that are valid UTF-8 and
free of `nul`, for a `k` that is valid UTF-8 and free of `nul` and whose character
path exists, `Remove(k)` returns with `size` one less; when some stored key does
not start with `k`, `Keys()` afterwards lists exactly the stored keys that do
not start with `k`; when every stored key starts with `k`, the tree is unchanged
and `Keys()` lists the stored keys. -/
theorem C16_remove_exact_effect (adds : List (GoString × Option M))
    (hnul : ∀ p ∈ adds, nul ∉ runes p.1) (hvalid : ∀ p ∈ adds, ValidString p.1 = true)
    (k : GoString) (hknul : nul ∉ runes k) (hkvalid : ValidString k = true)
    (hpath : hasPath (build adds).root (runes k) = true) :
    ∃ t1, Remove (build adds) k = .ok t1 ∧ t1.size = (build adds).size - 1
      ∧ ((∃ s ∈ adds.map Prod.fst, ¬ k <+: s) →
          ∃ l, Keys t1 = .ok l
            ∧ ∀ s : GoString, s ∈ l ↔ (s ∈ adds.map Prod.fst ∧ ¬ k <+: s))
      ∧ ((∀ s ∈ adds.map Prod.fst, k <+: s) →
          t1.root = (build adds).root
            ∧ ∃ l, Keys t1 = .ok l ∧ ∀ s : GoString, s ∈ l ↔ s ∈ adds.map Prod.fst) := by
  have hpre : ∀ s ∈ adds.map Prod.fst, (k <+: s ↔ runes k <+: runes s) := by
    intro s hs
    obtain ⟨p, hp, rfl⟩ := List.mem_map.1 hs
    exact starts_iff_runes_start hkvalid (hvalid p hp)
  have hsp : ∀ s ∈ adds.map Prod.fst, stringOfRunes (runes s) = s := by
    intro s hs
    obtain ⟨p, hp, rfl⟩ := List.mem_map.1 hs
    exact ValidString_eq (hvalid p hp)
  obtain ⟨t1, hrem, hsize, h1, h2⟩ := Remove_build_effect adds hnul k hknul hpath
  refine ⟨t1, hrem, hsize, ?_, ?_⟩
  · rintro ⟨s0, hs0, hs0k⟩
    obtain ⟨l, hl, hmem⟩ := h1 ⟨s0, hs0, fun h => hs0k ((hpre s0 hs0).2 h)⟩
    refine ⟨l, hl, fun s => ?_⟩
    rw [hmem s]
    constructor
    · rintro ⟨key, hkey, rfl, hn⟩
      rw [hsp key hkey]
      exact ⟨hkey, fun h => hn ((hpre key hkey).1 h)⟩
    · rintro ⟨hs, hn⟩
      exact ⟨s, hs, hsp s hs, fun h => hn ((hpre s hs).2 h)⟩
  · intro hall
    obtain ⟨hroot, l, hl, hmem⟩ := h2 (fun s hs => (hpre s hs).1 (hall s hs))
    refine ⟨hroot, l, hl, fun s => ?_⟩
    rw [hmem s]
    constructor
    · rintro ⟨key, hkey, rfl⟩
      rwa [hsp key hkey]
    · intro hs
      exact ⟨s, hs, hsp s hs⟩

/-- C16, amended, at the trie holding `a`, `ab`, `abc`, `b` and the key `ab`. -/
theorem C16_remove_exact_effect_witness :
    ∃ t1, Remove (build [(utf8 "a", some 1), (utf8 "ab", some 2), (utf8 "abc", some 3),
        (utf8 "b", some 4)]) (utf8 "ab") = .ok t1
      ∧ t1.size = (build [(utf8 "a", some 1), (utf8 "ab", some 2), (utf8 "abc", some 3),
          (utf8 "b", some 4)]).size - 1
      ∧ ((∃ s ∈ [(utf8 "a", some 1), (utf8 "ab", some 2), (utf8 "abc", some 3),
            (utf8 "b", some 4)].map Prod.fst, ¬ utf8 "ab" <+: s) →
          ∃ l, Keys t1 = .ok l
            ∧ ∀ s : GoString, s ∈ l ↔ (s ∈ [(utf8 "a", some 1), (utf8 "ab", some 2),
                (utf8 "abc", some 3), (utf8 "b", some 4)].map Prod.fst ∧ ¬ utf8 "ab" <+: s))
      ∧ ((∀ s ∈ [(utf8 "a", some 1), (utf8 "ab", some 2), (utf8 "abc", some 3),
            (utf8 "b", some 4)].map Prod.fst, utf8 "ab" <+: s) →
          t1.root = (build [(utf8 "a", some 1), (utf8 "ab", some 2), (utf8 "abc", some 3),
              (utf8 "b", some 4)]).root
            ∧ ∃ l, Keys t1 = .ok l ∧ ∀ s : GoString, s ∈ l ↔ s ∈ [(utf8 "a", some 1),
                (utf8 "ab", some 2), (utf8 "abc", some 3), (utf8 "b", some 4)].map Prod.fst) :=
  C16_remove_exact_effect [(utf8 "a", some 1), (utf8 "ab", some 2), (utf8 "abc", some 3),
    (utf8 "b", some 4)] (by decide) (by decide) (utf8 "ab") (by decide) (by decide) (by decide)

/-! ### Masks of the tries built by `Add` alone -/

theorem or_or_absorb {a b c : Nat} (h : a &&& b = b) : a ||| (b ||| c) = a ||| c := by
  rw [← Nat.or_assoc, or_eq_of_covers h]

theorem orMasks_setChild (cs : List (Char × Node M)) (r : Char) (c : Node M)
    (h : ∀ o, getChild cs r = some o → c.mask &&& o.mask = o.mask) :
    orMasks (setChild cs r c) = orMasks cs ||| c.mask := by
  induction cs with
  | nil => simp [setChild, orMasks_cons, orMasks_nil]
  | cons x rest ih =>
    obtain ⟨k, y⟩ := x
    by_cases hk : k = r
    · have hy := h y (by simp [getChild, hk])
      simp only [setChild, hk, if_true, orMasks_cons]
      rw [Nat.or_comm y.mask, Nat.or_assoc, Nat.or_comm y.mask, or_eq_of_covers hy,
        Nat.or_comm]
    · have hrest : ∀ o, getChild rest r = some o → c.mask &&& o.mask = o.mask := by
        intro o ho
        exact h o (by simp [getChild, hk, ho])
      simp only [setChild, hk, if_false, orMasks_cons, ih hrest, Nat.or_assoc]

theorem ExactMask_iff (n : Node M) :
    ExactMask n ↔ n.mask = runeBit n.val ||| orMasks n.children ∧ ExactMaskList n.children := by
  cases n; simp [ExactMask]

theorem ExactMaskList_getChild {cs : List (Char × Node M)} (h : ExactMaskList cs) {r : Char}
    {c : Node M} (hg : getChild cs r = some c) : ExactMask c := by
  induction cs with
  | nil => simp [getChild] at hg
  | cons x rest ih =>
    obtain ⟨k, y⟩ := x
    simp only [ExactMaskList] at h
    by_cases hk : k = r
    · simp only [getChild, hk, if_true, Option.some.injEq] at hg
      rw [← hg]; exact h.1
    · simp only [getChild, hk, if_false] at hg
      exact ih h.2 hg

theorem ExactMaskList_setChild {cs : List (Char × Node M)} (h : ExactMaskList cs) (r : Char)
    {c : Node M} (hc : ExactMask c) : ExactMaskList (setChild cs r c) := by
  induction cs with
  | nil => simp [setChild, ExactMaskList, hc]
  | cons x rest ih =>
    obtain ⟨k, y⟩ := x
    simp only [ExactMaskList] at h
    by_cases hk : k = r
    · simp only [setChild, hk, if_true, ExactMaskList]
      exact ⟨hc, h.2⟩
    · simp only [setChild, hk, if_false, ExactMaskList]
      exact ⟨h.1, ih h.2⟩

theorem sentinel_mask_zero {d : Nat} {cs : List (Char × Node M)} (hwf : WFChildren d cs)
    (hex : ExactMaskList cs) {o : Node M} (hg : getChild cs nul = some o) : o.mask = 0 := by
  obtain ⟨hv, hw⟩ := WFChildren_getChild hwf hg
  rw [WFNode_iff] at hw
  simp only [hv, if_true] at hw
  have h := ((ExactMask_iff o).1 (ExactMaskList_getChild hex hg)).1
  rw [h, hv, hw.2.2.2, runeBit_nul, orMasks_nil]
  rfl

theorem setChild_setChild (cs : List (Char × Node M)) (r : Char) (a b : Node M) :
    setChild (setChild cs r a) r b = setChild cs r b := by
  induction cs with
  | nil => simp [setChild]
  | cons x rest ih =>
    obtain ⟨k, y⟩ := x
    by_cases hk : k = r
    · simp [setChild, hk]
    · simp [setChild, hk, ih]

theorem addLoop_ExactMask (k : List Char) (hk : nul ∉ k) (m : Option M) : ∀ (d : Nat)
    (node : Node M), WFInner d node → ExactMaskList node.children →
    node.mask = (runeBit node.val ||| orMasks node.children) ||| maskruneslice k →
    ExactMask (addLoop node k m).1 := by
  induction k with
  | nil =>
    intro d node hwf hex hmask
    rw [ExactMask_iff]
    simp only [addLoop_nil, NewChild_fst_mask, NewChild_fst_val, NewChild_fst_children,
      Nat.or_zero]
    have hor : orMasks (setChild node.children nul
        (Node.mk nul true (node.depth + 1) m 0 [])) = orMasks node.children := by
      rw [orMasks_setChild]
      · simp
      · intro o ho
        rw [sentinel_mask_zero hwf.2.2 hex ho]
        simp
    refine ⟨?_, ExactMaskList_setChild hex nul (by simp [ExactMask, runeBit_nul, orMasks_nil,
      ExactMaskList])⟩
    rw [hor, hmask, maskruneslice_nil, Nat.or_zero]
  | cons r rest ih =>
    intro d node hwf hex hmask
    have hrn : r ≠ nul := fun h => hk (by simp [h])
    have hrest : nul ∉ rest := fun h => hk (by simp [h])
    have hcov : node.mask &&& maskruneslice (r :: rest) = maskruneslice (r :: rest) := by
      rw [hmask]
      exact covers_or_right (Nat.and_self _)
    have hcr : maskruneslice (r :: rest) &&& maskruneslice rest = maskruneslice rest := by
      rw [maskruneslice_cons]
      exact covers_or_right (Nat.and_self _)
    rw [ExactMask_iff, addLoop_fst_mask_eq node (r :: rest) m hcov,
      (addLoop_fst_fields node (r :: rest) m).1]
    cases hg : getChild node.children r with
    | none =>
      rw [addLoop_cons_none _ _ _ _ hg]
      simp only [plug_children, NewChild_fst_children, setChild_setChild]
      have hfw : WFInner (d + 1)
          (Node.mk r false (node.depth + 1) none (maskruneslice (r :: rest)) [] : Node M) := by
        simp [WFInner, hwf.1, WFChildren]
      have h4 := ih hrest (d + 1) _ hfw (by simp [ExactMaskList])
        (by simp [orMasks_nil, maskruneslice_cons])
      have h5 := addLoop_fst_mask_eq (Node.mk r false (node.depth + 1) none
        (maskruneslice (r :: rest)) [] : Node M) rest m (by simpa using hcr)
      simp only [Node.mask_mk] at h5
      have hor : orMasks (setChild node.children r
          (addLoop (Node.mk r false (node.depth + 1) none (maskruneslice (r :: rest)) [])
            rest m).1) = orMasks node.children ||| maskruneslice (r :: rest) := by
        rw [orMasks_setChild, h5]
        intro o ho
        rw [hg] at ho
        cases ho
      refine ⟨?_, ExactMaskList_setChild hex r h4⟩
      rw [hor, hmask, Nat.or_assoc]
    | some n =>
      rw [addLoop_cons_some _ _ _ _ _ hg]
      simp only [plug_children]
      obtain ⟨hnv, hnw⟩ := WFChildren_getChild hwf.2.2 hg
      have hin : WFInner (d + 1) n := WFInner_of_WFNode hnw (by rw [hnv]; exact hrn)
      have hen := (ExactMask_iff n).1 (ExactMaskList_getChild hex hg)
      have hcov2 : (n.setMask (n.mask ||| maskruneslice (r :: rest))).mask
          &&& maskruneslice rest = maskruneslice rest := by
        simp only [Node.mask_setMask]
        exact covers_or_right hcr
      have hpre : (n.setMask (n.mask ||| maskruneslice (r :: rest))).mask
          = (runeBit (n.setMask (n.mask ||| maskruneslice (r :: rest))).val
              ||| orMasks (n.setMask (n.mask ||| maskruneslice (r :: rest))).children)
            ||| maskruneslice rest := by
        simp only [Node.mask_setMask, Node.val_setMask, Node.children_setMask]
        have hb : n.mask &&& runeBit r = runeBit r := by
          rw [hen.1, hnv]
          exact covers_or_left (Nat.and_self _)
        rw [maskruneslice_cons, or_or_absorb hb, hen.1]
      have h4 := ih hrest (d + 1) _ (WFInner_setMask hin _) (by simpa using hen.2) hpre
      have h5 := addLoop_fst_mask_eq _ rest m hcov2
      simp only [Node.mask_setMask] at h5
      have hor : orMasks (setChild node.children r
          (addLoop (n.setMask (n.mask ||| maskruneslice (r :: rest))) rest m).1)
          = orMasks node.children ||| maskruneslice (r :: rest) := by
        rw [orMasks_setChild, h5]
        · exact or_or_absorb (orMasks_covers (getChild_mem hg))
        · intro o ho
          rw [hg] at ho
          simp only [Option.some.injEq] at ho
          rw [h5, ← ho]
          exact covers_or_left (Nat.and_self _)
      refine ⟨?_, ExactMaskList_setChild hex r h4⟩
      rw [hor, hmask, Nat.or_assoc]

theorem ExactMask_Add {t : Trie M} (hwf : TrieWF t) (hex : ExactMask t.root) (key : GoString)
    (hk : nul ∉ runes key) (m : Option M) : ExactMask (Add t key m).1.root := by
  rw [Add_root]
  have h := (ExactMask_iff t.root).1 hex
  apply addLoop_ExactMask (runes key) hk m 0 _ (WFInner_setMask hwf.2 _)
  · simpa using h.2
  · simp only [Node.mask_setMask, Node.val_setMask, Node.children_setMask]
    rw [h.1]

theorem ExactMask_foldl (ys : List (GoString × Option M)) (hnul : ∀ p ∈ ys, nul ∉ runes p.1)
    (t : Trie M) (hwf : TrieWF t) (hex : ExactMask t.root) :
    ExactMask (ys.foldl (fun t p => (Add t p.1 p.2).1) t).root := by
  induction ys generalizing t with
  | nil => exact hex
  | cons p rest ih =>
    simp only [List.foldl_cons]
    exact ih (fun q hq => hnul q (by simp [hq])) _ (TrieWF_Add hwf p.1 (hnul p (by simp)) p.2)
      (ExactMask_Add hwf hex p.1 (hnul p (by simp)) p.2)

theorem ExactMask_build (adds : List (GoString × Option M)) (hnul : ∀ p ∈ adds, nul ∉ runes p.1) :
    ExactMask (build adds).root :=
  ExactMask_foldl adds hnul New TrieWF_New
    (by simp [New, ExactMask, runeBit_nul, orMasks_nil, ExactMaskList])

theorem findNode_ExactMask (p : List Char) : ∀ (ps : List (Node M)) (n : Node M)
    (res : List (Node M) × Node M), ExactMask n → findNode ps n p = some res →
    ExactMask res.2 := by
  induction p with
  | nil =>
    intro ps n res hl hf
    simp only [findNode, Option.some.injEq] at hf
    rw [← hf]; exact hl
  | cons r rest ih =>
    intro ps n res hl hf
    cases hc : getChild n.children r with
    | none => simp [findNode, hc] at hf
    | some c =>
      simp only [findNode, hc] at hf
      exact ih _ _ _ (ExactMaskList_getChild ((ExactMask_iff n).1 hl).2 hc) hf

theorem maskAt_findNode (p : List Char) : ∀ (ps : List (Node M)) (n : Node M),
    (findNode ps n p).map (fun res => res.2.mask) = maskAt n p := by
  induction p with
  | nil => intro ps n; rfl
  | cons r rest ih =>
    intro ps n
    cases hc : getChild n.children r with
    | none => simp [findNode, maskAt, hc]
    | some c => simp only [findNode, maskAt, hc]; exact ih _ _

theorem maskAt_congr {n1 n2 : Node M} (h : n1.children = n2.children) (r : Char)
    (rest : List Char) : maskAt n1 (r :: rest) = maskAt n2 (r :: rest) := by
  simp only [maskAt, h]

theorem maskAt_leaf (v : Char) (t : Bool) (d : Nat) (m : Option M) (k : Nat) (r : Char)
    (rest : List Char) : maskAt (Node.mk v t d m k []) (r :: rest) = none := by
  simp [maskAt, getChild]

theorem maskAt_addLoop (k : List Char) (m : Option M) : ∀ (node : Node M) (r : Char)
    (rest : List Char), nul ∉ r :: rest →
    maskAt (addLoop node k m).1 (r :: rest)
      = if r :: rest <+: k then
          some ((maskAt node (r :: rest)).getD 0 ||| maskruneslice (k.drop rest.length))
        else maskAt node (r :: rest) := by
  induction k with
  | nil =>
    intro node r rest hp
    have hr : r ≠ nul := fun h => hp (by simp [h])
    simp [maskAt, addLoop_nil, getChild_setChild_ne _ _ _ _ hr]
  | cons r1 rest1 ih =>
    intro node r rest hp
    have hrest : nul ∉ rest := fun h => hp (by simp [h])
    have hcr : maskruneslice (r1 :: rest1) &&& maskruneslice rest1 = maskruneslice rest1 := by
      rw [maskruneslice_cons]
      exact covers_or_right (Nat.and_self _)
    by_cases hr : r = r1
    · subst hr
      cases hg : getChild node.children r with
      | none =>
        rw [addLoop_cons_none _ _ _ _ hg]
        have h5 := addLoop_fst_mask_eq (Node.mk r false (node.depth + 1) none
          (maskruneslice (r :: rest1)) [] : Node M) rest1 m (by simpa using hcr)
        simp only [Node.mask_mk] at h5
        cases rest with
        | nil =>
          simp [maskAt, hg, h5, List.nil_prefix]
        | cons r2 rest2 =>
          simp only [maskAt, plug_children, getChild_setChild_self, hg]
          have h6 := ih (Node.mk r false (node.depth + 1) none (maskruneslice (r :: rest1)) [])
            r2 rest2 hrest
          simp only [maskAt] at h6
          rw [h6]
          simp [List.cons_prefix_cons, getChild]
      | some n =>
        rw [addLoop_cons_some _ _ _ _ _ hg]
        have h5 := addLoop_fst_mask_eq (n.setMask (n.mask ||| maskruneslice (r :: rest1)))
          rest1 m (by
            simp only [Node.mask_setMask]
            exact covers_or_right hcr)
        simp only [Node.mask_setMask] at h5
        cases rest with
        | nil =>
          simp [maskAt, hg, h5, List.nil_prefix]
        | cons r2 rest2 =>
          simp only [maskAt, plug_children, getChild_setChild_self, hg]
          have h6 := ih (n.setMask (n.mask ||| maskruneslice (r :: rest1))) r2 rest2 hrest
          simp only [maskAt, Node.children_setMask] at h6
          rw [h6]
          simp [List.cons_prefix_cons]
    · have hne : ¬ (r :: rest <+: r1 :: rest1) := by
        simp only [List.cons_prefix_cons, not_and]
        exact fun h => absurd h hr
      cases hg : getChild node.children r1 with
      | none =>
        rw [addLoop_cons_none _ _ _ _ hg]
        simp only [maskAt, plug_children, NewChild_fst_children,
          getChild_setChild_ne _ _ _ _ hr, hne, if_false]
      | some n =>
        rw [addLoop_cons_some _ _ _ _ _ hg]
        simp only [maskAt, plug_children, getChild_setChild_ne _ _ _ _ hr, hne, if_false]

theorem orList_append_singleton (xs : List Nat) (y : Nat) :
    orList (xs ++ [y]) = orList xs ||| y := by
  simp [orList, List.foldl_append]

theorem keysMask_snoc (adds : List (GoString × Option M)) (k : GoString) (m : Option M)
    (p : List Char) :
    keysMask (adds ++ [(k, m)]) p
      = if p <+: (runes k) then keysMask adds p ||| maskruneslice ((runes k).drop (p.length - 1))
        else keysMask adds p := by
  by_cases h : p <+: (runes k)
  · simp [keysMask, List.filter_append, List.filter_cons, h, orList_append_singleton]
  · simp [keysMask, List.filter_append, List.filter_cons, h]

theorem maskAt_build (adds : List (GoString × Option M)) (r : Char) (rest : List Char)
    (hp : nul ∉ r :: rest) :
    (maskAt (build adds).root (r :: rest)).getD 0 = keysMask adds (r :: rest) := by
  induction adds using List.reverseRecOn with
  | nil => simp [build, New, maskAt, getChild, keysMask, orList]
  | append_singleton xs x ih =>
    obtain ⟨k, m⟩ := x
    have hb : build (xs ++ [(k, m)]) = (Add (build xs) k m).1 := by
      rw [build_append]; rfl
    rw [hb, Add_root, maskAt_addLoop _ _ _ r rest hp, keysMask_snoc,
      maskAt_congr (Node.children_setMask (build xs).root _) r rest]
    by_cases h : r :: rest <+: (runes k)
    · simp only [h, if_true, Option.getD_some, ih, List.length_cons, Nat.add_sub_cancel]
    · simp only [h, if_false, ih]

/-- C18: on a trie built by `Add` calls on keys over `a`-`z`, the node at the end
of every non-empty path `p` of real characters has a mask equal to the bit of its
own rune OR-ed with the masks of its children, and equal to the OR, over the
stored keys that pass through it, of `maskruneslice` of the key from that
node's rune on; and the terminal node under every path `q` has mask 0. -/
theorem C18_add_only_masks_exact (adds : List (GoString × Option M))
    (haz : ∀ p ∈ adds, ∀ c ∈ runes p.1, 'a' ≤ c ∧ c ≤ 'z') :
    (∀ p : List Char, p ≠ [] → nul ∉ p → hasPath (build adds).root p = true →
        ∃ res, findNode [] (build adds).root p = some res
          ∧ res.2.mask = recomputedMask res.2
          ∧ res.2.mask = keysMask adds p)
      ∧ ∀ q : List Char, nul ∉ q → hasPath (build adds).root (q ++ [nul]) = true →
        ∃ res, findNode [] (build adds).root (q ++ [nul]) = some res
          ∧ res.2.term = true ∧ res.2.mask = 0 := by
  have hnul : ∀ x ∈ adds, nul ∉ runes x.1 := fun x hx => not_nul_of_lower (haz x hx)
  have hwf := TrieWF_build adds hnul
  have hex := ExactMask_build adds hnul
  constructor
  · intro p hne hp hpath
    obtain ⟨res, hf⟩ : ∃ res, findNode [] (build adds).root p = some res := by
      rw [← findNode_isSome []] at hpath
      exact Option.isSome_iff_exists.1 hpath
    refine ⟨res, hf, ?_, ?_⟩
    · rw [recomputedMask_eq]
      exact ((ExactMask_iff res.2).1 (findNode_ExactMask _ _ _ _ hex hf)).1
    · cases p with
      | nil => exact absurd rfl hne
      | cons r rest =>
        have h1 := maskAt_findNode (r :: rest) [] (build adds).root
        rw [hf] at h1
        rw [← maskAt_build adds r rest hp, ← h1]
        rfl
  · intro q hq hsent
    obtain ⟨res, hf⟩ : ∃ res, findNode [] (build adds).root (q ++ [nul]) = some res := by
      rw [← findNode_isSome []] at hsent
      exact Option.isSome_iff_exists.1 hsent
    refine ⟨res, hf, ?_⟩
    rw [findNode_append] at hf
    cases hf0 : findNode [] (build adds).root q with
    | none => rw [hf0] at hf; cases hf
    | some res0 =>
      rw [hf0] at hf
      simp only [] at hf
      have hg0 : GoodChain [(build adds).root] [] := by simp [GoodChain, hwf.2.1]
      obtain ⟨hin, -⟩ := findNode_WF q hq [] _ 0 [] hwf.2 hg0 res0 hf0
      have hex0 := (ExactMask_iff res0.2).1 (findNode_ExactMask _ _ _ _ hex hf0)
      cases hc : getChild res0.2.children nul with
      | none => simp [findNode, hc] at hf
      | some c =>
        simp only [findNode, hc, Option.some.injEq] at hf
        rw [← hf]
        refine ⟨?_, sentinel_mask_zero hin.2.2 hex0.2 hc⟩
        obtain ⟨hv, hw⟩ := WFChildren_getChild hin.2.2 hc
        rw [WFNode_iff] at hw
        simp only [hv, if_true] at hw
        exact hw.2.2.1

/-- C18 at the keys `cat`, `car`, `cart`: the path `ca` and the terminal node of
`car`; and at the trie holding the empty key alone: its terminal node. -/
theorem C18_add_only_masks_exact_witness :
    (∃ res, findNode [] (build [(utf8 "cat", some 1), (utf8 "car", some 2),
          (utf8 "cart", some 3)]).root ['c', 'a'] = some res
        ∧ res.2.mask = recomputedMask res.2
        ∧ res.2.mask = keysMask [(utf8 "cat", some 1), (utf8 "car", some 2),
            (utf8 "cart", some 3)] ['c', 'a'])
      ∧ (∃ res, findNode [] (build [(utf8 "cat", some 1), (utf8 "car", some 2),
          (utf8 "cart", some 3)]).root (['c', 'a', 'r'] ++ [nul]) = some res
        ∧ res.2.term = true ∧ res.2.mask = 0)
      ∧ ∃ res, findNode [] (build [(([] : GoString), some 1)]).root ([] ++ [nul]) = some res
        ∧ res.2.term = true ∧ res.2.mask = 0 :=
  ⟨(C18_add_only_masks_exact
      [(utf8 "cat", some 1), (utf8 "car", some 2), (utf8 "cart", some 3)] (by decide)).1
      ['c', 'a'] (by decide) (by decide) (by decide),
    (C18_add_only_masks_exact
      [(utf8 "cat", some 1), (utf8 "car", some 2), (utf8 "cart", some 3)] (by decide)).2
      ['c', 'a', 'r'] (by decide) (by decide),
    (C18_add_only_masks_exact [(([] : GoString), some 1)] (by decide)).2
      [] (by decide) (by decide)⟩

end trie
